import Mathlib

/-!
# Verification of the Rewards-Sharing Simulation Engine core

A shallow embedding, in Lean 4, of the agent decision engine and the
pool-ranking / state-update engine of the simulation
(`logic/pool.py`, `logic/strategy.py`, `logic/stakeholder.py`, `logic/sim.py`).

Numbers are embedded as rationals (the Python code uses floats; every claim
checked here is about the algorithmic/relational content of the code, which is
exact arithmetic).  Python dictionaries are embedded as association lists;
a pool's `delegators` dictionary is kept in a canonical key-sorted form, which
is observationally equivalent (no behaviour of the engine depends on the
insertion order of the delegators mapping — only lookups, key sets and sums
are consumed).  Python object references into the global pool table are
embedded as pool ids resolved through the table, which models the aliasing
between the table and the two ranking structures.

Functions of the repository that live in modules not present in the source
tree (`logic/helper.py`, `logic/reward_schemes.py`,
`logic/stakeholder_profiles.py`) are modelled from the specification and are
marked `Modelled from the spec:` in their doc comments.
-/

namespace RSS

/-! ## Python tuple comparison

The ranking keys of the engine are Python tuples of numbers, of length two or
three; Python compares tuples lexicographically, with a shorter tuple that is
a prefix of a longer one comparing as smaller.  We embed the keys as
`List ℚ` with exactly that order. -/

/-- Python's `<=` on tuples of numbers, embedded on `List ℚ`:
lexicographic, a strict prefix is smaller. -/
def listLe : List ℚ → List ℚ → Bool
  | [], _ => true
  | _ :: _, [] => false
  | a :: as, b :: bs =>
    if a < b then true
    else if b < a then false
    else listLe as bs

/-- Strict version of `listLe`. -/
def listLt (x y : List ℚ) : Bool := listLe x y && !(listLe y x)

theorem listLe_refl (x : List ℚ) : listLe x x = true := by
  induction x with
  | nil => rfl
  | cons a as ih => simp [listLe, ih]

theorem listLe_cons_iff {a b : ℚ} {as bs : List ℚ} :
    listLe (a :: as) (b :: bs) = true ↔ a < b ∨ (a = b ∧ listLe as bs = true) := by
  rcases lt_trichotomy a b with h | h | h
  · simp [listLe, h]
  · subst h
    simp [listLe, lt_irrefl]
  · have hne : listLe (a :: as) (b :: bs) = false := by
      simp only [listLe]
      rw [if_neg (lt_asymm h), if_pos h]
    simp only [hne, Bool.false_eq_true, false_iff]
    rintro (h' | ⟨h', _⟩)
    · exact absurd h' (lt_asymm h)
    · exact absurd (h' ▸ h) (lt_irrefl a)

theorem listLe_total (x y : List ℚ) : listLe x y = true ∨ listLe y x = true := by
  induction x generalizing y with
  | nil => left; rfl
  | cons a as ih =>
    cases y with
    | nil => right; rfl
    | cons b bs =>
      rcases lt_trichotomy a b with h | h | h
      · left; exact listLe_cons_iff.mpr (Or.inl h)
      · subst h
        rcases ih bs with h' | h'
        · left; exact listLe_cons_iff.mpr (Or.inr ⟨rfl, h'⟩)
        · right; exact listLe_cons_iff.mpr (Or.inr ⟨rfl, h'⟩)
      · right; exact listLe_cons_iff.mpr (Or.inl h)

theorem listLe_trans {x y z : List ℚ} (hxy : listLe x y = true)
    (hyz : listLe y z = true) : listLe x z = true := by
  induction x generalizing y z with
  | nil => rfl
  | cons a as ih =>
    cases y with
    | nil => simp [listLe] at hxy
    | cons b bs =>
      cases z with
      | nil => simp [listLe] at hyz
      | cons c cs =>
        rcases listLe_cons_iff.mp hxy with hab | ⟨hab, hab'⟩ <;>
          rcases listLe_cons_iff.mp hyz with hbc | ⟨hbc, hbc'⟩
        · exact listLe_cons_iff.mpr (Or.inl (lt_trans hab hbc))
        · exact listLe_cons_iff.mpr (Or.inl (hbc ▸ hab))
        · exact listLe_cons_iff.mpr (Or.inl (hab ▸ hbc))
        · exact listLe_cons_iff.mpr (Or.inr ⟨hab.trans hbc, ih hab' hbc'⟩)

theorem listLe_antisymm {x y : List ℚ} (hxy : listLe x y = true)
    (hyx : listLe y x = true) : x = y := by
  induction x generalizing y with
  | nil =>
    cases y with
    | nil => rfl
    | cons b bs => simp [listLe] at hyx
  | cons a as ih =>
    cases y with
    | nil => simp [listLe] at hxy
    | cons b bs =>
      rcases listLe_cons_iff.mp hxy with hab | ⟨hab, hab'⟩ <;>
        rcases listLe_cons_iff.mp hyx with hba | ⟨hba, hba'⟩
      · exact absurd hba (lt_asymm hab)
      · exact absurd (hba ▸ hab) (lt_irrefl b)
      · exact absurd (hab ▸ hba) (lt_irrefl b)
      · subst hab
        exact congrArg (List.cons _) (ih hab' hba')

/-! ## Ordered insertion (the `SortedList.add` of `sortedcontainers`)

The engine stores pools in two `SortedList`s keyed by comparison functions.
We embed a `SortedList` as a plain list that is kept sorted: `add` is ordered
insertion, `remove` is removal of the (unique) matching element. -/

/-- Ordered insertion with respect to a boolean "less or equal" test:
`SortedList.add`. -/
def insertRanked (le : α → α → Bool) (a : α) : List α → List α
  | [] => [a]
  | b :: l => if le a b then a :: b :: l else b :: insertRanked le a l

theorem insertRanked_perm (le : α → α → Bool) (a : α) (l : List α) :
    (insertRanked le a l).Perm (a :: l) := by
  induction l with
  | nil => exact List.Perm.refl _
  | cons b l ih =>
    by_cases h : le a b
    · simp [insertRanked, h]
    · simp only [insertRanked, h, if_false]
      exact (ih.cons b).trans (List.Perm.swap a b l)

theorem mem_insertRanked {le : α → α → Bool} {a x : α} {l : List α} :
    x ∈ insertRanked le a l ↔ x = a ∨ x ∈ l := by
  constructor
  · intro h
    have := (insertRanked_perm le a l).mem_iff.mp h
    simpa using this
  · intro h
    apply (insertRanked_perm le a l).mem_iff.mpr
    simpa using h

/-- Ordered insertion preserves sortedness, given totality and transitivity
of the ordering test. -/
theorem pairwise_insertRanked {le : α → α → Bool}
    (total : ∀ x y, le x y = true ∨ le y x = true)
    (trans : ∀ {x y z}, le x y = true → le y z = true → le x z = true)
    {a : α} {l : List α}
    (hl : l.Pairwise (fun x y => le x y = true)) :
    (insertRanked le a l).Pairwise (fun x y => le x y = true) := by
  induction l with
  | nil => simp [insertRanked]
  | cons b l ih =>
    rcases List.pairwise_cons.mp hl with ⟨hb, hl'⟩
    by_cases h : le a b
    · simp only [insertRanked, h, if_true]
      refine List.pairwise_cons.mpr ⟨?_, hl⟩
      intro y hy
      rcases List.mem_cons.mp hy with hy | hy
      · exact hy ▸ h
      · exact trans h (hb y hy)
    · simp only [insertRanked, h, if_false]
      refine List.pairwise_cons.mpr ⟨?_, ih hl'⟩
      intro y hy
      rcases mem_insertRanked.mp hy with hy | hy
      · rw [hy]
        rcases total a b with h' | h'
        · exact absurd h' (by simpa using h)
        · exact h'
      · exact hb y hy

/-- Two lists sorted under the same total test, which are permutations of one
another, are equal — provided the test is antisymmetric on the elements in
play.  (Used to show that remove-then-reinsert round trips on the ranking
structures restore them exactly.) -/
theorem eq_of_perm_of_pairwise {le : α → α → Bool} :
    ∀ {l₁ l₂ : List α}, l₁.Perm l₂ →
    (∀ x ∈ l₁, ∀ y ∈ l₁, le x y = true → le y x = true → x = y) →
    l₁.Pairwise (fun x y => le x y = true) →
    l₂.Pairwise (fun x y => le x y = true) →
    l₁ = l₂ := by
  intro l₁
  induction l₁ with
  | nil =>
    intro l₂ hp _ _ _
    exact (List.Perm.nil_eq hp).symm ▸ rfl
  | cons a l₁ ih =>
    intro l₂ hp hanti hs₁ hs₂
    cases l₂ with
    | nil => exact absurd hp.symm (by simp)
    | cons b l₂ =>
      rcases List.pairwise_cons.mp hs₁ with ⟨ha, hs₁'⟩
      rcases List.pairwise_cons.mp hs₂ with ⟨hb, hs₂'⟩
      have hab : a = b := by
        have hma : a ∈ b :: l₂ := hp.mem_iff.mp (List.mem_cons_self a l₁)
        have hmb : b ∈ a :: l₁ := hp.symm.mem_iff.mp (List.mem_cons_self b l₂)
        rcases List.mem_cons.mp hma with h₁ | h₁
        · exact h₁
        rcases List.mem_cons.mp hmb with h₂ | h₂
        · exact h₂.symm
        exact hanti a (List.mem_cons_self a l₁) b (List.mem_cons.mpr (Or.inr h₂))
          (ha b h₂) (hb a h₁)
      subst hab
      have hp' : l₁.Perm l₂ := hp.cons_inv
      have : l₁ = l₂ := by
        refine ih hp' ?_ hs₁' hs₂'
        intro x hx y hy
        exact hanti x (List.mem_cons.mpr (Or.inr hx)) y (List.mem_cons.mpr (Or.inr hy))
      rw [this]

/-! ## Association-list dictionaries

Python `dict`s are embedded as association lists.  The global pool table uses
Python insertion-order semantics (`dset` replaces in place, appends if new);
a pool's `delegators` mapping is kept in canonical key-sorted form (`dsetS`),
which is observationally equivalent to the Python dictionary. -/

/-- `d[k]`: first entry with the given key. -/
def dget (d : List (Nat × β)) (k : Nat) : Option β :=
  match d with
  | [] => none
  | (k', v) :: t => if k' = k then some v else dget t k

/-- `d[k] = v` with Python `dict` semantics: replace in place, else append. -/
def dset (d : List (Nat × β)) (k : Nat) (v : β) : List (Nat × β) :=
  match d with
  | [] => [(k, v)]
  | (k', v') :: t => if k' = k then (k, v) :: t else (k', v') :: dset t k v

/-- `d.pop(k, None)`: remove the entry with the given key, if present. -/
def derase (d : List (Nat × β)) (k : Nat) : List (Nat × β) :=
  match d with
  | [] => []
  | (k', v') :: t => if k' = k then t else (k', v') :: derase t k

/-- `d[k] = v` on a canonically key-sorted association list: replace the
existing entry, else insert at the sorted position. -/
def dsetS (d : List (Nat × β)) (k : Nat) (v : β) : List (Nat × β) :=
  match d with
  | [] => [(k, v)]
  | (k', v') :: t =>
    if k = k' then (k, v) :: t
    else if k < k' then (k, v) :: (k', v') :: t
    else (k', v') :: dsetS t k v

/-- The keys of an association list. -/
def dkeys (d : List (Nat × β)) : List Nat := d.map Prod.fst

/-- `sum(d.values())`. -/
def dsum (d : List (Nat × ℚ)) : ℚ := (d.map Prod.snd).sum

/-- Well-formed canonical dictionary: keys strictly ascending. -/
def DSorted (d : List (Nat × β)) : Prop := (d.map Prod.fst).Pairwise (· < ·)

theorem dget_eq_none_iff {d : List (Nat × β)} {k : Nat} :
    dget d k = none ↔ k ∉ dkeys d := by
  induction d with
  | nil => simp [dget, dkeys]
  | cons e t ih =>
    obtain ⟨k', v'⟩ := e
    by_cases h : k' = k
    · subst h
      simp [dget, dkeys]
    · simp only [dget, if_neg h, dkeys, List.map_cons, List.mem_cons, ih]
      constructor
      · intro hn hc
        rcases hc with hc | hc
        · exact h hc.symm
        · exact hn hc
      · intro hn hc
        exact hn (Or.inr hc)

theorem mem_dkeys_of_dget {d : List (Nat × β)} {k : Nat} {a : β}
    (h : dget d k = some a) : k ∈ dkeys d := by
  by_contra hc
  rw [dget_eq_none_iff.mpr hc] at h
  exact absurd h (by simp)

theorem dkeys_derase_sub {d : List (Nat × β)} {k : Nat} :
    ∀ x ∈ dkeys (derase d k), x ∈ dkeys d := by
  induction d with
  | nil => intro x hx; exact hx
  | cons e t ih =>
    obtain ⟨k', v'⟩ := e
    intro x hx
    by_cases h : k' = k
    · simp only [derase, if_pos h] at hx
      simp only [dkeys, List.map_cons, List.mem_cons]
      exact Or.inr hx
    · simp only [derase, if_neg h, dkeys, List.map_cons, List.mem_cons] at hx ⊢
      rcases hx with hx | hx
      · exact Or.inl hx
      · exact Or.inr (ih x hx)

theorem dkeys_nodup_of_dsorted {d : List (Nat × β)} (hd : DSorted d) :
    (dkeys d).Nodup :=
  List.Pairwise.imp (fun h => Nat.ne_of_lt h) hd

theorem not_mem_dkeys_derase {d : List (Nat × β)} {k : Nat} (hd : DSorted d) :
    k ∉ dkeys (derase d k) := by
  induction d with
  | nil => simp [derase, dkeys]
  | cons e t ih =>
    obtain ⟨k', v'⟩ := e
    rcases List.pairwise_cons.mp hd with ⟨hk', ht⟩
    by_cases h : k' = k
    · subst h
      simp only [derase, if_pos rfl]
      intro hc
      exact absurd (hk' k' hc) (lt_irrefl k')
    · simp only [derase, if_neg h, dkeys, List.map_cons, List.mem_cons]
      intro hc
      rcases hc with hc | hc
      · exact h hc.symm
      · exact ih ht hc

theorem dget_derase_self (d : List (Nat × β)) (hd : DSorted d) (k : Nat) :
    dget (derase d k) k = none :=
  dget_eq_none_iff.mpr (not_mem_dkeys_derase hd)

theorem dget_derase_other (d : List (Nat × β)) (k j : Nat) (hne : j ≠ k) :
    dget (derase d k) j = dget d j := by
  induction d with
  | nil => rfl
  | cons e t ih =>
    obtain ⟨k', v'⟩ := e
    by_cases h : k' = k
    · subst h
      have h' : ¬ k' = j := fun hc => hne hc.symm
      rw [derase, if_pos rfl, dget, if_neg h']
    · simp only [derase, if_neg h, dget]
      by_cases h' : k' = j
      · simp only [if_pos h']
      · simp only [if_neg h', ih]

theorem derase_of_not_mem (d : List (Nat × β)) (k : Nat)
    (h : dget d k = none) : derase d k = d := by
  induction d with
  | nil => rfl
  | cons e t ih =>
    obtain ⟨k', v'⟩ := e
    by_cases hk : k' = k
    · rw [dget, if_pos hk] at h
      exact absurd h (by simp)
    · rw [dget, if_neg hk] at h
      rw [derase, if_neg hk, ih h]

theorem dsum_derase (d : List (Nat × ℚ)) (k : Nat) (a : ℚ)
    (h : dget d k = some a) : dsum (derase d k) = dsum d - a := by
  induction d with
  | nil => exact absurd h (by simp [dget])
  | cons e t ih =>
    obtain ⟨k', v'⟩ := e
    by_cases hk : k' = k
    · rw [dget, if_pos hk] at h
      obtain rfl : v' = a := by injection h
      rw [derase, if_pos hk]
      simp only [dsum, List.map_cons, List.sum_cons]
      ring
    · rw [dget, if_neg hk] at h
      rw [derase, if_neg hk]
      simp only [dsum, List.map_cons, List.sum_cons]
      have := ih h
      simp only [dsum] at this
      rw [this]
      ring

theorem dsum_dsetS_of_not_mem (d : List (Nat × ℚ)) (k : Nat) (v : ℚ)
    (h : dget d k = none) : dsum (dsetS d k v) = dsum d + v := by
  induction d with
  | nil => simp [dsetS, dsum]
  | cons e t ih =>
    obtain ⟨k', v'⟩ := e
    by_cases hk : k = k'
    · rw [dget, if_pos hk.symm] at h
      exact absurd h (by simp)
    · rw [dget, if_neg (fun hc => hk hc.symm)] at h
      by_cases hlt : k < k'
      · rw [dsetS, if_neg hk, if_pos hlt]
        simp only [dsum, List.map_cons, List.sum_cons]
        ring
      · rw [dsetS, if_neg hk, if_neg hlt]
        simp only [dsum, List.map_cons, List.sum_cons]
        have := ih h
        simp only [dsum] at this
        rw [this]
        ring

theorem dget_dsetS_self (d : List (Nat × β)) (k : Nat) (v : β) :
    dget (dsetS d k v) k = some v := by
  induction d with
  | nil => simp [dsetS, dget]
  | cons e t ih =>
    obtain ⟨k', v'⟩ := e
    by_cases hk : k = k'
    · rw [dsetS, if_pos hk, dget, if_pos rfl]
    · by_cases hlt : k < k'
      · rw [dsetS, if_neg hk, if_pos hlt, dget, if_pos rfl]
      · rw [dsetS, if_neg hk, if_neg hlt, dget, if_neg (fun hc => hk hc.symm), ih]

theorem dget_dsetS_other (d : List (Nat × β)) (k j : Nat) (v : β) (hne : j ≠ k) :
    dget (dsetS d k v) j = dget d j := by
  have hkj : ¬ k = j := fun hc => hne hc.symm
  induction d with
  | nil => simp [dsetS, dget, hkj]
  | cons e t ih =>
    obtain ⟨k', v'⟩ := e
    by_cases hk : k = k'
    · subst hk
      rw [dsetS, if_pos rfl, dget, if_neg hkj, dget, if_neg hkj]
    · by_cases hlt : k < k'
      · rw [dsetS, if_neg hk, if_pos hlt, dget, if_neg hkj, dget]
      · rw [dsetS, if_neg hk, if_neg hlt, dget, dget]
        by_cases h' : k' = j
        · rw [if_pos h', if_pos h']
        · rw [if_neg h', if_neg h', ih]

theorem dkeys_dsetS_sub {d : List (Nat × β)} {k : Nat} {v : β} :
    ∀ x ∈ dkeys (dsetS d k v), x = k ∨ x ∈ dkeys d := by
  induction d with
  | nil =>
    intro x hx
    simp [dsetS, dkeys] at hx
    exact Or.inl hx
  | cons e t ih =>
    obtain ⟨k', v'⟩ := e
    intro x hx
    by_cases hk : k = k'
    · rw [dsetS, if_pos hk] at hx
      simp only [dkeys, List.map_cons, List.mem_cons] at hx ⊢
      rcases hx with hx | hx
      · exact Or.inl hx
      · exact Or.inr (Or.inr hx)
    · by_cases hlt : k < k'
      · rw [dsetS, if_neg hk, if_pos hlt] at hx
        simp only [dkeys, List.map_cons, List.mem_cons] at hx ⊢
        rcases hx with hx | hx
        · exact Or.inl hx
        · exact Or.inr hx
      · rw [dsetS, if_neg hk, if_neg hlt] at hx
        simp only [dkeys, List.map_cons, List.mem_cons] at hx ⊢
        rcases hx with hx | hx
        · exact Or.inr (Or.inl hx)
        · rcases ih x hx with h | h
          · exact Or.inl h
          · exact Or.inr (Or.inr h)

theorem dsorted_dsetS (d : List (Nat × β)) (k : Nat) (v : β) (hd : DSorted d) :
    DSorted (dsetS d k v) := by
  induction d with
  | nil => simp [dsetS, DSorted]
  | cons e t ih =>
    obtain ⟨k', v'⟩ := e
    rcases List.pairwise_cons.mp hd with ⟨hk', ht⟩
    by_cases hk : k = k'
    · subst hk
      rw [dsetS, if_pos rfl]
      exact List.pairwise_cons.mpr ⟨hk', ht⟩
    · by_cases hlt : k < k'
      · rw [dsetS, if_neg hk, if_pos hlt]
        refine List.pairwise_cons.mpr ⟨?_, hd⟩
        intro j hj
        simp only [List.map_cons, List.mem_cons] at hj
        rcases hj with hj | hj
        · exact hj ▸ hlt
        · exact lt_trans hlt (hk' j hj)
      · have hgt : k' < k := by omega
        rw [dsetS, if_neg hk, if_neg hlt]
        refine List.pairwise_cons.mpr ⟨?_, ih ht⟩
        intro j hj
        rcases dkeys_dsetS_sub j hj with h | h
        · exact h ▸ hgt
        · exact hk' j h

theorem dsorted_derase (d : List (Nat × β)) (k : Nat) (hd : DSorted d) :
    DSorted (derase d k) := by
  induction d with
  | nil => exact hd
  | cons e t ih =>
    obtain ⟨k', v'⟩ := e
    rcases List.pairwise_cons.mp hd with ⟨hk', ht⟩
    by_cases h : k' = k
    · rw [derase, if_pos h]
      exact ht
    · rw [derase, if_neg h]
      refine List.pairwise_cons.mpr ⟨?_, ih ht⟩
      intro j hj
      exact hk' j (dkeys_derase_sub j hj)

/-- Round trip: erasing a present key from a canonical dictionary and
re-inserting its original value restores the dictionary exactly. -/
theorem dsetS_derase_roundtrip (d : List (Nat × β)) (k : Nat) (a : β)
    (hd : DSorted d) (h : dget d k = some a) :
    dsetS (derase d k) k a = d := by
  induction d with
  | nil => exact absurd h (by simp [dget])
  | cons e t ih =>
    obtain ⟨k', v'⟩ := e
    rcases List.pairwise_cons.mp hd with ⟨hk', ht⟩
    by_cases hk : k' = k
    · subst hk
      rw [dget, if_pos rfl] at h
      obtain rfl : v' = a := by injection h
      rw [derase, if_pos rfl]
      cases t with
      | nil => rfl
      | cons e' t' =>
        obtain ⟨k₂, v₂⟩ := e'
        have hlt : k' < k₂ := hk' k₂ (by simp)
        rw [dsetS, if_neg (Nat.ne_of_lt hlt), if_pos hlt]
    · rw [dget, if_neg hk] at h
      rw [derase, if_neg hk, dsetS]
      have hkk' : ¬ k = k' := fun hc => hk hc.symm
      have hklt : ¬ k < k' := by
        intro hc
        have hkt : k ∈ dkeys t := mem_dkeys_of_dget h
        exact absurd hc (not_lt.mpr (le_of_lt (hk' k hkt)))
      rw [if_neg hkk', if_neg hklt, ih ht h]

theorem mem_dsetS_sub {d : List (Nat × β)} {k : Nat} {v : β} :
    ∀ e ∈ dsetS d k v, e ∈ d ∨ e = (k, v) := by
  induction d with
  | nil =>
    intro e he
    simp [dsetS] at he
    exact Or.inr he
  | cons e' t ih =>
    obtain ⟨k', v'⟩ := e'
    intro e he
    by_cases hk : k = k'
    · rw [dsetS, if_pos hk] at he
      rcases List.mem_cons.mp he with he | he
      · exact Or.inr he
      · exact Or.inl (List.mem_cons.mpr (Or.inr he))
    · by_cases hlt : k < k'
      · rw [dsetS, if_neg hk, if_pos hlt] at he
        rcases List.mem_cons.mp he with he | he
        · exact Or.inr he
        · exact Or.inl he
      · rw [dsetS, if_neg hk, if_neg hlt] at he
        rcases List.mem_cons.mp he with he | he
        · exact Or.inl (List.mem_cons.mpr (Or.inl he))
        · rcases ih e he with h | h
          · exact Or.inl (List.mem_cons.mpr (Or.inr h))
          · exact Or.inr h

theorem dsum_dsetS_of_mem (d : List (Nat × ℚ)) (k : Nat) (v old : ℚ)
    (hd : DSorted d) (h : dget d k = some old) :
    dsum (dsetS d k v) = dsum d - old + v := by
  induction d with
  | nil => exact absurd h (by simp [dget])
  | cons e t ih =>
    obtain ⟨k', v'⟩ := e
    rcases List.pairwise_cons.mp hd with ⟨hk', ht⟩
    by_cases hk : k' = k
    · rw [dget, if_pos hk] at h
      obtain rfl : v' = old := by injection h
      rw [dsetS, if_pos hk.symm]
      simp only [dsum, List.map_cons, List.sum_cons]
      ring
    · rw [dget, if_neg hk] at h
      have hkk : ¬ k = k' := fun hc => hk hc.symm
      have hklt : ¬ k < k' :=
        not_lt.mpr (le_of_lt (hk' k (mem_dkeys_of_dget h)))
      rw [dsetS, if_neg hkk, if_neg hklt]
      simp only [dsum, List.map_cons, List.sum_cons]
      have := ih ht h
      simp only [dsum] at this
      rw [this]
      ring

theorem derase_dsetS_of_not_mem (d : List (Nat × β)) (k : Nat) (v : β)
    (h : dget d k = none) : derase (dsetS d k v) k = d := by
  induction d with
  | nil => simp [dsetS, derase]
  | cons e t ih =>
    obtain ⟨k', v'⟩ := e
    by_cases hk : k = k'
    · rw [dget, if_pos hk.symm] at h
      exact absurd h (by simp)
    · rw [dget, if_neg (fun hc => hk hc.symm)] at h
      by_cases hlt : k < k'
      · rw [dsetS, if_neg hk, if_pos hlt, derase, if_pos rfl]
      · rw [dsetS, if_neg hk, if_neg hlt, derase, if_neg (fun hc => hk hc.symm), ih h]

/-! ## The Pool entity (`logic/pool.py`) and the Strategy value object
(`logic/strategy.py`) -/

/-- Modelled from the spec: `helper.MIN_STAKE_UNIT` (`logic/helper.py` is not
in the source tree).  A positive minimum stake unit; amounts below it are
treated as zero/no allocation.  Its exact magnitude is immaterial to every
claim checked here, only its positivity is used. -/
def MIN_STAKE_UNIT : ℚ := 1 / 1000000000

theorem MIN_STAKE_UNIT_pos : 0 < MIN_STAKE_UNIT := by norm_num [MIN_STAKE_UNIT]

/-- `Pool` (`logic/pool.py`).  `potential_profit` and `desirability` are the
cached derived fields the Python object carries. -/
structure Pool where
  id : Nat
  cost : ℚ
  pledge : ℚ
  stake : ℚ
  owner : Nat
  is_private : Bool
  delegators : List (Nat × ℚ)
  margin : ℚ
  potential_profit : ℚ
  desirability : ℚ
deriving DecidableEq

/-- `Strategy` (`logic/strategy.py`): stake allocations (pool id ↦ amount)
and owned pools (pool id ↦ Pool).  The redundant `num_pools`/`pledges`/
`margins` fields are not consumed by any behaviour under verification. -/
structure Strategy where
  stake_allocations : List (Nat × ℚ) := []
  owned_pools : List (Nat × Pool) := []
deriving DecidableEq

/-- Modelled from the spec (§1, §6, §9): the externally-owned reward-scheme /
agent-profile collaborator, a pluggable parameter object exposing `k`, `a0`,
`global_saturation_threshold`, `get_pool_saturation_threshold(pledge)`, the
reward curve, the utility-threshold parameters, and the profit/utility and
per-pool cost/pledge formulas consumed by the decision engine
(`logic/helper.py`, `logic/reward_schemes.py` and
`logic/stakeholder_profiles.py` are not in the source tree). -/
structure Params where
  k : Nat
  a0 : ℚ
  global_saturation_threshold : ℚ
  get_pool_saturation_threshold : ℚ → ℚ
  /-- the reward curve: (pool stake, pledge) ↦ reward -/
  reward : ℚ → ℚ → ℚ
  relative_utility_threshold : ℚ
  absolute_utility_threshold : ℚ
  extra_pool_cost_fraction : ℚ
  /-- `helper.calculate_operator_utility_from_pool`:
  (pool stake, pledge, margin, cost) ↦ utility -/
  operator_utility_from_pool : ℚ → ℚ → ℚ → ℚ → ℚ
  /-- the profile's `calculate_delegator_utility_from_pool`:
  (pool, allocation) ↦ utility -/
  delegator_utility_from_pool : Pool → ℚ → ℚ
  /-- the profile's `calculate_operator_utility_from_strategy` -/
  operator_utility_from_strategy : Strategy → ℚ
  /-- the profile's `calculate_margins_and_utility(num_pools)`, a pure
  evaluation at the current state (§5: "the decision engine never mutates
  them during evaluation") -/
  margins_and_utility : Nat → List ℚ × ℚ
  /-- `helper.calculate_pledge_per_pool(agent_stake, global_saturation_threshold, num_pools)` -/
  pledge_per_pool : ℚ → ℚ → Nat → ℚ
  /-- `helper.calculate_cost_per_pool(num_pools, initial_cost, extra_pool_cost_fraction)` -/
  cost_per_pool : Nat → ℚ → ℚ → ℚ

/-- Modelled from the spec (§4.1): desirability as a function of margin and
potential profit — monotone increasing in potential profit, decreasing in
margin (`helper.calculate_pool_desirability`). -/
def calculate_pool_desirability (margin potential_profit : ℚ) : ℚ :=
  max ((1 - margin) * potential_profit) 0

/-- Modelled from the spec (glossary: myopic profit is realized-now profit):
`helper.calculate_current_profit`. -/
def calculate_current_profit (P : Params) (stake pledge cost : ℚ) : ℚ :=
  P.reward stake pledge - cost

/-- Modelled from the spec (glossary: potential profit is profit at the
pool's target steady state, its saturation point):
`helper.calculate_potential_profit`. -/
def calculate_potential_profit (P : Params) (pledge cost : ℚ) : ℚ :=
  P.reward (P.get_pool_saturation_threshold pledge) pledge - cost

/-- Modelled from the spec (§4.4): myopic desirability uses current realized
profit in place of potential profit
(`helper.calculate_myopic_pool_desirability`). -/
def calculate_myopic_pool_desirability (margin current_profit : ℚ) : ℚ :=
  max ((1 - margin) * current_profit) 0

/-- Modelled from the spec (§4.3): the margin that makes the pool's
desirability match the target desirability, clipped to `[0, ∞)`
(`helper.calculate_suitable_margin`). -/
def calculate_suitable_margin (potential_profit target_desirability : ℚ) : ℚ :=
  if potential_profit = 0 then 0
  else max (1 - target_desirability / potential_profit) 0

/-- `Pool.set_profit` (`logic/pool.py` line 28; its callers pass the whole
reward scheme, whose `a0`/`beta`/reward-curve components `Params` bundles). -/
def Pool.set_profit (P : Params) (p : Pool) : Pool :=
  { p with potential_profit := calculate_potential_profit P p.pledge p.cost }

/-- `Pool.set_desirability` (`logic/pool.py` line 31). -/
def Pool.set_desirability (p : Pool) : Pool :=
  { p with desirability := calculate_pool_desirability p.margin p.potential_profit }

/-- The `margin` property setter (`logic/pool.py` lines 21-26): setting the
margin automatically recomputes the desirability. -/
def Pool.set_margin (p : Pool) (m : ℚ) : Pool :=
  Pool.set_desirability { p with margin := m }

/-- `Pool.__init__` (`logic/pool.py` lines 5-15): stake starts equal to the
pledge, no delegators; potential profit and desirability are computed at
construction. -/
def mkPool (P : Params) (pool_id : Nat) (cost pledge : ℚ) (owner : Nat)
    (margin : ℚ) (isPrivate : Bool) : Pool :=
  Pool.set_desirability (Pool.set_profit P
    { id := pool_id, cost := cost, pledge := pledge, stake := pledge,
      owner := owner, is_private := isPrivate, delegators := [],
      margin := margin, potential_profit := 0, desirability := 0 })

/-- `Pool.update_delegation` (`logic/pool.py` lines 34-40): subtract the
delegator's previous amount from the stake if present, add the new amount,
store the new entry, and prune the entry if it is below the minimum stake
unit. -/
def Pool.update_delegation (p : Pool) (new_delegation : ℚ) (delegator_id : Nat) : Pool :=
  let p1 :=
    match dget p.delegators delegator_id with
    | some old => { p with stake := p.stake - old }
    | none => p
  let p2 := { p1 with stake := p1.stake + new_delegation }
  let p3 := { p2 with delegators := dsetS p2.delegators delegator_id new_delegation }
  if new_delegation < MIN_STAKE_UNIT then
    { p3 with delegators := derase p3.delegators delegator_id }
  else p3

/-- The in-place pledge/stake adjustment `find_operator_move` applies to an
existing pool (`logic/stakeholder.py` lines 186-187):
`pool.stake -= pool.pledge - pledge; pool.pledge = pledge`. -/
def Pool.adjust_pledge (p : Pool) (pledge : ℚ) : Pool :=
  { p with stake := p.stake - (p.pledge - pledge), pledge := pledge }

theorem mem_derase_sub {d : List (Nat × β)} {k : Nat} :
    ∀ e ∈ derase d k, e ∈ d := by
  induction d with
  | nil => intro e he; exact he
  | cons e' t ih =>
    obtain ⟨k', v'⟩ := e'
    intro e he
    by_cases h : k' = k
    · rw [derase, if_pos h] at he
      exact List.mem_cons.mpr (Or.inr he)
    · rw [derase, if_neg h] at he
      rcases List.mem_cons.mp he with he | he
      · exact List.mem_cons.mpr (Or.inl he)
      · exact List.mem_cons.mpr (Or.inr (ih e he))

theorem derase_dsetS (d : List (Nat × β)) (k : Nat) (v : β) (hd : DSorted d) :
    derase (dsetS d k v) k = derase d k := by
  induction d with
  | nil => simp [dsetS, derase]
  | cons e t ih =>
    obtain ⟨k', v'⟩ := e
    rcases List.pairwise_cons.mp hd with ⟨hk', ht⟩
    by_cases hk : k = k'
    · rw [dsetS, if_pos hk, derase, if_pos rfl, derase, if_pos hk.symm]
    · by_cases hlt : k < k'
      · rw [dsetS, if_neg hk, if_pos hlt, derase, if_pos rfl, derase,
          if_neg (fun hc => hk hc.symm)]
        have : dget t k = none := by
          rw [dget_eq_none_iff]
          intro hc
          exact absurd (lt_trans hlt (hk' k hc)) (lt_irrefl k)
        rw [derase_of_not_mem t k this]
      · rw [dsetS, if_neg hk, if_neg hlt, derase, if_neg (fun hc => hk hc.symm),
          derase, if_neg (fun hc => hk hc.symm), ih ht]

/-! ## The simulation state (`logic/sim.py`)

Python holds one `Pool` object per pool, shared by reference between the
global pool table and the two `SortedList` ranking structures.  We embed the
table as the heap (pool id ↦ pool value) and the rankings as lists of
`Option Nat` — `some id` is a reference into the table, `none` is a sentinel
placeholder — so that in-place mutation of a pool is visible through both
rankings, exactly as in Python. -/

/-- The per-agent state of a `Stakeholder` (`logic/stakeholder.py` lines
11-21).  `rankings_myopic` is modelled from the spec: the stakeholder-profile
subclass (not in the source tree) selects which of the two global rankings
the agent consults as `self.rankings`. -/
structure AgentSt where
  stake : ℚ
  cost : ℚ
  strategy : Strategy
  new_strategy : Option Strategy
  rankings_myopic : Bool
deriving DecidableEq

/-- The mutable coordinator state of `Simulation` (`logic/sim.py`):
the global pool table, the two rankings, the pool-id sequence, the agents,
and whether the activation order is (semi)simultaneous. -/
structure SimState where
  pools : List (Nat × Pool)
  rankingN : List (Option Nat)
  rankingM : List (Option Nat)
  id_seq : Nat
  agents : List (Nat × AgentSt)
  simultaneous : Bool
deriving DecidableEq

/-- Modelled from the spec (§4.4): the non-myopic comparison key
`helper.pool_comparison_key` — `(-desirability, -potential_profit, id)` for a
real pool, `(0, 0, 0)` for a `None` placeholder (negative-is-better keys,
ascending id tie-break). -/
def poolKeyN (tbl : List (Nat × Pool)) : Option Nat → List ℚ
  | none => [0, 0, 0]
  | some pid =>
    match dget tbl pid with
    | none => [0, 0, 0]
    | some p => [-p.desirability, -p.potential_profit, (p.id : ℚ)]

/-- `Simulation.pool_comparison_key_myopic` (`logic/sim.py` lines 427-436):
`(0, 0, 0)` for `None`, `(-myopic_desirability, id)` for a real pool, the
myopic desirability being computed from the pool's *current* profit under
the *current* reward-scheme parameters. -/
def poolKeyM (P : Params) (tbl : List (Nat × Pool)) : Option Nat → List ℚ
  | none => [0, 0, 0]
  | some pid =>
    match dget tbl pid with
    | none => [0, 0, 0]
    | some p =>
      [-(calculate_myopic_pool_desirability p.margin
          (calculate_current_profit P p.stake p.pledge p.cost)), (p.id : ℚ)]

/-- `SortedList.add`: ordered insertion under the ranking key. -/
def rankAdd (key : Option Nat → List ℚ) (x : Option Nat)
    (l : List (Option Nat)) : List (Option Nat) :=
  insertRanked (fun a b => listLe (key a) (key b)) x l

/-- `SortedList.remove`: removal of one occurrence of the value. -/
def rankRemove (x : Option Nat) (l : List (Option Nat)) : List (Option Nat) :=
  l.erase x

/-- The rankings are initialized as `k+1` `None` placeholders
(`logic/sim.py` lines 108-111). -/
def initRankings (k : Nat) : List (Option Nat) := List.replicate (k + 1) none

/-- `Simulation.get_next_pool_id` (`logic/sim.py` lines 195-197): increment
the sequence and return it. -/
def getNextPoolId (s : SimState) : SimState × Nat :=
  ({ s with id_seq := s.id_seq + 1 }, s.id_seq + 1)

/-- `Stakeholder.open_pool` (`logic/stakeholder.py` lines 332-337): put the
pool from the agent's strategy into the global table and insert it into both
rankings. -/
def openPool (P : Params) (s : SimState) (aid pool_id : Nat) : SimState :=
  match dget s.agents aid with
  | none => s
  | some ag =>
    match dget ag.strategy.owned_pools pool_id with
    | none => s
    | some pool =>
      let pools' := dset s.pools pool_id pool
      { s with pools := pools',
               rankingN := rankAdd (poolKeyN pools') (some pool_id) s.rankingN,
               rankingM := rankAdd (poolKeyM P pools') (some pool_id) s.rankingM }

/-- The (semi)simultaneous-activation scrub inside `remove_delegations`
(`logic/stakeholder.py` lines 357-361): drop the closed pool's id from an
agent's as-yet-uncommitted pending strategy. -/
def scrubAgent (pool_id : Nat) (ag : AgentSt) : AgentSt :=
  match ag.new_strategy with
  | none => ag
  | some ns =>
    let ns' := { ns with stake_allocations := derase ns.stake_allocations pool_id }
    { ag with new_strategy := some ns' }

/-- The scrub applied to one agent-table entry. -/
def scrubPending (pool_id : Nat) (e : Nat × AgentSt) : Nat × AgentSt :=
  (e.1, scrubAgent pool_id e.2)

/-- `Stakeholder.remove_delegations` (`logic/stakeholder.py` lines 349-361),
operating on a pool value (the Python function mutates the pool object in
place): for every delegator, drop the pool from the delegator's committed
allocations and zero the delegation on the pool; under (semi)simultaneous
activation additionally scrub the pool id from every agent's uncommitted
pending strategy. -/
def removeDelegStep (acc : SimState × Pool) (aid : Nat) : SimState × Pool :=
  let st := acc.1
  let pl := acc.2
  let st' :=
    match dget st.agents aid with
    | none => st
    | some ag =>
      let sa' := derase ag.strategy.stake_allocations pl.id
      let ag' := { ag with strategy := { ag.strategy with stake_allocations := sa' } }
      { st with agents := dset st.agents aid ag' }
  (st', pl.update_delegation 0 aid)

def removeDelegationsP (s : SimState) (pool : Pool) : SimState × Pool :=
  let acc := (dkeys pool.delegators).foldl removeDelegStep (s, pool)
  let s1 := acc.1
  let s2 :=
    if s1.simultaneous then
      { s1 with agents := s1.agents.map (scrubPending pool.id) }
    else s1
  (s2, acc.2)

/-- `Stakeholder.close_pool` (`logic/stakeholder.py` lines 339-347): remove
the pool from both rankings, undelegate all its delegators, then delete it
from the global pool table. -/
def closePool (s : SimState) (pool_id : Nat) : SimState :=
  match dget s.pools pool_id with
  | none => s
  | some pool =>
    let s1 := { s with rankingN := rankRemove (some pool_id) s.rankingN,
                       rankingM := rankRemove (some pool_id) s.rankingM }
    let s2 := (removeDelegationsP s1 pool).1
    { s2 with pools := derase s2.pools pool_id }

/-- `Stakeholder.update_pool` (`logic/stakeholder.py` lines 318-330): take
the updated pool from the pending strategy, undelegate if it turned private
while holding external stake, write it to the table, and re-key it in both
rankings. -/
def updatePool (P : Params) (s : SimState) (aid pool_id : Nat) : SimState :=
  match dget s.agents aid with
  | none => s
  | some ag =>
    match ag.new_strategy with
    | none => s
    | some ns =>
      match dget ns.owned_pools pool_id with
      | none => s
      | some updated_pool =>
        let acc :=
          if updated_pool.is_private && decide (updated_pool.pledge < updated_pool.stake)
          then removeDelegationsP s updated_pool
          else (s, updated_pool)
        let s1 := acc.1
        let pools' := dset s1.pools pool_id acc.2
        { s1 with pools := pools',
                  rankingN := rankAdd (poolKeyN pools') (some pool_id)
                    (rankRemove (some pool_id) s1.rankingN),
                  rankingM := rankAdd (poolKeyM P pools') (some pool_id)
                    (rankRemove (some pool_id) s1.rankingM) }

/-- `Simulation.change_phase` (`logic/sim.py` lines 394-413): remove every
pool from both rankings, switch to the next phase's parameters, recompute
every pool's potential profit and desirability, and reinsert every pool.
The parameter mutation itself (`setattr` over the multi-valued fields) is
represented by the transition from `P` to `P'`. -/
def changePhase (P' : Params) (s : SimState) : SimState :=
  let pids := dkeys s.pools
  let rN1 := pids.foldl (fun l pid => rankRemove (some pid) l) s.rankingN
  let rM1 := pids.foldl (fun l pid => rankRemove (some pid) l) s.rankingM
  let pools' := s.pools.map (fun e => (e.1, Pool.set_desirability (Pool.set_profit P' e.2)))
  { s with pools := pools',
           rankingN := pids.foldl (fun l pid => rankAdd (poolKeyN pools') (some pid) l) rN1,
           rankingM := pids.foldl (fun l pid => rankAdd (poolKeyM P' pools') (some pid) l) rM1 }

/-- The remove-then-mutate-then-reinsert delegation update on the myopic
ranking used by `execute_strategy` and `determine_stake_allocations`
(`logic/stakeholder.py` lines 292-294 / 238-241 / 266-268):
`pool_rankings_myopic.remove(pool); pool.update_delegation(...);
pool_rankings_myopic.add(pool)`. -/
def delegateStep (P : Params) (st : SimState) (pid : Nat) (amount : ℚ)
    (aid : Nat) : SimState :=
  match dget st.pools pid with
  | none => st
  | some pool =>
    let pool' := pool.update_delegation amount aid
    let pools' := dset st.pools pid pool'
    { st with pools := pools',
              rankingM := rankAdd (poolKeyM P pools') (some pid)
                (rankRemove (some pid) st.rankingM) }

/-- The strategy swap inside `execute_strategy` (`logic/stakeholder.py`
lines 298-300): the pending strategy becomes the committed one. -/
def execSwap (s4 : SimState) (aid : Nat) : SimState :=
  match dget s4.agents aid with
  | none => s4
  | some ag4 =>
    match ag4.new_strategy with
    | none => s4
    | some ns4 =>
      let ag' := { ag4 with strategy := ns4, new_strategy := none }
      { s4 with agents := dset s4.agents aid ag' }

/-- `Stakeholder.execute_strategy` (`logic/stakeholder.py` lines 280-316):
diff the delegation allocations (remove the old-only ones, add/update the
new ones, re-keying the myopic ranking around every mutation), close the
pools that disappeared from the owned set, update the ones kept, swap the
agent's strategy, and open the new ones. -/
def executeStrategy (P : Params) (s : SimState) (aid : Nat) : SimState :=
  match dget s.agents aid with
  | none => s
  | some ag =>
    match ag.new_strategy with
    | none => s
    | some ns =>
      let old_allocs := ag.strategy.stake_allocations
      let new_allocs := ns.stake_allocations
      let removed := (dkeys old_allocs).filter (fun pid => decide (pid ∉ dkeys new_allocs))
      let s1 := removed.foldl (fun st pid => delegateStep P st pid 0 aid) s
      let s2 := new_allocs.foldl (fun st e => delegateStep P st e.1 e.2 aid) s1
      let old_owned := dkeys ag.strategy.owned_pools
      let new_owned := dkeys ns.owned_pools
      let s3 := (old_owned.filter (fun pid => decide (pid ∉ new_owned))).foldl
        (fun st pid => closePool st pid) s2
      let s4 := (new_owned.filter (fun pid => decide (pid ∈ old_owned))).foldl
        (fun st pid => updatePool P st aid pid) s3
      let s5 := execSwap s4 aid
      (new_owned.filter (fun pid => decide (pid ∉ old_owned))).foldl
        (fun st pid => openPool P st aid pid) s5

/-! ## The agent decision engine (`logic/stakeholder.py`) -/

/-- The ranking the agent consults as `self.rankings` (selected by the
stakeholder profile, modelled from the spec §3). -/
def agentRankings (s : SimState) (ag : AgentSt) : List (Option Nat) :=
  if ag.rankings_myopic then s.rankingM else s.rankingN

/-- `Stakeholder.calculate_current_utility` (`logic/stakeholder.py` lines
70-80): operator utility from each owned pool's current state plus delegator
utility from each current allocation. -/
def calculateCurrentUtility (P : Params) (s : SimState) (ag : AgentSt) : ℚ :=
  (ag.strategy.owned_pools.map (fun e =>
    P.operator_utility_from_pool e.2.stake e.2.pledge e.2.margin e.2.cost)).sum +
  (ag.strategy.stake_allocations.map (fun e =>
    match dget s.pools e.1 with
    | some pool => P.delegator_utility_from_pool pool e.2
    | none => 0)).sum

/-- `Stakeholder.calculate_expected_utility` (`logic/stakeholder.py` lines
82-95). -/
def calculateExpectedUtility (P : Params) (s : SimState) (strategy : Strategy) : ℚ :=
  (if 0 < strategy.owned_pools.length then P.operator_utility_from_strategy strategy else 0) +
  (strategy.stake_allocations.map (fun e =>
    match dget s.pools e.1 with
    | some pool => P.delegator_utility_from_pool pool e.2
    | none => 0)).sum

/-- The reference potential profit read by `calculate_margin`
(`logic/stakeholder.py` lines 148-149): the pool at rank `k-1` of the
agent's ranking, with a `None` reference treated as potential profit 0. -/
def referencePotentialProfit (s : SimState) (rankings : List (Option Nat))
    (k : Nat) : ℚ :=
  match rankings[k - 1]? with
  | none => 0
  | some none => 0
  | some (some pid) =>
    match dget s.pools pid with
    | none => 0
    | some rp => rp.potential_profit

/-- `Stakeholder.calculate_margin` (`logic/stakeholder.py` lines 138-150):
private pools get margin 0; otherwise the margin that matches the reference
pool's potential profit as target desirability. -/
def calculateMargin (P : Params) (s : SimState) (ag : AgentSt) (pool : Pool) : ℚ :=
  if pool.is_private then 0
  else calculate_suitable_margin pool.potential_profit
    (referencePotentialProfit s (agentRankings s ag) P.k)

/-- `heapq.nlargest` over the composite keys of `determine_pools_to_keep`:
the ids of the `n` largest `(desirability, potential_profit, stake, -id)`
tuples. -/
def topPoolIds (n : Nat) (owned : List (Nat × Pool)) : List Nat :=
  let props := owned.map (fun e =>
    ([e.2.desirability, e.2.potential_profit, e.2.stake, -(e.1 : ℚ)], e.1))
  ((props.foldr (insertRanked (fun a b => listLe b.1 a.1)) []).take n).map Prod.snd

/-- `Stakeholder.determine_pools_to_keep` (`logic/stakeholder.py` lines
152-162): when shrinking, keep the best-ranking pools (deep copies); else
copy all owned pools. -/
def determinePoolsToKeep (ag : AgentSt) (num_pools_to_keep : Nat) : List (Nat × Pool) :=
  if num_pools_to_keep < ag.strategy.owned_pools.length then
    let top := topPoolIds num_pools_to_keep ag.strategy.owned_pools
    ag.strategy.owned_pools.filter (fun e => decide (e.1 ∈ top))
  else ag.strategy.owned_pools

/-- The pool-count search loop of `Stakeholder.choose_pool_strategy`
(`logic/stakeholder.py` lines 109-127): probe the midpoint `t` of
`[t_min, t_max]`; if `t-1` (when in range) improves strictly, shrink to
`[t_min, t-1]`; else if `t+1` (when in range) improves strictly, shrink to
`[t+1, t_max]`; else stop at `t`.  `u n` is the utility component of
`calculate_margins_and_utility(num_pools=n)`. -/
def chooseT (u : Nat → ℚ) (t_min t_max : Nat) : Nat :=
  if h1 : t_min < (t_min + t_max) / 2 ∧ u ((t_min + t_max) / 2) < u ((t_min + t_max) / 2 - 1) then
    chooseT u t_min ((t_min + t_max) / 2 - 1)
  else if h2 : (t_min + t_max) / 2 < t_max ∧ u ((t_min + t_max) / 2) < u ((t_min + t_max) / 2 + 1) then
    chooseT u ((t_min + t_max) / 2 + 1) t_max
  else (t_min + t_max) / 2
termination_by t_max - t_min
decreasing_by
  · omega
  · omega

/-- The number of shrink steps (`continue` iterations) the search loop
performs before exiting. -/
def chooseSteps (u : Nat → ℚ) (t_min t_max : Nat) : Nat :=
  if h1 : t_min < (t_min + t_max) / 2 ∧ u ((t_min + t_max) / 2) < u ((t_min + t_max) / 2 - 1) then
    chooseSteps u t_min ((t_min + t_max) / 2 - 1) + 1
  else if h2 : (t_min + t_max) / 2 < t_max ∧ u ((t_min + t_max) / 2) < u ((t_min + t_max) / 2 + 1) then
    chooseSteps u ((t_min + t_max) / 2 + 1) t_max + 1
  else 0
termination_by t_max - t_min
decreasing_by
  · omega
  · omega

/-- The scan loop of `determine_stake_allocations`
(`logic/stakeholder.py` lines 243-258): consume the ranked eligible list;
pools whose headroom to saturation is below the minimum stake unit are
skipped (the first such pool is remembered as the best saturated pool);
otherwise allocate `min(stake_to_delegate, stake_to_saturation)` and stop
once the remaining stake drops below the minimum stake unit.  Returns the
allocations, the remaining stake and the best saturated pool. -/
def allocScan (P : Params) (tbl : List (Nat × Pool)) :
    ℚ → List Nat → List (Nat × ℚ) → Option Nat → List (Nat × ℚ) × ℚ × Option Nat
  | std, [], allocs, best => (allocs, std, best)
  | std, pid :: rest, allocs, best =>
    match dget tbl pid with
    | none => allocScan P tbl std rest allocs best
    | some pool =>
      let room := P.get_pool_saturation_threshold pool.pledge - pool.stake
      if room < MIN_STAKE_UNIT then
        allocScan P tbl std rest allocs (if best.isNone then some pid else best)
      else
        let a := min std room
        let allocs' := dset allocs pid a
        if std - a < MIN_STAKE_UNIT then (allocs', std - a, best)
        else allocScan P tbl (std - a) rest allocs' best

/-- The ranked eligible list of `determine_stake_allocations`
(`logic/stakeholder.py` lines 227-231): the agent's ranking with `None`s, the
agent's own pools and private pools dropped. -/
def eligiblePools (s : SimState) (aid : Nat) (ag : AgentSt) : List Nat :=
  (agentRankings s ag).filterMap (fun x =>
    match x with
    | none => none
    | some pid =>
      match dget s.pools pid with
      | none => none
      | some pool =>
        if pool.owner ≠ aid ∧ pool.is_private = false then some pid else none)

/-- The scan of `determine_stake_allocations` together with the final
saturated-pool dump (`logic/stakeholder.py` lines 243-261): run the scan
and, if at least a minimum stake unit remains and a saturated pool was seen,
assign the whole remainder to that single pool. -/
def scanAllocations (P : Params) (tbl : List (Nat × Pool)) (std : ℚ)
    (elig : List Nat) : List (Nat × ℚ) :=
  let scan := allocScan P tbl std elig [] none
  match scan.2.2 with
  | some bpid => if MIN_STAKE_UNIT ≤ scan.2.1 then dset scan.1 bpid scan.2.1 else scan.1
  | none => scan.1

/-- `Stakeholder.determine_stake_allocations` (`logic/stakeholder.py` lines
218-269): build the ranked eligible list; `None` if it is empty; otherwise
temporarily retract the agent's own delegations, run the scan with the
saturated dump, and restore the agent's delegations. -/
def determineStakeAllocations (P : Params) (s : SimState) (aid : Nat)
    (ag : AgentSt) (stake_to_delegate : ℚ) : SimState × Option (List (Nat × ℚ)) :=
  let eligible := eligiblePools s aid ag
  if eligible.isEmpty then (s, none)
  else
    let s1 := ag.strategy.stake_allocations.foldl
      (fun st e => delegateStep P st e.1 0 aid) s
    let allocations := scanAllocations P s1.pools stake_to_delegate eligible
    let s2 := ag.strategy.stake_allocations.foldl
      (fun st e => delegateStep P st e.1 e.2 aid) s1
    (s2, some allocations)

/-- `Stakeholder.find_delegation_move` (`logic/stakeholder.py` lines
271-278): skip entirely below the minimum stake unit; a `None` allocation
result becomes an empty strategy (the `Strategy` constructor turns `None`
into an empty mapping). -/
def findDelegationMove (P : Params) (s : SimState) (aid : Nat) (ag : AgentSt)
    (stake_to_delegate : ℚ) : SimState × Strategy :=
  if stake_to_delegate < MIN_STAKE_UNIT then (s, {})
  else
    let r := determineStakeAllocations P s aid ag stake_to_delegate
    (r.1, { stake_allocations := r.2.getD [] })

/-- `Stakeholder.find_delegation_for_operator` (`logic/stakeholder.py` lines
209-216). -/
def findDelegationForOperator (P : Params) (s : SimState) (aid : Nat)
    (ag : AgentSt) (total_pledge : ℚ) : SimState × List (Nat × ℚ) :=
  let remaining := ag.stake - total_pledge
  if 0 < remaining then
    let r := findDelegationMove P s aid ag remaining
    (r.1, r.2.stake_allocations)
  else (s, [])

/-- The pool-drafting step of `find_operator_move` (`logic/stakeholder.py`
lines 191-201): draw a fresh id from the model's pool-id sequence and build
the drafted pool. -/
def draftStep (P : Params) (aid existing : Nat) (cost pledge : ℚ)
    (margins : List ℚ) (ag : AgentSt)
    (acc : SimState × List (Nat × Pool)) (j : Nat) :
    SimState × List (Nat × Pool) :=
  let r := getNextPoolId acc.1
  let pool := mkPool P r.2 cost pledge aid (-1)
    (decide (P.get_pool_saturation_threshold pledge ≤ pledge))
  let pool := pool.set_margin (margins.getD (existing + j)
    (calculateMargin P r.1 ag pool))
  (r.1, acc.2 ++ [(r.2, pool)])

/-- The owned-pool refresh of `find_operator_move` (`logic/stakeholder.py`
lines 182-190): re-pledge, re-cost, re-price and re-margin one owned-pool
copy. -/
def refreshPool (P : Params) (s : SimState) (ag : AgentSt) (pledge cost : ℚ)
    (margins : List ℚ) (ie : Nat × (Nat × Pool)) : Nat × Pool :=
  let pool := ie.2.2
  let pool := pool.adjust_pledge pledge
  let pool := { pool with
    is_private := decide (P.get_pool_saturation_threshold pool.pledge ≤ pool.pledge),
    cost := cost }
  let pool := pool.set_profit P
  let pool := pool.set_margin (margins.getD ie.1 (calculateMargin P s ag pool))
  (ie.2.1, pool)

/-- `Stakeholder.find_operator_move` (`logic/stakeholder.py` lines 180-207):
re-pledge/re-cost/re-price the owned-pool copies, draft the missing pools
with freshly drawn ids from the model's pool-id sequence, and attach the
residual delegation of the un-pledged stake. -/
def findOperatorMove (P : Params) (s : SimState) (aid : Nat) (ag : AgentSt)
    (num_pools : Nat) (owned_pools : List (Nat × Pool)) (margins : List ℚ) :
    SimState × Strategy :=
  let pledge := P.pledge_per_pool ag.stake P.global_saturation_threshold num_pools
  let cost_per_pool := P.cost_per_pool num_pools ag.cost P.extra_pool_cost_fraction
  let owned1 := owned_pools.enum.map (refreshPool P s ag pledge cost_per_pool margins)
  let existing := owned_pools.length
  let acc := (List.range (num_pools - existing)).foldl
    (draftStep P aid existing cost_per_pool pledge margins ag) (s, owned1)
  let acc2 := findDelegationForOperator P acc.1 aid ag (pledge * num_pools)
  (acc2.1, { stake_allocations := acc2.2, owned_pools := acc.2 })

/-- `Stakeholder.choose_pool_strategy` (`logic/stakeholder.py` lines
97-136): run the pool-count search, then build the operator move for the
chosen `t` (margins from its `calculate_margins_and_utility` call) and
recompute its expected utility. -/
def choosePoolStrategy (P : Params) (s : SimState) (aid : Nat) (ag : AgentSt) :
    SimState × ℚ × Option Strategy :=
  let u := fun n => (P.margins_and_utility n).2
  let t := chooseT u 1 P.k
  let margins := (P.margins_and_utility t).1
  if 0 < t then
    let owned_copies := determinePoolsToKeep ag t
    let r := findOperatorMove P s aid ag t owned_copies margins
    (r.1, calculateExpectedUtility P r.1 r.2, some r.2)
  else (s, 0, none)

/-- The four-formula augmented comparison value of `update_strategy`
(`logic/stakeholder.py` lines 40-45). -/
def augmentedUtility (P : Params) (current_utility expected_utility : ℚ) : ℚ :=
  max (max ((1 + P.relative_utility_threshold) * current_utility)
           (current_utility + P.absolute_utility_threshold))
      (max ((1 + P.relative_utility_threshold) * expected_utility)
           (expected_utility + P.absolute_utility_threshold))

/-- The winner selection of `update_strategy` (`logic/stakeholder.py` lines
46-62): Python's `max` over the insertion-ordered dict keys
`current, delegator, operator` picks the first key attaining the maximum, so
ties favour keep-current over delegate over operate; the pending strategy is
`None` exactly when keep-current wins. -/
def selectNewStrategy (augmented delegator_utility : ℚ)
    (delegator_strategy : Strategy) (operator : Option (ℚ × Strategy)) :
    Option Strategy :=
  match operator with
  | none => if augmented < delegator_utility then some delegator_strategy else none
  | some op =>
    if delegator_utility ≤ augmented then
      (if op.1 ≤ augmented then none else some op.2)
    else
      (if op.1 ≤ delegator_utility then some delegator_strategy else some op.2)

/-- The evaluation pipeline of `update_strategy` (`logic/stakeholder.py`
lines 37-61): the threaded model state together with the selected pending
strategy. -/
def chooseNS (P : Params) (s : SimState) (aid : Nat) (ag : AgentSt) :
    SimState × Option Strategy :=
  let current_utility := calculateCurrentUtility P s ag
  let expected_utility := calculateExpectedUtility P s ag.strategy
  let augmented := augmentedUtility P current_utility expected_utility
  let r1 := findDelegationMove P s aid ag ag.stake
  let delegator_utility := calculateExpectedUtility P r1.1 r1.2
  let r2 := choosePoolStrategy P r1.1 aid ag
  let operator :=
    match r2.2.2 with
    | none => none
    | some strat => some (r2.2.1, strat)
  (r2.1, selectNewStrategy augmented delegator_utility r1.2 operator)

/-- `Stakeholder.update_strategy` (`logic/stakeholder.py` lines 37-62). -/
def updateStrategy (P : Params) (s : SimState) (aid : Nat) : SimState :=
  match dget s.agents aid with
  | none => s
  | some ag =>
    let r := chooseNS P s aid ag
    let ag' := { ag with new_strategy := r.2 }
    { r.1 with agents := dset r.1.agents aid ag' }

/-! ## Construction-time total-stake check (`logic/sim.py`) -/

/-- The total stake computed at construction (`logic/sim.py` lines 113-117):
the sum of the sampled agent stakes, adjusted by the inactive-stake
fraction. -/
def initTotalStake (stakes : List ℚ) (inactive_stake_fraction : ℚ) : ℚ :=
  stakes.sum / (1 - inactive_stake_fraction)

/-- The construction-time check (`logic/sim.py` lines 119-120):
`if total_stake <= 0: raise ValueError('Total stake must be > 0')`.
The check runs inside `Simulation.__init__`, before any simulation step. -/
def simInitCheck (stakes : List ℚ) (inactive_stake_fraction : ℚ) :
    Except String ℚ :=
  let total := initTotalStake stakes inactive_stake_fraction
  if total ≤ 0 then Except.error "Total stake must be > 0" else Except.ok total

/-! ## Properties of the pool-count search loop -/

/-- The combined specification of the search loop: starting from a range
`[t_min, t_max] ⊆ [1, K]` whose boundary invariants hold (a boundary moved
inward was moved because its outer neighbour was strictly worse), the loop
returns a `t` in the range none of whose neighbours within `[1, K]` is
strictly better. -/
theorem chooseT_go (u : Nat → ℚ) (K : Nat) :
    ∀ n t_min t_max, t_max - t_min ≤ n → 1 ≤ t_min → t_min ≤ t_max → t_max ≤ K →
    (1 < t_min → u (t_min - 1) < u t_min) →
    (t_max < K → u (t_max + 1) < u t_max) →
    (t_min ≤ chooseT u t_min t_max ∧ chooseT u t_min t_max ≤ t_max) ∧
    (2 ≤ chooseT u t_min t_max →
      u (chooseT u t_min t_max - 1) ≤ u (chooseT u t_min t_max)) ∧
    (chooseT u t_min t_max < K →
      u (chooseT u t_min t_max + 1) ≤ u (chooseT u t_min t_max)) := by
  intro n
  induction n with
  | zero =>
    intro t_min t_max hfuel h1min hminmax hmaxK hinvL hinvR
    have heq : t_min = t_max := by omega
    subst heq
    rw [chooseT]
    have hq : (t_min + t_min) / 2 = t_min := by omega
    rw [hq]
    rw [dif_neg (by simp), dif_neg (by simp)]
    refine ⟨⟨le_refl _, le_refl _⟩, ?_, ?_⟩
    · intro h2
      exact le_of_lt (hinvL (by omega))
    · intro hK
      exact le_of_lt (hinvR hK)
  | succ n ih =>
    intro t_min t_max hfuel h1min hminmax hmaxK hinvL hinvR
    rw [chooseT]
    by_cases h1 : t_min < (t_min + t_max) / 2 ∧
        u ((t_min + t_max) / 2) < u ((t_min + t_max) / 2 - 1)
    · rw [dif_pos h1]
      have hrec := ih t_min ((t_min + t_max) / 2 - 1) (by omega) h1min (by omega)
        (by omega) hinvL ?_
      · exact ⟨⟨hrec.1.1, le_trans hrec.1.2 (by omega)⟩, hrec.2.1, hrec.2.2⟩
      · intro _
        have : (t_min + t_max) / 2 - 1 + 1 = (t_min + t_max) / 2 := by omega
        rw [this]
        exact h1.2
    · rw [dif_neg h1]
      by_cases h2 : (t_min + t_max) / 2 < t_max ∧
          u ((t_min + t_max) / 2) < u ((t_min + t_max) / 2 + 1)
      · rw [dif_pos h2]
        have hrec := ih ((t_min + t_max) / 2 + 1) t_max (by omega) (by omega)
          (by omega) hmaxK ?_ hinvR
        · exact ⟨⟨le_trans (by omega) hrec.1.1, hrec.1.2⟩, hrec.2.1, hrec.2.2⟩
        · intro _
          have : (t_min + t_max) / 2 + 1 - 1 = (t_min + t_max) / 2 := by omega
          rw [this]
          exact h2.2
      · rw [dif_neg h2]
        push_neg at h1 h2
        refine ⟨⟨by omega, by omega⟩, ?_, ?_⟩
        · intro hge2
          by_cases hq : t_min < (t_min + t_max) / 2
          · exact h1 hq
          · have : (t_min + t_max) / 2 = t_min := by omega
            rw [this]
            exact le_of_lt (hinvL (by omega))
        · intro hK
          by_cases hq : (t_min + t_max) / 2 < t_max
          · exact h2 hq
          · have : (t_min + t_max) / 2 = t_max := by omega
            rw [this]
            exact le_of_lt (hinvR (by omega))

theorem log2_mono {m n : Nat} (h : m ≤ n) : Nat.log2 m ≤ Nat.log2 n := by
  rw [Nat.log2_eq_log_two, Nat.log2_eq_log_two]
  exact Nat.log_mono_right h

theorem log2_half_succ_le {L : Nat} (h : 2 ≤ L) :
    Nat.log2 (L / 2) + 1 ≤ Nat.log2 L := by
  rw [Nat.log2_eq_log_two, Nat.log2_eq_log_two, Nat.log_div_base]
  have := Nat.log_pos one_lt_two h
  omega

/-- The shrink-step count at least halves the interval length at each step:
`chooseSteps u t_min t_max ≤ log2 (t_max - t_min + 1)`. -/
theorem chooseSteps_le_log2 (u : Nat → ℚ) :
    ∀ n t_min t_max, t_max - t_min ≤ n →
    chooseSteps u t_min t_max ≤ Nat.log2 (t_max - t_min + 1) := by
  intro n
  induction n with
  | zero =>
    intro t_min t_max hfuel
    rw [chooseSteps]
    have hq : ¬ t_min < (t_min + t_max) / 2 := by omega
    rw [dif_neg (by simp [hq])]
    have hq2 : ¬ (t_min + t_max) / 2 < t_max := by omega
    rw [dif_neg (by simp [hq2])]
    exact Nat.zero_le _
  | succ n ih =>
    intro t_min t_max hfuel
    rw [chooseSteps]
    by_cases h1 : t_min < (t_min + t_max) / 2 ∧
        u ((t_min + t_max) / 2) < u ((t_min + t_max) / 2 - 1)
    · rw [dif_pos h1]
      have hrec := ih t_min ((t_min + t_max) / 2 - 1) (by omega)
      have hstep : (t_min + t_max) / 2 - 1 - t_min + 1 ≤ (t_max - t_min + 1) / 2 := by
        omega
      calc chooseSteps u t_min ((t_min + t_max) / 2 - 1) + 1
          ≤ Nat.log2 ((t_min + t_max) / 2 - 1 - t_min + 1) + 1 := by omega
        _ ≤ Nat.log2 ((t_max - t_min + 1) / 2) + 1 := by
            have := log2_mono hstep
            omega
        _ ≤ Nat.log2 (t_max - t_min + 1) := log2_half_succ_le (by omega)
    · rw [dif_neg h1]
      by_cases h2 : (t_min + t_max) / 2 < t_max ∧
          u ((t_min + t_max) / 2) < u ((t_min + t_max) / 2 + 1)
      · rw [dif_pos h2]
        have hrec := ih ((t_min + t_max) / 2 + 1) t_max (by omega)
        have hstep : t_max - ((t_min + t_max) / 2 + 1) + 1 ≤ (t_max - t_min + 1) / 2 := by
          omega
        calc chooseSteps u ((t_min + t_max) / 2 + 1) t_max + 1
            ≤ Nat.log2 (t_max - ((t_min + t_max) / 2 + 1) + 1) + 1 := by omega
          _ ≤ Nat.log2 ((t_max - t_min + 1) / 2) + 1 := by
              have := log2_mono hstep
              omega
          _ ≤ Nat.log2 (t_max - t_min + 1) := log2_half_succ_le (by omega)
      · rw [dif_neg h2]
        exact Nat.zero_le _

/-- A concrete parameter object used to witness theorems with hypotheses. -/
def P0 : Params where
  k := 4
  a0 := 3 / 10
  global_saturation_threshold := 1
  get_pool_saturation_threshold := fun _ => 1 / 4
  reward := fun stake pledge => stake / 10 + pledge / 100
  relative_utility_threshold := 0
  absolute_utility_threshold := 0
  extra_pool_cost_fraction := 2 / 5
  operator_utility_from_pool := fun stake _ _ cost => stake - cost
  delegator_utility_from_pool := fun pool a => a * pool.potential_profit
  operator_utility_from_strategy := fun strat => (strat.owned_pools.length : ℚ)
  margins_and_utility := fun n => ([0], (n : ℚ))
  pledge_per_pool := fun stake _ _ => stake
  cost_per_pool := fun _ c _ => c

/-- **C4** — For every `k ≥ 1` and every utility function over pool counts
(the utility component of `calculate_margins_and_utility`), the number of
pools `t` returned by the `choose_pool_strategy` search loop lies in `[1, k]`
and is locally optimal: neither neighbour `t-1` nor `t+1` within `[1, k]`
evaluates to a strictly greater utility. -/
theorem C4_choose_pool_local_optimum (P : Params) (hk : 1 ≤ P.k) :
    1 ≤ chooseT (fun n => (P.margins_and_utility n).2) 1 P.k ∧
    chooseT (fun n => (P.margins_and_utility n).2) 1 P.k ≤ P.k ∧
    (2 ≤ chooseT (fun n => (P.margins_and_utility n).2) 1 P.k →
      (P.margins_and_utility (chooseT (fun n => (P.margins_and_utility n).2) 1 P.k - 1)).2 ≤
      (P.margins_and_utility (chooseT (fun n => (P.margins_and_utility n).2) 1 P.k)).2) ∧
    (chooseT (fun n => (P.margins_and_utility n).2) 1 P.k < P.k →
      (P.margins_and_utility (chooseT (fun n => (P.margins_and_utility n).2) 1 P.k + 1)).2 ≤
      (P.margins_and_utility (chooseT (fun n => (P.margins_and_utility n).2) 1 P.k)).2) := by
  have h := chooseT_go (fun n => (P.margins_and_utility n).2) P.k (P.k - 1) 1 P.k
    (by omega) (le_refl 1) hk (le_refl P.k)
    (fun hc => absurd hc (by omega)) (fun hc => absurd hc (by omega))
  exact ⟨h.1.1, h.1.2, h.2.1, h.2.2⟩

/-- Witness for C4 at the concrete parameter object `P0` (`k = 4`,
utility `n ↦ n`, so the loop must return `t = 4`). -/
theorem C4_choose_pool_local_optimum_witness :
    1 ≤ chooseT (fun n => (P0.margins_and_utility n).2) 1 P0.k ∧
    chooseT (fun n => (P0.margins_and_utility n).2) 1 P0.k ≤ P0.k ∧
    (2 ≤ chooseT (fun n => (P0.margins_and_utility n).2) 1 P0.k →
      (P0.margins_and_utility (chooseT (fun n => (P0.margins_and_utility n).2) 1 P0.k - 1)).2 ≤
      (P0.margins_and_utility (chooseT (fun n => (P0.margins_and_utility n).2) 1 P0.k)).2) ∧
    (chooseT (fun n => (P0.margins_and_utility n).2) 1 P0.k < P0.k →
      (P0.margins_and_utility (chooseT (fun n => (P0.margins_and_utility n).2) 1 P0.k + 1)).2 ≤
      (P0.margins_and_utility (chooseT (fun n => (P0.margins_and_utility n).2) 1 P0.k)).2) :=
  C4_choose_pool_local_optimum P0 (by norm_num [P0])

/-- **C10** — The pool-count search loop terminates: a shrink step is taken
only when the midpoint is strictly inside the current range, the shrunken
range stays non-empty and is strictly (indeed at least twice) smaller, and
for every `k ≥ 1` and every sequence of utility values the loop performs at
most `log2 k` shrink steps. -/
theorem C10_choose_pool_loop_terminates (u : Nat → ℚ) :
    (∀ t_min t_max, t_min < (t_min + t_max) / 2 →
      u ((t_min + t_max) / 2) < u ((t_min + t_max) / 2 - 1) →
      chooseT u t_min t_max = chooseT u t_min ((t_min + t_max) / 2 - 1) ∧
      t_min ≤ (t_min + t_max) / 2 - 1 ∧
      (t_min + t_max) / 2 - 1 - t_min < t_max - t_min) ∧
    (∀ t_min t_max,
      ¬ (t_min < (t_min + t_max) / 2 ∧ u ((t_min + t_max) / 2) < u ((t_min + t_max) / 2 - 1)) →
      (t_min + t_max) / 2 < t_max →
      u ((t_min + t_max) / 2) < u ((t_min + t_max) / 2 + 1) →
      chooseT u t_min t_max = chooseT u ((t_min + t_max) / 2 + 1) t_max ∧
      (t_min + t_max) / 2 + 1 ≤ t_max ∧
      t_max - ((t_min + t_max) / 2 + 1) < t_max - t_min) ∧
    (∀ k, 1 ≤ k → chooseSteps u 1 k ≤ Nat.log2 k) := by
  refine ⟨?_, ?_, ?_⟩
  · intro t_min t_max hg1 hg2
    refine ⟨?_, by omega, by omega⟩
    rw [chooseT]
    rw [dif_pos ⟨hg1, hg2⟩]
  · intro t_min t_max hn1 hg1 hg2
    refine ⟨?_, by omega, by omega⟩
    rw [chooseT]
    rw [dif_neg hn1, dif_pos ⟨hg1, hg2⟩]
  · intro k hk
    have h := chooseSteps_le_log2 u (k - 1) 1 k (by omega)
    have : k - 1 + 1 = k := by omega
    rwa [this] at h

/-- Witness for C10 at concrete inputs: a left shrink step (decreasing
utility), a right shrink step (increasing utility), and the step bound at
`k = 4`. -/
theorem C10_choose_pool_loop_terminates_witness :
    (chooseT (fun n => -(n : ℚ)) 1 4 = chooseT (fun n => -(n : ℚ)) 1 ((1 + 4) / 2 - 1) ∧
      1 ≤ (1 + 4) / 2 - 1 ∧ (1 + 4) / 2 - 1 - 1 < 4 - 1) ∧
    (chooseT (fun n => (n : ℚ)) 1 4 = chooseT (fun n => (n : ℚ)) ((1 + 4) / 2 + 1) 4 ∧
      (1 + 4) / 2 + 1 ≤ 4 ∧ 4 - ((1 + 4) / 2 + 1) < 4 - 1) ∧
    chooseSteps (fun n => (n : ℚ)) 1 4 ≤ Nat.log2 4 :=
  ⟨(C10_choose_pool_loop_terminates (fun n => -(n : ℚ))).1 1 4 (by norm_num)
      (by norm_num),
   (C10_choose_pool_loop_terminates (fun n => (n : ℚ))).2.1 1 4 (by norm_num)
      (by norm_num) (by norm_num),
   (C10_choose_pool_loop_terminates (fun n => (n : ℚ))).2.2 4 (by norm_num)⟩

/-- **C9** — Simulation construction fails with the fatal total-stake
`ValueError` if and only if the total stake — the sum of the sampled agent
stakes adjusted by the inactive-stake fraction — is non-positive; the check
is part of `simInitCheck`, the construction-time computation, which runs
before any simulation step.  Under a well-formed inactive-stake fraction
(`0 ≤ f < 1`) this is equivalent to the raw stake sum being non-positive. -/
theorem C9_total_stake_check (stakes : List ℚ) (f : ℚ) :
    ((∃ msg, simInitCheck stakes f = Except.error msg) ↔ initTotalStake stakes f ≤ 0) ∧
    (0 ≤ f → f < 1 →
      ((∃ msg, simInitCheck stakes f = Except.error msg) ↔ stakes.sum ≤ 0)) := by
  have hmain : (∃ msg, simInitCheck stakes f = Except.error msg) ↔
      initTotalStake stakes f ≤ 0 := by
    by_cases h : initTotalStake stakes f ≤ 0
    · simp [simInitCheck, h]
    · simp [simInitCheck, h]
  refine ⟨hmain, fun _ hf1 => hmain.trans ?_⟩
  have hpos : 0 < 1 - f := by linarith
  unfold initTotalStake
  rw [div_nonpos_iff]
  constructor
  · rintro (⟨_, hb⟩ | ⟨ha, _⟩)
    · linarith
    · exact ha
  · intro h
    exact Or.inr ⟨h, le_of_lt hpos⟩

/-- Witness for C9 at a concrete input: stakes `[2, -1]`, inactive fraction
`1/2` — total stake `2 > 0`, so construction does not fail. -/
theorem C9_total_stake_check_witness :
    ((∃ msg, simInitCheck [2, -1] (1/2) = Except.error msg) ↔
      initTotalStake [2, -1] (1/2) ≤ 0) ∧
    (((0:ℚ) ≤ 1/2) ∧ ((1:ℚ)/2 < 1) ∧
      ((∃ msg, simInitCheck [2, -1] (1/2) = Except.error msg) ↔
        ([(2:ℚ), -1].sum ≤ 0))) :=
  ⟨(C9_total_stake_check [2, -1] (1/2)).1,
    by norm_num, by norm_num,
    (C9_total_stake_check [2, -1] (1/2)).2 (by norm_num) (by norm_num)⟩

/-- **C8** — In `update_strategy`, the keep-current option enters with the
augmented comparison value equal to the maximum of the four threshold
formulas; the winner is the option with strictly greatest utility with ties
resolved keep-current > delegate > operate; and the pending strategy is
`None` exactly when keep-current wins. -/
theorem C8_update_strategy_selection (P : Params) (cu ecu du ou : ℚ)
    (ds os : Strategy) :
    augmentedUtility P cu ecu =
      max (max ((1 + P.relative_utility_threshold) * cu)
               (cu + P.absolute_utility_threshold))
          (max ((1 + P.relative_utility_threshold) * ecu)
               (ecu + P.absolute_utility_threshold)) ∧
    (selectNewStrategy (augmentedUtility P cu ecu) du ds (some (ou, os)) =
      if du ≤ augmentedUtility P cu ecu ∧ ou ≤ augmentedUtility P cu ecu then none
      else if augmentedUtility P cu ecu < du ∧ ou ≤ du then some ds
      else some os) ∧
    (selectNewStrategy (augmentedUtility P cu ecu) du ds none =
      if du ≤ augmentedUtility P cu ecu then none else some ds) := by
  refine ⟨rfl, ?_, ?_⟩
  · set aug := augmentedUtility P cu ecu with haug
    have hsel : selectNewStrategy aug du ds (some (ou, os)) =
        if du ≤ aug then (if ou ≤ aug then none else some os)
        else (if ou ≤ du then some ds else some os) := rfl
    rw [hsel]
    by_cases hd : du ≤ aug
    · rw [if_pos hd]
      by_cases ho : ou ≤ aug
      · rw [if_pos ho, if_pos ⟨hd, ho⟩]
      · rw [if_neg ho, if_neg (fun hc => ho hc.2),
          if_neg (fun hc => absurd hc.1 (not_lt.mpr hd))]
    · rw [if_neg hd]
      push_neg at hd
      by_cases ho : ou ≤ du
      · rw [if_pos ho, if_neg (fun hc => absurd hd (not_lt.mpr hc.1)),
          if_pos ⟨hd, ho⟩]
      · rw [if_neg ho, if_neg (fun hc => absurd hd (not_lt.mpr hc.1)),
          if_neg (fun hc => ho hc.2)]
  · set aug := augmentedUtility P cu ecu with haug
    have hsel : selectNewStrategy aug du ds none =
        if aug < du then some ds else none := rfl
    rw [hsel]
    by_cases hd : du ≤ aug
    · rw [if_neg (not_lt.mpr hd), if_pos hd]
    · rw [if_pos (lt_of_not_le hd), if_neg hd]

/-! ## The sentinel position in a sorted ranking -/

/-- In a ranking sorted under a key function, if the `None` sentinels number
`k+1`, fewer than `k` real entries are present, and no real entry's key
coincides with the sentinel key, then the element read at rank `k-1` is a
sentinel — real entries sort strictly before or strictly after the whole
sentinel block, and there are too few of them to fill the first `k` slots
or push the sentinels out of them. -/
theorem filter_isSome_count_none (l : List (Option Nat)) :
    (l.filter (fun x => x.isSome)).length + l.count none = l.length := by
  induction l with
  | nil => rfl
  | cons x t ih =>
    cases x <;> simp [List.count_cons, List.filter_cons] <;> omega

theorem sorted_rank_sentinel (kf : Option Nat → List ℚ)
    (l : List (Option Nat)) (k : Nat)
    (hsort : l.Pairwise (fun a b => listLe (kf a) (kf b) = true))
    (hnone : l.count none = k + 1)
    (hm : (l.filter (fun x => x.isSome)).length < k)
    (hk : 1 ≤ k)
    (hkey : ∀ x ∈ l, x ≠ none → kf x ≠ kf none) :
    l[k - 1]? = some none := by
  have hcount_some : (l.filter (fun x => x.isSome)).length = l.length - (k + 1) := by
    have := filter_isSome_count_none l
    omega
  have hlenl : l.length = (l.filter (fun x => x.isSome)).length + (k + 1) := by
    have := l.count_le_length (a := none)
    omega
  have hlen : k - 1 < l.length := by omega
  rw [List.getElem?_eq_getElem hlen]
  by_contra hne
  have hxne : l[k - 1] ≠ none := fun hc => hne (congrArg some hc)
  have hxmem : l[k - 1] ∈ l := List.getElem_mem _
  have hxkey : kf l[k - 1] ≠ kf none := hkey _ hxmem hxne
  have hpair := List.pairwise_iff_getElem.mp hsort
  rcases listLe_total (kf l[k - 1]) (kf none) with hle | hle
  · -- the rank-(k-1) element precedes the sentinels: no sentinel in the
    -- first k slots, so all k+1 sentinels sit among the last m+1 slots
    have hnlt : ¬ listLe (kf none) (kf l[k - 1]) = true :=
      fun hc => hxkey (listLe_antisymm hle hc)
    have hfront : ∀ j (hj : j < l.length), j < k → l[j] ≠ none := by
      intro j hj hjk hcnone
      by_cases hjx : j < k - 1
      · have := hpair j (k - 1) hj hlen hjx
        rw [hcnone] at this
        exact hnlt this
      · have heq : j = k - 1 := by omega
        subst heq
        exact hxne hcnone
    have hsplit : l.count none = (l.take k).count none + (l.drop k).count none := by
      rw [← List.count_append, List.take_append_drop]
    have htake : (l.take k).count none = 0 := by
      rw [List.count_eq_zero]
      intro hmem
      rcases List.mem_iff_getElem.mp hmem with ⟨j, hj, hget⟩
      have hjlen : j < l.length := lt_of_lt_of_le hj (by
        simp [List.length_take])
      have hjk : j < k := lt_of_lt_of_le hj (by
        simp [List.length_take])
      rw [List.getElem_take] at hget
      exact hfront j hjlen hjk hget
    have hdrop : (l.drop k).count none ≤ l.length - k := by
      have := (l.drop k).count_le_length (a := none)
      simpa [List.length_drop] using this
    omega
  · -- the sentinels precede the rank-(k-1) element: all k+1 sentinels sit
    -- in the first k-1 slots
    have hnlt : ¬ listLe (kf l[k - 1]) (kf none) = true :=
      fun hc => hxkey (listLe_antisymm hc hle)
    have hback : ∀ j (hj : j < l.length), k - 1 ≤ j → l[j] ≠ none := by
      intro j hj hjk hcnone
      by_cases hjx : k - 1 < j
      · have := hpair (k - 1) j hlen hj hjx
        rw [hcnone] at this
        exact hnlt this
      · have heq : j = k - 1 := by omega
        subst heq
        exact hxne hcnone
    have hsplit : l.count none = (l.take (k-1)).count none + (l.drop (k-1)).count none := by
      rw [← List.count_append, List.take_append_drop]
    have hdrop : (l.drop (k-1)).count none = 0 := by
      rw [List.count_eq_zero]
      intro hmem
      rcases List.mem_iff_getElem.mp hmem with ⟨j, hj, hget⟩
      have hjlen : k - 1 + j < l.length := by
        have := List.length_drop (k-1) l
        omega
      rw [List.getElem_drop] at hget
      exact hback (k - 1 + j) hjlen (by omega) hget
    have htake : (l.take (k-1)).count none ≤ k - 1 := by
      have := (l.take (k-1)).count_le_length (a := none)
      have hlt : (l.take (k-1)).length ≤ k - 1 := by
        simp [List.length_take]
      omega
    omega

theorem listLt_head {a b : ℚ} (as bs : List ℚ) (h : a < b) :
    listLt (a :: as) (b :: bs) = true := by
  have h1 : listLe (a :: as) (b :: bs) = true := listLe_cons_iff.mpr (Or.inl h)
  have h2 : listLe (b :: bs) (a :: as) = false := by
    cases hc : listLe (b :: bs) (a :: as) with
    | false => rfl
    | true =>
      rcases listLe_cons_iff.mp hc with h' | ⟨h', _⟩
      · exact absurd h (lt_asymm h')
      · exact absurd (h' ▸ h) (lt_irrefl _)
  rw [listLt, h1, h2]
  rfl

/-- A real pool with margin 1 (zero myopic desirability): its myopic ranking
key is `(0, id)`, which does *not* sort before the sentinel key `(0, 0, 0)`. -/
def c5Pool : Pool :=
  { id := 1, cost := 1/10, pledge := 0, stake := 0, owner := 0,
    is_private := false, delegators := [], margin := 1,
    potential_profit := 0, desirability := 0 }

/-- **C5 counterexample** — The claim says every real pool's comparison key
strictly precedes the sentinel key.  The pool `c5Pool` (margin 1, hence
myopic desirability 0) is a real pool of the table whose myopic key
`(0, 1)` does not strictly precede the sentinel's `(0, 0, 0)` — Python's
tuple order puts `(0, 1)` *after* `(0, 0, 0)`. -/
theorem C5_sentinel_counterexample :
    dget [(1, c5Pool)] 1 = some c5Pool ∧
    calculate_myopic_pool_desirability c5Pool.margin
      (calculate_current_profit P0 c5Pool.stake c5Pool.pledge c5Pool.cost) = 0 ∧
    listLt (poolKeyM P0 [(1, c5Pool)] (some 1)) (poolKeyM P0 [(1, c5Pool)] none) = false ∧
    listLt (poolKeyM P0 [(1, c5Pool)] none) (poolKeyM P0 [(1, c5Pool)] (some 1)) = true := by
  refine ⟨rfl, ?_, ?_, ?_⟩ <;>
    norm_num [listLt, listLe, poolKeyM, dget, c5Pool, P0,
      calculate_myopic_pool_desirability, calculate_current_profit, max_def]

/-- **C5** (amended) — Both comparison keys map a `None` entry to
`(0, 0, 0)`.  Every real pool of *positive* (myopic) desirability strictly
precedes the sentinel (pools of zero desirability sort after it, see the
counterexample); nevertheless, in a sorted ranking holding `k+1` sentinels
and fewer than `k` real pools, the element read at rank `k-1` is always a
sentinel, and `calculate_margin` treats a sentinel reference as potential
profit 0. -/
theorem C5_sentinel_ordering (P : Params) (tbl : List (Nat × Pool)) :
    poolKeyM P tbl none = [0, 0, 0] ∧
    poolKeyN tbl none = [0, 0, 0] ∧
    (∀ pid p, dget tbl pid = some p →
      0 < calculate_myopic_pool_desirability p.margin
          (calculate_current_profit P p.stake p.pledge p.cost) →
      listLt (poolKeyM P tbl (some pid)) (poolKeyM P tbl none) = true) ∧
    (∀ pid p, dget tbl pid = some p → 0 < p.desirability →
      listLt (poolKeyN tbl (some pid)) (poolKeyN tbl none) = true) ∧
    (∀ (l : List (Option Nat)) (k : Nat),
      l.Pairwise (fun a b => listLe (poolKeyM P tbl a) (poolKeyM P tbl b) = true) →
      l.count none = k + 1 →
      (l.filter (fun x => x.isSome)).length < k → 1 ≤ k →
      (∀ pid, some pid ∈ l → ∃ p, dget tbl pid = some p) →
      l[k - 1]? = some none) ∧
    (∀ (l : List (Option Nat)) (k : Nat),
      l.Pairwise (fun a b => listLe (poolKeyN tbl a) (poolKeyN tbl b) = true) →
      l.count none = k + 1 →
      (l.filter (fun x => x.isSome)).length < k → 1 ≤ k →
      (∀ pid, some pid ∈ l → ∃ p, dget tbl pid = some p ∧ 1 ≤ p.id) →
      l[k - 1]? = some none) ∧
    (∀ (s : SimState) (l : List (Option Nat)) (k : Nat),
      l[k - 1]? = some none → referencePotentialProfit s l k = 0) := by
  refine ⟨rfl, rfl, ?_, ?_, ?_, ?_, ?_⟩
  · intro pid p hget hpos
    have hk : poolKeyM P tbl (some pid) =
        [-(calculate_myopic_pool_desirability p.margin
            (calculate_current_profit P p.stake p.pledge p.cost)), (p.id : ℚ)] := by
      simp [poolKeyM, hget]
    rw [hk]
    exact listLt_head _ _ (by linarith)
  · intro pid p hget hpos
    have hk : poolKeyN tbl (some pid) =
        [-p.desirability, -p.potential_profit, (p.id : ℚ)] := by
      simp [poolKeyN, hget]
    rw [hk]
    exact listLt_head _ _ (by linarith)
  · intro l k hsort hnone hm hk hres
    refine sorted_rank_sentinel (poolKeyM P tbl) l k hsort hnone hm hk ?_
    intro x hx hxne hkeq
    cases x with
    | none => exact hxne rfl
    | some pid =>
      rcases hres pid hx with ⟨p, hget⟩
      have hk' : poolKeyM P tbl (some pid) =
          [-(calculate_myopic_pool_desirability p.margin
              (calculate_current_profit P p.stake p.pledge p.cost)), (p.id : ℚ)] := by
        simp [poolKeyM, hget]
      rw [hk'] at hkeq
      have := congrArg List.length hkeq
      simp [poolKeyM] at this
  · intro l k hsort hnone hm hk hres
    refine sorted_rank_sentinel (poolKeyN tbl) l k hsort hnone hm hk ?_
    intro x hx hxne hkeq
    cases x with
    | none => exact hxne rfl
    | some pid =>
      rcases hres pid hx with ⟨p, hget, hid⟩
      have hk' : poolKeyN tbl (some pid) =
          [-p.desirability, -p.potential_profit, (p.id : ℚ)] := by
        simp [poolKeyN, hget]
      rw [hk', show poolKeyN tbl none = [0, 0, 0] from rfl] at hkeq
      have h3 : (p.id : ℚ) = 0 := by
        simp only [List.cons.injEq] at hkeq
        exact hkeq.2.2.1
      have : p.id = 0 := by exact_mod_cast h3
      omega
  · intro s l k hget
    simp [referencePotentialProfit, hget]

/-- A real pool with positive desirability used in the C5 witness. -/
def c5Good : Pool :=
  { id := 1, cost := 0, pledge := 1, stake := 1, owner := 0,
    is_private := false, delegators := [], margin := 0,
    potential_profit := 1/10, desirability := 1/10 }

/-- A concrete simulation state for the C5 witness: one positive-desirability
pool, rankings `[some 1, none, none, none]`, `k = 2`. -/
def S5 : SimState :=
  { pools := [(1, c5Good)],
    rankingN := [some 1, none, none, none],
    rankingM := [some 1, none, none, none],
    id_seq := 1, agents := [], simultaneous := false }

/-- Witness for the amended C5 at concrete inputs. -/
theorem C5_sentinel_ordering_witness :
    listLt (poolKeyM P0 [(1, c5Good)] (some 1)) (poolKeyM P0 [(1, c5Good)] none) = true ∧
    listLt (poolKeyN [(1, c5Good)] (some 1)) (poolKeyN [(1, c5Good)] none) = true ∧
    ([some 1, none, none, none] : List (Option Nat))[2 - 1]? = some none ∧
    referencePotentialProfit S5 [some 1, none, none, none] 2 = 0 := by
  have h := C5_sentinel_ordering P0 [(1, c5Good)]
  refine ⟨h.2.2.1 1 c5Good rfl (by
      norm_num [calculate_myopic_pool_desirability, calculate_current_profit,
        c5Good, P0, max_def]),
    h.2.2.2.1 1 c5Good rfl (by norm_num [c5Good]),
    h.2.2.2.2.1 [some 1, none, none, none] 2 (by
      norm_num [List.pairwise_cons, poolKeyM, dget, c5Good, P0, listLe,
        calculate_myopic_pool_desirability, calculate_current_profit, max_def])
      (by decide) (by decide)
      (by decide) ?_, ?_⟩
  · intro pid hpid
    refine ⟨c5Good, ?_⟩
    have : pid = 1 := by
      rcases List.mem_cons.mp hpid with h1 | h1
      · injection h1
      · simp at h1
    rw [this]
    rfl
  · exact h.2.2.2.2.2.2 S5 [some 1, none, none, none] 2 (by decide)

/-! ## Properties of the delegation scan (claim C7) -/

/-- A pool's remaining headroom to its saturation threshold
(`stake_to_saturation` in `logic/stakeholder.py` line 249). -/
def headroom (P : Params) (p : Pool) : ℚ :=
  P.get_pool_saturation_threshold p.pledge - p.stake

theorem mem_dset_sub {d : List (Nat × β)} {k : Nat} {v : β} :
    ∀ e ∈ dset d k v, e ∈ d ∨ e = (k, v) := by
  induction d with
  | nil =>
    intro e he
    simp [dset] at he
    exact Or.inr he
  | cons e' t ih =>
    obtain ⟨k', v'⟩ := e'
    intro e he
    by_cases hk : k' = k
    · rw [dset, if_pos hk] at he
      rcases List.mem_cons.mp he with he | he
      · exact Or.inr he
      · exact Or.inl (List.mem_cons.mpr (Or.inr he))
    · rw [dset, if_neg hk] at he
      rcases List.mem_cons.mp he with he | he
      · exact Or.inl (List.mem_cons.mpr (Or.inl he))
      · rcases ih e he with h | h
        · exact Or.inl (List.mem_cons.mpr (Or.inr h))
        · exact Or.inr h

theorem dset_append_of_not_mem {d : List (Nat × β)} {k : Nat} {v : β}
    (h : k ∉ dkeys d) : dset d k v = d ++ [(k, v)] := by
  induction d with
  | nil => rfl
  | cons e t ih =>
    obtain ⟨k', v'⟩ := e
    have hne : k' ≠ k := fun hc => h (by simp [dkeys, hc])
    rw [dset, if_neg hne, List.cons_append, ih (fun hc => h (by simp [dkeys] at hc ⊢; exact Or.inr hc))]

/-- Once the scan has remembered a saturated pool, it never replaces it. -/
theorem allocScan_best_some (P : Params) (tbl : List (Nat × Pool)) :
    ∀ (elig : List Nat) (std : ℚ) (allocs : List (Nat × ℚ)) (b : Nat),
    (allocScan P tbl std elig allocs (some b)).2.2 = some b := by
  intro elig
  induction elig with
  | nil => intro std allocs b; rfl
  | cons pid rest ih =>
    intro std allocs b
    rw [allocScan]
    cases hget : dget tbl pid with
    | none => exact ih std allocs b
    | some pool =>
      dsimp only
      by_cases hroom : P.get_pool_saturation_threshold pool.pledge - pool.stake < MIN_STAKE_UNIT
      · rw [if_pos hroom]
        simpa using ih std allocs b
      · rw [if_neg hroom]
        by_cases hbreak : std - min std (P.get_pool_saturation_threshold pool.pledge - pool.stake) < MIN_STAKE_UNIT
        · rw [if_pos hbreak]
        · rw [if_neg hbreak]
          exact ih _ _ b

/-- The saturated pool the scan reports is the first saturated pool of the
eligible list: every pool ranked before it (that resolves) has at least a
minimum stake unit of headroom. -/
theorem allocScan_first_saturated (P : Params) (tbl : List (Nat × Pool)) :
    ∀ (elig : List Nat) (std : ℚ) (allocs : List (Nat × ℚ)) (b : Nat),
    (allocScan P tbl std elig allocs none).2.2 = some b →
    ∃ pre post pb, elig = pre ++ b :: post ∧ dget tbl b = some pb ∧
      headroom P pb < MIN_STAKE_UNIT ∧
      ∀ pid ∈ pre, ∀ p, dget tbl pid = some p → MIN_STAKE_UNIT ≤ headroom P p := by
  intro elig
  induction elig with
  | nil =>
    intro std allocs b hb
    exact absurd hb (by simp [allocScan])
  | cons pid rest ih =>
    intro std allocs b hb
    rw [allocScan] at hb
    cases hget : dget tbl pid with
    | none =>
      rw [hget] at hb
      rcases ih std allocs b hb with ⟨pre, post, pb, heq, hgb, hsat, hpre⟩
      refine ⟨pid :: pre, post, pb, by rw [heq, List.cons_append], hgb, hsat, ?_⟩
      intro q hq p hp
      rcases List.mem_cons.mp hq with hq | hq
      · rw [hq] at hp
        rw [hp] at hget
        exact absurd hget (by simp)
      · exact hpre q hq p hp
    | some pool =>
      rw [hget] at hb
      dsimp only at hb
      by_cases hroom : P.get_pool_saturation_threshold pool.pledge - pool.stake < MIN_STAKE_UNIT
      · rw [if_pos hroom] at hb
        simp only [Option.isNone_none, if_pos] at hb
        rw [allocScan_best_some] at hb
        obtain rfl : pid = b := by injection hb
        exact ⟨[], rest, pool, rfl, hget, hroom, by simp⟩
      · rw [if_neg hroom] at hb
        by_cases hbreak : std - min std (P.get_pool_saturation_threshold pool.pledge - pool.stake) < MIN_STAKE_UNIT
        · rw [if_pos hbreak] at hb
          exact absurd hb (by simp)
        · rw [if_neg hbreak] at hb
          rcases ih _ _ b hb with ⟨pre, post, pb, heq, hgb, hsat, hpre⟩
          refine ⟨pid :: pre, post, pb, by rw [heq, List.cons_append], hgb, hsat, ?_⟩
          intro q hq p hp
          rcases List.mem_cons.mp hq with hq | hq
          · rw [hq] at hp
            rw [hp] at hget
            injection hget with hpe
            rw [← hpe] at hroom
            exact not_lt.mp hroom
          · exact hpre q hq p hp

/-- The allocations accumulated by the scan extend the incoming accumulator
by entries in eligible-list order (a sublist of the eligible list), each for
a resolvable unsaturated pool and each within that pool's headroom. -/
theorem allocScan_append (P : Params) (tbl : List (Nat × Pool)) :
    ∀ (elig : List Nat) (std : ℚ) (allocs : List (Nat × ℚ)) (best : Option Nat),
    (∀ pid ∈ elig, pid ∉ dkeys allocs) → elig.Nodup →
    ∃ sub, (allocScan P tbl std elig allocs best).1 = allocs ++ sub ∧
      List.Sublist (dkeys sub) elig ∧
      ∀ e ∈ sub, ∃ p, dget tbl e.1 = some p ∧
        MIN_STAKE_UNIT ≤ headroom P p ∧ e.2 ≤ headroom P p := by
  intro elig
  induction elig with
  | nil =>
    intro std allocs best _ _
    exact ⟨[], by simp [allocScan], List.Sublist.refl _, by simp⟩
  | cons pid rest ih =>
    intro std allocs best hdisj hnd
    rcases List.nodup_cons.mp hnd with ⟨hpid, hnd'⟩
    rw [allocScan]
    cases hget : dget tbl pid with
    | none =>
      rcases ih std allocs best (fun q hq => hdisj q (List.mem_cons.mpr (Or.inr hq))) hnd'
        with ⟨sub, heq, hsl, hb⟩
      exact ⟨sub, heq, hsl.cons pid, hb⟩
    | some pool =>
      dsimp only
      by_cases hroom : P.get_pool_saturation_threshold pool.pledge - pool.stake < MIN_STAKE_UNIT
      · rw [if_pos hroom]
        rcases ih std allocs _ (fun q hq => hdisj q (List.mem_cons.mpr (Or.inr hq))) hnd'
          with ⟨sub, heq, hsl, hb⟩
        exact ⟨sub, heq, hsl.cons pid, hb⟩
      · rw [if_neg hroom]
        have hset : dset allocs pid (min std (P.get_pool_saturation_threshold pool.pledge - pool.stake)) =
            allocs ++ [(pid, min std (P.get_pool_saturation_threshold pool.pledge - pool.stake))] :=
          dset_append_of_not_mem (hdisj pid (List.mem_cons_self pid rest))
        by_cases hbreak : std - min std (P.get_pool_saturation_threshold pool.pledge - pool.stake) < MIN_STAKE_UNIT
        · rw [if_pos hbreak]
          refine ⟨[(pid, min std (P.get_pool_saturation_threshold pool.pledge - pool.stake))],
            hset, ?_, ?_⟩
          · simp [dkeys]
          · intro e he
            rcases List.mem_singleton.mp he with rfl
            exact ⟨pool, hget, not_lt.mp hroom, min_le_right _ _⟩
        · rw [if_neg hbreak]
          have hdisj2 : ∀ q ∈ rest, q ∉ dkeys
              (dset allocs pid (min std (P.get_pool_saturation_threshold pool.pledge - pool.stake))) := by
            intro q hq
            rw [hset]
            intro hmem
            simp only [dkeys, List.map_append, List.mem_append, List.map_cons,
              List.map_nil, List.mem_singleton] at hmem
            rcases hmem with hmem | hmem
            · exact hdisj q (List.mem_cons.mpr (Or.inr hq)) hmem
            · rw [hmem] at hq
              exact hpid hq
          rcases ih (std - min std (P.get_pool_saturation_threshold pool.pledge - pool.stake))
            (dset allocs pid (min std (P.get_pool_saturation_threshold pool.pledge - pool.stake)))
            best hdisj2 hnd' with ⟨sub, heq, hsl, hb⟩
          refine ⟨(pid, min std (P.get_pool_saturation_threshold pool.pledge - pool.stake)) :: sub,
            ?_, ?_, ?_⟩
          · rw [heq, hset, List.append_assoc]
            rfl
          · simpa [dkeys] using hsl.cons₂ pid
          · intro e he
            rcases List.mem_cons.mp he with rfl | he
            · exact ⟨pool, hget, not_lt.mp hroom, min_le_right _ _⟩
            · exact hb e he

/-- **C7** — `determine_stake_allocations` fills eligible pools in ranked
order: the scan allocates, in eligible order, to resolvable unsaturated
pools only, each at most its remaining headroom; pools with less than a
minimum stake unit of headroom receive nothing in the scan; any remainder of
at least a minimum stake unit goes entirely to the single first-ranked
saturated pool seen; the function returns `None` exactly when no eligible
pool exists, in which case `find_delegation_move` returns an empty
no-allocation strategy. -/
theorem C7_stake_allocation (P : Params) :
    (∀ (s : SimState) (aid : Nat) (ag : AgentSt) (std : ℚ),
      (determineStakeAllocations P s aid ag std).2 = none ↔ eligiblePools s aid ag = []) ∧
    (∀ (tbl : List (Nat × Pool)) (std : ℚ) (elig : List Nat), elig.Nodup →
      List.Sublist (dkeys (allocScan P tbl std elig [] none).1) elig ∧
      ∀ e ∈ (allocScan P tbl std elig [] none).1, ∃ p, dget tbl e.1 = some p ∧
        MIN_STAKE_UNIT ≤ headroom P p ∧ e.2 ≤ headroom P p) ∧
    (∀ (tbl : List (Nat × Pool)) (std : ℚ) (elig : List Nat) (b : Nat),
      (allocScan P tbl std elig [] none).2.2 = some b →
      ∃ pre post pb, elig = pre ++ b :: post ∧ dget tbl b = some pb ∧
        headroom P pb < MIN_STAKE_UNIT ∧
        ∀ pid ∈ pre, ∀ p, dget tbl pid = some p → MIN_STAKE_UNIT ≤ headroom P p) ∧
    (∀ (tbl : List (Nat × Pool)) (std : ℚ) (elig : List Nat), elig.Nodup →
      ∀ e ∈ scanAllocations P tbl std elig,
        (∃ p, dget tbl e.1 = some p ∧ MIN_STAKE_UNIT ≤ headroom P p ∧ e.2 ≤ headroom P p) ∨
        ((allocScan P tbl std elig [] none).2.2 = some e.1 ∧
          e.2 = (allocScan P tbl std elig [] none).2.1 ∧
          MIN_STAKE_UNIT ≤ e.2)) ∧
    (∀ (s : SimState) (aid : Nat) (ag : AgentSt) (std : ℚ),
      ¬ std < MIN_STAKE_UNIT →
      (determineStakeAllocations P s aid ag std).2 = none →
      (findDelegationMove P s aid ag std).2 = ({} : Strategy)) ∧
    (∀ (s : SimState) (aid : Nat) (ag : AgentSt) (std : ℚ),
      std < MIN_STAKE_UNIT → findDelegationMove P s aid ag std = (s, ({} : Strategy))) := by
  refine ⟨?_, ?_, ?_, ?_, ?_, ?_⟩
  · intro s aid ag std
    unfold determineStakeAllocations
    by_cases h : (eligiblePools s aid ag).isEmpty
    · rw [if_pos h]
      rw [List.isEmpty_iff] at h
      simp [h]
    · rw [if_neg h]
      constructor
      · intro hc
        exact absurd hc (by simp)
      · intro hc
        exact absurd (List.isEmpty_iff.mpr hc) h
  · intro tbl std elig hnd
    rcases allocScan_append P tbl elig std [] none (by simp [dkeys]) hnd
      with ⟨sub, heq, hsl, hb⟩
    rw [heq]
    simp only [List.nil_append]
    exact ⟨hsl, hb⟩
  · intro tbl std elig b hb
    exact allocScan_first_saturated P tbl elig std [] b hb
  · intro tbl std elig hnd e he
    rcases allocScan_append P tbl elig std [] none (by simp [dkeys]) hnd
      with ⟨sub, heq, _, hb⟩
    unfold scanAllocations at he
    dsimp only at he
    cases hbest : (allocScan P tbl std elig [] none).2.2 with
    | none =>
      rw [hbest] at he
      dsimp only at he
      rw [heq] at he
      simp only [List.nil_append] at he
      exact Or.inl (hb e he)
    | some bpid =>
      rw [hbest] at he
      dsimp only at he
      by_cases hrem : MIN_STAKE_UNIT ≤ (allocScan P tbl std elig [] none).2.1
      · rw [if_pos hrem] at he
        rcases mem_dset_sub e he with he | he
        · rw [heq] at he
          simp only [List.nil_append] at he
          exact Or.inl (hb e he)
        · rw [he]
          exact Or.inr ⟨rfl, rfl, hrem⟩
      · rw [if_neg hrem] at he
        rw [heq] at he
        simp only [List.nil_append] at he
        exact Or.inl (hb e he)
  · intro s aid ag std hge hnone
    unfold findDelegationMove
    rw [if_neg hge]
    have : (determineStakeAllocations P s aid ag std).2.getD [] = [] := by
      rw [hnone]
      rfl
    simp only [this]
  · intro s aid ag std hlt
    unfold findDelegationMove
    rw [if_pos hlt]

/-- A fresh unsaturated pool and a saturated pool for the C7 witness. -/
def c7Pool : Pool :=
  { id := 2, cost := 0, pledge := 0, stake := 0, owner := 0,
    is_private := false, delegators := [], margin := 0,
    potential_profit := 0, desirability := 0 }

/-- A saturated pool (stake above its saturation threshold). -/
def c7Sat : Pool :=
  { id := 3, cost := 0, pledge := 0, stake := 1, owner := 0,
    is_private := false, delegators := [], margin := 0,
    potential_profit := 0, desirability := 0 }

/-- An idle agent for witnesses. -/
def A0 : AgentSt :=
  { stake := 1, cost := 0, strategy := {}, new_strategy := none,
    rankings_myopic := false }

/-- An empty-market state for the C7 witness: no pools, only sentinels. -/
def S7 : SimState :=
  { pools := [], rankingN := [none, none], rankingM := [none, none],
    id_seq := 0, agents := [(0, A0)], simultaneous := false }

/-- Witness for C7 at concrete inputs. -/
theorem C7_stake_allocation_witness :
    ((determineStakeAllocations P0 S7 0 A0 1).2 = none ↔ eligiblePools S7 0 A0 = []) ∧
    (∀ e ∈ (allocScan P0 [(2, c7Pool)] (1/2) [2] [] none).1,
      ∃ p, dget [(2, c7Pool)] e.1 = some p ∧
        MIN_STAKE_UNIT ≤ headroom P0 p ∧ e.2 ≤ headroom P0 p) ∧
    (∃ pre post pb, [3] = pre ++ 3 :: post ∧ dget [(3, c7Sat)] 3 = some pb ∧
      headroom P0 pb < MIN_STAKE_UNIT ∧
      ∀ pid ∈ pre, ∀ p, dget [(3, c7Sat)] pid = some p → MIN_STAKE_UNIT ≤ headroom P0 p) ∧
    (findDelegationMove P0 S7 0 A0 1).2 = ({} : Strategy) := by
  have h := C7_stake_allocation P0
  refine ⟨h.1 S7 0 A0 1, fun e he => (h.2.1 [(2, c7Pool)] (1/2) [2] (by decide)).2 e he,
    h.2.2.1 [(3, c7Sat)] (1/2) [3] 3 ?_, h.2.2.2.2.1 S7 0 A0 1 ?_ ?_⟩
  · norm_num [allocScan, dget, c7Sat, P0, MIN_STAKE_UNIT, headroom]
  · norm_num [MIN_STAKE_UNIT]
  · rfl

/-! ## Properties of `close_pool` / `remove_delegations` (claim C6) -/

theorem dget_dset_self (d : List (Nat × β)) (k : Nat) (v : β) :
    dget (dset d k v) k = some v := by
  induction d with
  | nil => simp [dset, dget]
  | cons e t ih =>
    obtain ⟨k', v'⟩ := e
    by_cases hk : k' = k
    · rw [dset, if_pos hk, dget, if_pos rfl]
    · rw [dset, if_neg hk, dget, if_neg hk, ih]

theorem dget_dset_other (d : List (Nat × β)) (k j : Nat) (v : β) (hne : j ≠ k) :
    dget (dset d k v) j = dget d j := by
  have hkj : ¬ k = j := fun hc => hne hc.symm
  induction d with
  | nil => simp [dset, dget, hkj]
  | cons e t ih =>
    obtain ⟨k', v'⟩ := e
    by_cases hk : k' = k
    · subst hk
      rw [dset, if_pos rfl, dget, if_neg hkj, dget, if_neg hkj]
    · rw [dset, if_neg hk, dget, dget]
      by_cases h' : k' = j
      · rw [if_pos h', if_pos h']
      · rw [if_neg h', if_neg h', ih]

theorem dget_derase_self_of_nodup (d : List (Nat × β)) (k : Nat)
    (hnd : (dkeys d).Nodup) : dget (derase d k) k = none := by
  induction d with
  | nil => rfl
  | cons e t ih =>
    obtain ⟨k', v'⟩ := e
    rcases List.nodup_cons.mp hnd with ⟨hk', ht⟩
    by_cases h : k' = k
    · rw [derase, if_pos h]
      rw [dget_eq_none_iff]
      intro hc
      exact hk' (h ▸ hc)
    · rw [derase, if_neg h, dget, if_neg h]
      exact ih ht

/-- Lookup through the scrub map. -/
theorem dget_map_scrubPending (l : List (Nat × AgentSt)) (pid k : Nat) :
    dget (l.map (scrubPending pid)) k = (dget l k).map (scrubAgent pid) := by
  induction l with
  | nil => rfl
  | cons e t ih =>
    obtain ⟨k', ag⟩ := e
    by_cases h : k' = k
    · simp only [List.map_cons, scrubPending, dget, if_pos h]
      rfl
    · simp only [List.map_cons, scrubPending, dget, if_neg h]
      exact ih

theorem scrubAgent_strategy (pid : Nat) (ag : AgentSt) :
    (scrubAgent pid ag).strategy = ag.strategy := by
  unfold scrubAgent
  cases ag.new_strategy <;> rfl

theorem scrubAgent_new_strategy (pid : Nat) (ag : AgentSt) (ns : Strategy)
    (h : (scrubAgent pid ag).new_strategy = some ns) :
    ∃ ns₀, ag.new_strategy = some ns₀ ∧
      ns.stake_allocations = derase ns₀.stake_allocations pid := by
  unfold scrubAgent at h
  cases hns : ag.new_strategy with
  | none =>
    rw [hns] at h
    dsimp only at h
    rw [hns] at h
    exact absurd h (by simp)
  | some ns₀ =>
    rw [hns] at h
    dsimp only at h
    refine ⟨ns₀, rfl, ?_⟩
    have : ns = { ns₀ with stake_allocations := derase ns₀.stake_allocations pid } := by
      injection h with h'
      exact h'.symm
    rw [this]

theorem update_delegation_id (p : Pool) (a : ℚ) (x : Nat) :
    (p.update_delegation a x).id = p.id := by
  unfold Pool.update_delegation
  cases dget p.delegators x <;>
    by_cases h : a < MIN_STAKE_UNIT <;> simp [h]

/-- Removing a delegation (`update_delegation(0, x)`) erases the entry. -/
theorem update_delegation_zero_delegators (p : Pool) (x : Nat)
    (hd : DSorted p.delegators) :
    (p.update_delegation 0 x).delegators = derase p.delegators x := by
  unfold Pool.update_delegation
  cases hx : dget p.delegators x <;>
    simp [if_pos MIN_STAKE_UNIT_pos, derase_dsetS _ _ _ hd]

/-- The delegator fold never changes the pool id. -/
theorem removeDeleg_fold_pool_id :
    ∀ (ds : List Nat) (acc : SimState × Pool),
    ((ds.foldl removeDelegStep acc).2).id = acc.2.id := by
  intro ds
  induction ds with
  | nil => intro acc; rfl
  | cons a rest ih =>
    intro acc
    rw [List.foldl_cons, ih]
    exact update_delegation_id _ _ _

/-- After the delegator fold over exactly the pool's delegator keys, the
pool's delegators mapping is empty. -/
theorem removeDeleg_fold_pool_delegators :
    ∀ (ds : List Nat) (st : SimState) (pl : Pool), DSorted pl.delegators →
    dkeys pl.delegators = ds →
    ((ds.foldl removeDelegStep (st, pl)).2).delegators = [] := by
  intro ds
  induction ds with
  | nil =>
    intro st pl _ hkeys
    cases hpl : pl.delegators with
    | nil => simp [hpl]
    | cons e t => rw [hpl] at hkeys; exact absurd hkeys (by simp [dkeys])
  | cons a rest ih =>
    intro st pl hd hkeys
    cases hpl : pl.delegators with
    | nil => rw [hpl] at hkeys; exact absurd hkeys (by simp [dkeys])
    | cons e t =>
      obtain ⟨k, v⟩ := e
      rw [hpl] at hkeys
      simp only [dkeys, List.map_cons] at hkeys
      injection hkeys with hk hrest
      rw [List.foldl_cons]
      have hstep : ((removeDelegStep (st, pl) a).2).delegators = t := by
        have h0 := update_delegation_zero_delegators pl a hd
        have : derase pl.delegators a = t := by
          rw [hpl, derase, if_pos hk]
        rw [show (removeDelegStep (st, pl) a).2 = pl.update_delegation 0 a from rfl,
          h0, this]
      have hd' : DSorted ((removeDelegStep (st, pl) a).2).delegators := by
        rw [hstep]
        have := hd
        rw [hpl] at this
        exact (List.pairwise_cons.mp this).2
      have hkeys' : dkeys ((removeDelegStep (st, pl) a).2).delegators = rest := by
        rw [hstep, ← hrest]
        rfl
      have := ih (removeDelegStep (st, pl) a).1 (removeDelegStep (st, pl) a).2 hd' hkeys'
      simpa using this

/-- One fold step leaves every other agent's entry untouched. -/
theorem removeDelegStep_agents_other (acc : SimState × Pool) (aid j : Nat)
    (hne : j ≠ aid) :
    dget ((removeDelegStep acc aid).1).agents j = dget acc.1.agents j := by
  unfold removeDelegStep
  dsimp only
  cases hag : dget acc.1.agents aid with
  | none => rfl
  | some ag =>
    dsimp only
    exact dget_dset_other _ _ _ _ hne

/-- The fold leaves the non-agent fields of the state untouched. -/
theorem removeDeleg_fold_state :
    ∀ (ds : List Nat) (acc : SimState × Pool),
    ((ds.foldl removeDelegStep acc).1).pools = acc.1.pools ∧
    ((ds.foldl removeDelegStep acc).1).rankingN = acc.1.rankingN ∧
    ((ds.foldl removeDelegStep acc).1).rankingM = acc.1.rankingM ∧
    ((ds.foldl removeDelegStep acc).1).simultaneous = acc.1.simultaneous := by
  intro ds
  induction ds with
  | nil => intro acc; exact ⟨rfl, rfl, rfl, rfl⟩
  | cons a rest ih =>
    intro acc
    rw [List.foldl_cons]
    have h := ih (removeDelegStep acc a)
    have hstep : ((removeDelegStep acc a).1).pools = acc.1.pools ∧
        ((removeDelegStep acc a).1).rankingN = acc.1.rankingN ∧
        ((removeDelegStep acc a).1).rankingM = acc.1.rankingM ∧
        ((removeDelegStep acc a).1).simultaneous = acc.1.simultaneous := by
      unfold removeDelegStep
      dsimp only
      cases dget acc.1.agents a <;> exact ⟨rfl, rfl, rfl, rfl⟩
    exact ⟨h.1.trans hstep.1, h.2.1.trans hstep.2.1, h.2.2.1.trans hstep.2.2.1,
      h.2.2.2.trans hstep.2.2.2⟩

/-- The fold leaves an agent not named in the list untouched. -/
theorem removeDeleg_fold_agents_other :
    ∀ (ds : List Nat) (acc : SimState × Pool) (j : Nat), j ∉ ds →
    dget ((ds.foldl removeDelegStep acc).1).agents j = dget acc.1.agents j := by
  intro ds
  induction ds with
  | nil => intro acc j _; rfl
  | cons a rest ih =>
    intro acc j hj
    rw [List.foldl_cons, ih _ j (fun hc => hj (List.mem_cons.mpr (Or.inr hc)))]
    exact removeDelegStep_agents_other acc a j (fun hc => hj (List.mem_cons.mpr (Or.inl hc)))

/-- Every agent present after the fold descends from an agent present before
it, with the same pending strategy (the fold touches only committed
allocations). -/
theorem removeDeleg_fold_agents_inv :
    ∀ (ds : List Nat) (acc : SimState × Pool) (j : Nat) (ag' : AgentSt),
    dget ((ds.foldl removeDelegStep acc).1).agents j = some ag' →
    ∃ ag₀, dget acc.1.agents j = some ag₀ ∧ ag'.new_strategy = ag₀.new_strategy := by
  intro ds
  induction ds with
  | nil =>
    intro acc j ag' h
    exact ⟨ag', h, rfl⟩
  | cons a rest ih =>
    intro acc j ag' h
    rw [List.foldl_cons] at h
    rcases ih (removeDelegStep acc a) j ag' h with ⟨ag₁, h₁, hns⟩
    by_cases hj : j = a
    · subst hj
      unfold removeDelegStep at h₁
      dsimp only at h₁
      cases hag : dget acc.1.agents j with
      | none =>
        rw [hag] at h₁
        dsimp only at h₁
        rw [hag] at h₁
        exact absurd h₁ (by simp)
      | some ag₀ =>
        rw [hag] at h₁
        dsimp only at h₁
        rw [dget_dset_self] at h₁
        have hag₁ : ag₁ = { ag₀ with strategy := { ag₀.strategy with
            stake_allocations := derase ag₀.strategy.stake_allocations acc.2.id } } := by
          injection h₁ with h'
          exact h'.symm
        exact ⟨ag₀, rfl, by rw [hns, hag₁]⟩
    · rw [removeDelegStep_agents_other acc a j hj] at h₁
      exact ⟨ag₁, h₁, hns⟩

/-- After the fold, a delegator that occurs once in the processed list holds
its original committed allocations with the pool's id erased. -/
theorem removeDeleg_fold_agents_delegator :
    ∀ (ds : List Nat) (acc : SimState × Pool), ds.Nodup →
    ∀ d ∈ ds, ∀ ag₀, dget acc.1.agents d = some ag₀ →
    ∃ ag, dget ((ds.foldl removeDelegStep acc).1).agents d = some ag ∧
      ag.strategy.stake_allocations = derase ag₀.strategy.stake_allocations acc.2.id := by
  intro ds
  induction ds with
  | nil =>
    intro acc _ d hd
    exact absurd hd (by simp)
  | cons a rest ih =>
    intro acc hnd d hd ag₀ hag
    rcases List.nodup_cons.mp hnd with ⟨ha, hnd'⟩
    rw [List.foldl_cons]
    by_cases hj : d = a
    · subst hj
      have hstep : dget ((removeDelegStep acc d).1).agents d =
          some { ag₀ with strategy := { ag₀.strategy with
            stake_allocations := derase ag₀.strategy.stake_allocations acc.2.id } } := by
        unfold removeDelegStep
        dsimp only
        rw [hag]
        dsimp only
        exact dget_dset_self _ _ _
      rw [removeDeleg_fold_agents_other rest (removeDelegStep acc d) d ha]
      exact ⟨_, hstep, rfl⟩
    · have hstep : dget ((removeDelegStep acc a).1).agents d = some ag₀ := by
        rw [removeDelegStep_agents_other acc a d hj]
        exact hag
      rcases ih (removeDelegStep acc a) hnd' d
        (by rcases List.mem_cons.mp hd with h | h; exacts [absurd h hj, h]) ag₀ hstep
        with ⟨ag, hget, hsa⟩
      refine ⟨ag, hget, ?_⟩
      rw [hsa]
      have hid : (removeDelegStep acc a).2.id = acc.2.id := update_delegation_id acc.2 0 a
      rw [hid]

/-- `remove_delegations` changes only the agents: pool table, rankings and
the activation flag pass through. -/
theorem removeDelegationsP_state (s : SimState) (pool : Pool) :
    (removeDelegationsP s pool).1.pools = s.pools ∧
    (removeDelegationsP s pool).1.rankingN = s.rankingN ∧
    (removeDelegationsP s pool).1.rankingM = s.rankingM ∧
    (removeDelegationsP s pool).1.simultaneous = s.simultaneous := by
  unfold removeDelegationsP
  dsimp only
  have hf := removeDeleg_fold_state (dkeys pool.delegators) (s, pool)
  by_cases hsim : ((dkeys pool.delegators).foldl removeDelegStep (s, pool)).1.simultaneous
  · rw [if_pos hsim]
    exact ⟨hf.1, hf.2.1, hf.2.2.1, hf.2.2.2⟩
  · rw [if_neg hsim]
    exact hf

/-- After `remove_delegations`, every delegator's committed allocations have
the pool's id removed. -/
theorem removeDelegationsP_delegator (s : SimState) (pool : Pool)
    (hnd : (dkeys pool.delegators).Nodup)
    (d : Nat) (hd : d ∈ dkeys pool.delegators) (ag₀ : AgentSt)
    (hag : dget s.agents d = some ag₀) :
    ∃ ag, dget (removeDelegationsP s pool).1.agents d = some ag ∧
      ag.strategy.stake_allocations = derase ag₀.strategy.stake_allocations pool.id := by
  unfold removeDelegationsP
  dsimp only
  rcases removeDeleg_fold_agents_delegator (dkeys pool.delegators) (s, pool) hnd d hd ag₀ hag
    with ⟨ag, hget, hsa⟩
  by_cases hsim : ((dkeys pool.delegators).foldl removeDelegStep (s, pool)).1.simultaneous
  · rw [if_pos hsim]
    refine ⟨scrubAgent pool.id ag, ?_, ?_⟩
    · dsimp only
      rw [dget_map_scrubPending, hget]
      rfl
    · rw [scrubAgent_strategy]
      exact hsa
  · rw [if_neg hsim]
    exact ⟨ag, hget, hsa⟩

/-- After `remove_delegations` under (semi)simultaneous activation, no
pending strategy references the pool (given well-formed pending
allocations). -/
theorem removeDelegationsP_pending (s : SimState) (pool : Pool)
    (hsim : s.simultaneous = true)
    (hpnodup : ∀ a ag ns, dget s.agents a = some ag → ag.new_strategy = some ns →
      (dkeys ns.stake_allocations).Nodup)
    (a : Nat) (ag : AgentSt) (ns : Strategy)
    (hag : dget (removeDelegationsP s pool).1.agents a = some ag)
    (hns : ag.new_strategy = some ns) :
    dget ns.stake_allocations pool.id = none := by
  unfold removeDelegationsP at hag
  dsimp only at hag
  have hsim' : ((dkeys pool.delegators).foldl removeDelegStep (s, pool)).1.simultaneous = true :=
    (removeDeleg_fold_state (dkeys pool.delegators) (s, pool)).2.2.2.trans hsim
  rw [if_pos hsim'] at hag
  dsimp only at hag
  rw [dget_map_scrubPending] at hag
  cases hg : dget ((dkeys pool.delegators).foldl removeDelegStep (s, pool)).1.agents a with
  | none =>
    rw [hg] at hag
    exact absurd hag (by simp)
  | some ag₁ =>
    rw [hg] at hag
    have hagv : ag = scrubAgent pool.id ag₁ := by
      injection hag with h'
      exact h'.symm
    rcases scrubAgent_new_strategy pool.id ag₁ ns (hagv ▸ hns) with ⟨ns₀, hns₀, hsa⟩
    rcases removeDeleg_fold_agents_inv (dkeys pool.delegators) (s, pool) a ag₁ hg
      with ⟨ag₀, hag₀, hnseq⟩
    rw [hsa]
    exact dget_derase_self_of_nodup _ _
      (hpnodup a ag₀ ns₀ hag₀ (hnseq ▸ hns₀))

/-- **C6** — After `close_pool` on a pool present in the global table: the
pool is gone from the table and from both rankings; every former delegator's
committed allocations no longer contain the pool id; each delegation was set
to zero on the pool object, leaving its delegators mapping empty; and under
(semi)simultaneous activation no agent's uncommitted pending strategy
references the pool any more. -/
theorem C6_close_pool (s : SimState) (pid : Nat) (pool : Pool)
    (hpool : dget s.pools pid = some pool)
    (hpid : pool.id = pid)
    (hnodupP : (dkeys s.pools).Nodup)
    (hds : DSorted pool.delegators)
    (hcntN : s.rankingN.count (some pid) = 1)
    (hcntM : s.rankingM.count (some pid) = 1)
    (hanodup : ∀ a ag, dget s.agents a = some ag →
      (dkeys ag.strategy.stake_allocations).Nodup)
    (hpnodup : ∀ a ag ns, dget s.agents a = some ag → ag.new_strategy = some ns →
      (dkeys ns.stake_allocations).Nodup)
    (hpresent : ∀ d ∈ dkeys pool.delegators, ∃ ag, dget s.agents d = some ag) :
    dget (closePool s pid).pools pid = none ∧
    some pid ∉ (closePool s pid).rankingN ∧
    some pid ∉ (closePool s pid).rankingM ∧
    (∀ d ∈ dkeys pool.delegators, ∃ ag, dget (closePool s pid).agents d = some ag ∧
      dget ag.strategy.stake_allocations pid = none) ∧
    (removeDelegationsP { s with rankingN := rankRemove (some pid) s.rankingN,
                                 rankingM := rankRemove (some pid) s.rankingM }
      pool).2.delegators = [] ∧
    (s.simultaneous = true → ∀ a ag ns, dget (closePool s pid).agents a = some ag →
      ag.new_strategy = some ns → dget ns.stake_allocations pid = none) := by
  have hnd : (dkeys pool.delegators).Nodup := dkeys_nodup_of_dsorted hds
  set s1 : SimState := { s with rankingN := rankRemove (some pid) s.rankingN,
                                rankingM := rankRemove (some pid) s.rankingM } with hs1
  have hclose : closePool s pid =
      { (removeDelegationsP s1 pool).1 with
        pools := derase (removeDelegationsP s1 pool).1.pools pid } := by
    unfold closePool
    rw [hpool]
  have hstate := removeDelegationsP_state s1 pool
  refine ⟨?_, ?_, ?_, ?_, ?_, ?_⟩
  · rw [hclose]
    show dget (derase (removeDelegationsP s1 pool).1.pools pid) pid = none
    rw [hstate.1]
    exact dget_derase_self_of_nodup s.pools pid hnodupP
  · rw [hclose]
    show some pid ∉ (removeDelegationsP s1 pool).1.rankingN
    rw [hstate.2.1]
    show some pid ∉ s.rankingN.erase (some pid)
    intro hmem
    have := List.count_erase_self (some pid) s.rankingN
    rw [hcntN] at this
    have hz : (s.rankingN.erase (some pid)).count (some pid) = 0 := this
    exact (List.count_eq_zero.mp hz) hmem
  · rw [hclose]
    show some pid ∉ (removeDelegationsP s1 pool).1.rankingM
    rw [hstate.2.2.1]
    show some pid ∉ s.rankingM.erase (some pid)
    intro hmem
    have := List.count_erase_self (some pid) s.rankingM
    rw [hcntM] at this
    have hz : (s.rankingM.erase (some pid)).count (some pid) = 0 := this
    exact (List.count_eq_zero.mp hz) hmem
  · intro d hd
    rcases hpresent d hd with ⟨ag₀, hag₀⟩
    have hag₀' : dget s1.agents d = some ag₀ := hag₀
    rcases removeDelegationsP_delegator s1 pool hnd d hd ag₀ hag₀' with ⟨ag, hget, hsa⟩
    refine ⟨ag, ?_, ?_⟩
    · rw [hclose]
      exact hget
    · rw [hsa, hpid]
      exact dget_derase_self_of_nodup _ _ (hanodup d ag₀ hag₀)
  · unfold removeDelegationsP
    dsimp only
    exact removeDeleg_fold_pool_delegators (dkeys pool.delegators) s1 pool hds rfl
  · intro hsim a ag ns hag hns
    rw [hclose] at hag
    have := removeDelegationsP_pending s1 pool (by exact hsim)
      (fun a ag ns h1 h2 => hpnodup a ag ns h1 h2) a ag ns hag hns
    rw [hpid] at this
    exact this

/-- A pool with one delegator (agent 10, amount 1/2) for the C6 witness. -/
def c6Pool : Pool :=
  { id := 1, cost := 0, pledge := 1, stake := 3/2, owner := 0,
    is_private := false, delegators := [(10, 1/2)], margin := 0,
    potential_profit := 0, desirability := 0 }

/-- The delegator agent for the C6 witness: committed and pending
allocations both reference pool 1. -/
def A6 : AgentSt :=
  { stake := 1, cost := 0,
    strategy := { stake_allocations := [(1, 1/2)], owned_pools := [] },
    new_strategy := some { stake_allocations := [(1, 1/2)], owned_pools := [] },
    rankings_myopic := false }

/-- A simultaneous-activation state holding `c6Pool` and its delegator. -/
def S6 : SimState :=
  { pools := [(1, c6Pool)], rankingN := [some 1, none], rankingM := [some 1, none],
    id_seq := 1, agents := [(10, A6)], simultaneous := true }

/-- Witness for C6 at the concrete state `S6`. -/
theorem C6_close_pool_witness :
    dget (closePool S6 1).pools 1 = none ∧
    some 1 ∉ (closePool S6 1).rankingN ∧
    some 1 ∉ (closePool S6 1).rankingM ∧
    (∀ d ∈ dkeys c6Pool.delegators, ∃ ag, dget (closePool S6 1).agents d = some ag ∧
      dget ag.strategy.stake_allocations 1 = none) ∧
    (removeDelegationsP { S6 with rankingN := rankRemove (some 1) S6.rankingN,
                                  rankingM := rankRemove (some 1) S6.rankingM }
      c6Pool).2.delegators = [] ∧
    (S6.simultaneous = true → ∀ a ag ns, dget (closePool S6 1).agents a = some ag →
      ag.new_strategy = some ns → dget ns.stake_allocations 1 = none) := by
  refine C6_close_pool S6 1 c6Pool rfl rfl (by decide) ?_ (by decide) (by decide) ?_ ?_ ?_
  · show (List.map Prod.fst c6Pool.delegators).Pairwise (· < ·)
    simp [c6Pool]
  · intro a ag hag
    have : dget S6.agents a = if 10 = a then some A6 else none := by
      show dget [(10, A6)] a = _
      rw [dget]
      by_cases h : 10 = a
      · rw [if_pos h, if_pos h]
      · rw [if_neg h, if_neg h, dget]
    rw [this] at hag
    by_cases h : 10 = a
    · rw [if_pos h] at hag
      injection hag with h'
      rw [← h']
      decide
    · rw [if_neg h] at hag
      exact absurd hag (by simp)
  · intro a ag ns hag hns
    have : dget S6.agents a = if 10 = a then some A6 else none := by
      show dget [(10, A6)] a = _
      rw [dget]
      by_cases h : 10 = a
      · rw [if_pos h, if_pos h]
      · rw [if_neg h, if_neg h, dget]
    rw [this] at hag
    by_cases h : 10 = a
    · rw [if_pos h] at hag
      injection hag with h'
      rw [← h'] at hns
      have hns' : ns = { stake_allocations := [(1, 1/2)], owned_pools := [] } := by
        have : A6.new_strategy = some { stake_allocations := [(1, (1:ℚ)/2)], owned_pools := [] } := rfl
        rw [this] at hns
        injection hns with h''
        exact h''.symm
      rw [hns']
      decide
    · rw [if_neg h] at hag
      exact absurd hag (by simp)
  · intro d hd
    have : d = 10 := by
      simp [dkeys, c6Pool] at hd
      exact hd
    rw [this]
    exact ⟨A6, rfl⟩

/-! ### Claim C1: the Pool stake/delegator invariant -/

/-- The Pool invariant of spec §8: `stake == pledge + sum(delegators.values())`
and every stored delegation is at least the minimum stake unit. -/
def PoolInv (p : Pool) : Prop :=
  p.stake = p.pledge + dsum p.delegators ∧
  ∀ e ∈ p.delegators, MIN_STAKE_UNIT ≤ e.2

theorem poolInv_mkPool (P : Params) (pool_id : Nat) (cost pledge : ℚ)
    (owner : Nat) (margin : ℚ) (isPrivate : Bool) :
    PoolInv (mkPool P pool_id cost pledge owner margin isPrivate) := by
  constructor
  · simp [mkPool, Pool.set_desirability, Pool.set_profit, dsum]
  · intro e he
    simp [mkPool, Pool.set_desirability, Pool.set_profit] at he

theorem poolInv_adjust_pledge (p : Pool) (pledge : ℚ) (h : PoolInv p) :
    PoolInv (p.adjust_pledge pledge) := by
  obtain ⟨h1, h2⟩ := h
  constructor
  · simp only [Pool.adjust_pledge, h1]
    ring
  · exact h2

/-- `update_delegation` keeps the delegators mapping canonically sorted. -/
theorem dsorted_update_delegation (p : Pool) (d : ℚ) (x : Nat)
    (hd : DSorted p.delegators) : DSorted (p.update_delegation d x).delegators := by
  unfold Pool.update_delegation
  cases hx : dget p.delegators x <;>
    by_cases h : d < MIN_STAKE_UNIT <;>
      simp only [h, if_true, if_false, reduceIte] <;>
        first
          | exact dsorted_derase _ _ (dsorted_dsetS _ _ _ hd)
          | exact dsorted_dsetS _ _ _ hd

/-- `update_delegation` preserves the invariant whenever the new amount is
zero or at least the minimum stake unit — which covers every call site in
the repository (`execute_strategy`/`determine_stake_allocations` only
delegate amounts ≥ `MIN_STAKE_UNIT`; removal passes 0). -/
theorem poolInv_update_delegation (p : Pool) (d : ℚ) (x : Nat)
    (hd : DSorted p.delegators) (h : PoolInv p)
    (hcall : d = 0 ∨ MIN_STAKE_UNIT ≤ d) :
    PoolInv (p.update_delegation d x) := by
  obtain ⟨h1, h2⟩ := h
  rcases hcall with rfl | hge
  · -- removal: the new entry is pruned
    simp only [Pool.update_delegation, if_pos MIN_STAKE_UNIT_pos]
    cases hx : dget p.delegators x with
    | some old =>
      constructor
      · simp only [hx, dsum_derase _ x 0 (dget_dsetS_self _ _ _),
          dsum_dsetS_of_mem _ x 0 old hd hx, h1]
        ring
      · intro e he
        rw [derase_dsetS p.delegators x 0 hd] at he
        exact h2 e (mem_derase_sub e he)
    | none =>
      constructor
      · simp only [hx, derase_dsetS_of_not_mem _ x 0 hx, h1]
        ring
      · simp only [hx, derase_dsetS_of_not_mem _ x 0 hx]
        exact h2
  · have hnlt : ¬ d < MIN_STAKE_UNIT := not_lt.mpr hge
    simp only [Pool.update_delegation, if_neg hnlt]
    cases hx : dget p.delegators x with
    | some old =>
      constructor
      · simp only [hx, dsum_dsetS_of_mem _ x d old hd hx, h1]
        ring
      · intro e he
        rcases mem_dsetS_sub e he with hmem | hmem
        · exact h2 e hmem
        · rw [hmem]
          exact hge
    | none =>
      constructor
      · simp only [hx, dsum_dsetS_of_not_mem _ x d hx, h1]
        ring
      · intro e he
        rcases mem_dsetS_sub e he with hmem | hmem
        · exact h2 e hmem
        · rw [hmem]
          exact hge

/-- `remove_delegations` (a fold of `update_delegation(0, ·)` over the
delegators) preserves the pool invariant. -/
theorem poolInv_removeDeleg_fold :
    ∀ (ds : List Nat) (acc : SimState × Pool), DSorted acc.2.delegators →
    PoolInv acc.2 → PoolInv ((ds.foldl removeDelegStep acc).2) := by
  intro ds
  induction ds with
  | nil => intro acc _ h; exact h
  | cons a rest ih =>
    intro acc hd h
    rw [List.foldl_cons]
    exact ih (removeDelegStep acc a)
      (dsorted_update_delegation acc.2 0 a hd)
      (poolInv_update_delegation acc.2 0 a hd h (Or.inl rfl))

/-- A minimal pool satisfying the invariant, used in the C1 theorems. -/
def c1Pool : Pool :=
  { id := 1, cost := 0, pledge := 0, stake := 0, owner := 0,
    is_private := false, delegators := [], margin := 0,
    potential_profit := 0, desirability := 0 }

/-- **C1 counterexample** — `update_delegation` with an amount strictly
between 0 and the minimum stake unit removes the delegator's entry but
leaves the stake increased by that amount, violating
`stake == pledge + sum(delegators.values())` (the stake exceeds it by the
pruned amount). -/
theorem C1_pool_invariant_counterexample :
    PoolInv c1Pool ∧
    0 < MIN_STAKE_UNIT / 2 ∧ MIN_STAKE_UNIT / 2 < MIN_STAKE_UNIT ∧
    dget (c1Pool.update_delegation (MIN_STAKE_UNIT / 2) 7).delegators 7 = none ∧
    ¬ ((c1Pool.update_delegation (MIN_STAKE_UNIT / 2) 7).stake =
        (c1Pool.update_delegation (MIN_STAKE_UNIT / 2) 7).pledge +
        dsum (c1Pool.update_delegation (MIN_STAKE_UNIT / 2) 7).delegators) := by
  refine ⟨⟨by norm_num [c1Pool, dsum], by intro e he; simp [c1Pool] at he⟩, ?_, ?_, ?_, ?_⟩ <;>
    norm_num [Pool.update_delegation, dget, dsetS, derase, MIN_STAKE_UNIT, c1Pool, dsum]

/-- **C1** (amended) — The invariant `stake == pledge + sum(delegators)`
with all stored amounts at least the minimum stake unit holds after
construction, after the pledge/stake adjustment of `find_operator_move`,
after `remove_delegations`, and after every `update_delegation` whose amount
is 0 or at least the minimum stake unit — which covers every call site in
the repository.  For an amount `d` with `0 < d < MIN_STAKE_UNIT`, the entry
is removed as the claim says, but the stake ends up exceeding
`pledge + sum(delegators)` by exactly `d` (see the counterexample). -/
theorem C1_pool_invariant :
    (∀ (P : Params) (pool_id : Nat) (cost pledge : ℚ) (owner : Nat)
       (margin : ℚ) (isPrivate : Bool),
      PoolInv (mkPool P pool_id cost pledge owner margin isPrivate)) ∧
    (∀ (p : Pool) (pledge : ℚ), PoolInv p → PoolInv (p.adjust_pledge pledge)) ∧
    (∀ (p : Pool) (d : ℚ) (x : Nat), DSorted p.delegators → PoolInv p →
      (d = 0 ∨ MIN_STAKE_UNIT ≤ d) → PoolInv (p.update_delegation d x)) ∧
    (∀ (ds : List Nat) (acc : SimState × Pool), DSorted acc.2.delegators →
      PoolInv acc.2 → PoolInv ((ds.foldl removeDelegStep acc).2)) ∧
    (∀ (p : Pool) (d : ℚ) (x : Nat), DSorted p.delegators → PoolInv p →
      0 < d → d < MIN_STAKE_UNIT →
      dget (p.update_delegation d x).delegators x = none ∧
      (p.update_delegation d x).stake =
        p.pledge + dsum (p.update_delegation d x).delegators + d) := by
  refine ⟨poolInv_mkPool, poolInv_adjust_pledge, poolInv_update_delegation,
    poolInv_removeDeleg_fold, ?_⟩
  intro p d x hd h hpos hlt
  obtain ⟨h1, _⟩ := h
  unfold Pool.update_delegation
  simp only [if_pos hlt]
  cases hx : dget p.delegators x with
  | some old =>
    constructor
    · rw [derase_dsetS _ _ _ hd]
      exact dget_derase_self _ hd _
    · rw [derase_dsetS _ _ _ hd, dsum_derase _ x old hx, h1]
      ring
  | none =>
    constructor
    · rw [derase_dsetS_of_not_mem _ x d hx]
      exact hx
    · rw [derase_dsetS_of_not_mem _ x d hx, h1]

/-! ## The ranking/table consistency invariant (claim C2) -/

/-- A ranking list is sorted with respect to a key function. -/
def RankOK (kf : Option Nat → List ℚ) (l : List (Option Nat)) : Prop :=
  l.Pairwise (fun a b => listLe (kf a) (kf b) = true)

/-- The C2 invariant: each ranking holds exactly the ids of the global pool
table (besides its `None` placeholders) and is sorted under its key. -/
def RankInv (P : Params) (s : SimState) : Prop :=
  (s.rankingN.filterMap id).Perm (dkeys s.pools) ∧
  (s.rankingM.filterMap id).Perm (dkeys s.pools) ∧
  RankOK (poolKeyN s.pools) s.rankingN ∧
  RankOK (poolKeyM P s.pools) s.rankingM

theorem rankOK_rankAdd {kf : Option Nat → List ℚ} {l : List (Option Nat)}
    (hl : RankOK kf l) (x : Option Nat) : RankOK kf (rankAdd kf x l) :=
  pairwise_insertRanked
    (fun a b => listLe_total (kf a) (kf b))
    (fun hab hbc => listLe_trans hab hbc) hl

theorem rankOK_rankRemove {kf : Option Nat → List ℚ} {l : List (Option Nat)}
    (hl : RankOK kf l) (x : Option Nat) : RankOK kf (rankRemove x l) :=
  List.Pairwise.sublist (List.erase_sublist x l) hl

theorem rankOK_retarget {kf kf' : Option Nat → List ℚ} {l : List (Option Nat)}
    (hcong : ∀ x ∈ l, kf' x = kf x) (hl : RankOK kf l) : RankOK kf' l := by
  refine List.Pairwise.imp_of_mem ?_ hl
  intro a b ha hb hab
  rw [hcong a ha, hcong b hb]
  exact hab

theorem poolKeyN_congr_set (tbl : List (Nat × Pool)) (pid : Nat) (v : Pool) :
    ∀ x : Option Nat, x ≠ some pid → poolKeyN (dset tbl pid v) x = poolKeyN tbl x := by
  intro x hx
  cases x with
  | none => rfl
  | some q =>
    have hq : q ≠ pid := fun hc => hx (congrArg some hc)
    simp only [poolKeyN, dget_dset_other tbl pid q v hq]

theorem poolKeyM_congr_set (P : Params) (tbl : List (Nat × Pool)) (pid : Nat) (v : Pool) :
    ∀ x : Option Nat, x ≠ some pid → poolKeyM P (dset tbl pid v) x = poolKeyM P tbl x := by
  intro x hx
  cases x with
  | none => rfl
  | some q =>
    have hq : q ≠ pid := fun hc => hx (congrArg some hc)
    simp only [poolKeyM, dget_dset_other tbl pid q v hq]

theorem poolKeyN_congr_erase (tbl : List (Nat × Pool)) (pid : Nat) :
    ∀ x : Option Nat, x ≠ some pid → poolKeyN (derase tbl pid) x = poolKeyN tbl x := by
  intro x hx
  cases x with
  | none => rfl
  | some q =>
    have hq : q ≠ pid := fun hc => hx (congrArg some hc)
    simp only [poolKeyN, dget_derase_other tbl pid q hq]

theorem poolKeyM_congr_erase (P : Params) (tbl : List (Nat × Pool)) (pid : Nat) :
    ∀ x : Option Nat, x ≠ some pid → poolKeyM P (derase tbl pid) x = poolKeyM P tbl x := by
  intro x hx
  cases x with
  | none => rfl
  | some q =>
    have hq : q ≠ pid := fun hc => hx (congrArg some hc)
    simp only [poolKeyM, dget_derase_other tbl pid q hq]

theorem filterMap_id_erase_some (l : List (Option Nat)) (k : Nat) :
    (l.erase (some k)).filterMap id = (l.filterMap id).erase k := by
  induction l with
  | nil => rfl
  | cons x t ih =>
    cases x with
    | none =>
      have h1 : ((none : Option Nat) :: t).erase (some k) = none :: t.erase (some k) := by
        rw [List.erase_cons]
        rw [if_neg (by simp)]
      rw [h1]
      simp only [List.filterMap_cons_none, id]
      exact ih
    | some j =>
      by_cases hj : j = k
      · subst hj
        have h1 : ((some j : Option Nat) :: t).erase (some j) = t := by
          rw [List.erase_cons]
          rw [if_pos (by simp)]
        rw [h1]
        show t.filterMap id = (j :: t.filterMap id).erase j
        rw [List.erase_cons, if_pos (by simp)]
      · have h1 : ((some j : Option Nat) :: t).erase (some k) =
            some j :: t.erase (some k) := by
          rw [List.erase_cons]
          rw [if_neg (by simp [hj])]
        rw [h1]
        show j :: (t.erase (some k)).filterMap id = (j :: t.filterMap id).erase k
        rw [List.erase_cons, if_neg (by simp [hj]), ih]

theorem count_some_filterMap (l : List (Option Nat)) (k : Nat) :
    (l.filterMap id).count k = l.count (some k) := by
  induction l with
  | nil => rfl
  | cons x t ih =>
    cases x with
    | none => simp [List.count_cons, ih]
    | some j => simp [List.count_cons, ih]

theorem mem_filterMap_id {l : List (Option Nat)} {k : Nat} :
    k ∈ l.filterMap id ↔ some k ∈ l := by
  simp [List.mem_filterMap]

theorem dkeys_derase (d : List (Nat × β)) (k : Nat) :
    dkeys (derase d k) = (dkeys d).erase k := by
  induction d with
  | nil => rfl
  | cons e t ih =>
    obtain ⟨k', v'⟩ := e
    by_cases h : k' = k
    · rw [derase, if_pos h]
      show dkeys t = (k' :: dkeys t).erase k
      rw [List.erase_cons, if_pos (by simp [h])]
    · rw [derase, if_neg h]
      show k' :: dkeys (derase t k) = (k' :: dkeys t).erase k
      rw [List.erase_cons, if_neg (by simp [h]), ih]

theorem dkeys_dset_mem (d : List (Nat × β)) (k : Nat) (v : β)
    (h : k ∈ dkeys d) : dkeys (dset d k v) = dkeys d := by
  induction d with
  | nil => simp [dkeys] at h
  | cons e t ih =>
    obtain ⟨k', v'⟩ := e
    by_cases hk : k' = k
    · rw [dset, if_pos hk]
      show k :: dkeys t = k' :: dkeys t
      rw [hk]
    · rw [dset, if_neg hk]
      show k' :: dkeys (dset t k v) = k' :: dkeys t
      have : k ∈ dkeys t := by
        simp only [dkeys, List.map_cons, List.mem_cons] at h
        rcases h with h | h
        · exact absurd h.symm hk
        · exact h
      rw [ih this]

theorem dkeys_dset_not_mem (d : List (Nat × β)) (k : Nat) (v : β)
    (h : k ∉ dkeys d) : dkeys (dset d k v) = dkeys d ++ [k] := by
  rw [dset_append_of_not_mem h]
  simp [dkeys]

theorem nodup_dkeys_dset (d : List (Nat × β)) (k : Nat) (v : β)
    (h : (dkeys d).Nodup) : (dkeys (dset d k v)).Nodup := by
  by_cases hk : k ∈ dkeys d
  · rw [dkeys_dset_mem d k v hk]
    exact h
  · rw [dkeys_dset_not_mem d k v hk]
    rw [List.nodup_append]
    refine ⟨h, List.nodup_singleton k, ?_⟩
    intro x hx hmem
    rw [List.mem_singleton] at hmem
    subst hmem
    exact hk hx

theorem nodup_dkeys_derase (d : List (Nat × β)) (k : Nat)
    (h : (dkeys d).Nodup) : (dkeys (derase d k)).Nodup := by
  rw [dkeys_derase]
  exact h.erase k

theorem update_delegation_desirability (p : Pool) (a : ℚ) (x : Nat) :
    (p.update_delegation a x).desirability = p.desirability := by
  unfold Pool.update_delegation
  cases dget p.delegators x <;>
    by_cases h : a < MIN_STAKE_UNIT <;> simp [h]

theorem update_delegation_potential_profit (p : Pool) (a : ℚ) (x : Nat) :
    (p.update_delegation a x).potential_profit = p.potential_profit := by
  unfold Pool.update_delegation
  cases dget p.delegators x <;>
    by_cases h : a < MIN_STAKE_UNIT <;> simp [h]

theorem rankAdd_filterMap_perm (kf : Option Nat → List ℚ) (x : Option Nat)
    (l : List (Option Nat)) :
    ((rankAdd kf x l).filterMap id).Perm ((x :: l).filterMap id) :=
  (insertRanked_perm (fun a b => listLe (kf a) (kf b)) x l).filterMap id

theorem rankAdd_count_none (kf : Option Nat → List ℚ) (pid : Nat)
    (l : List (Option Nat)) :
    (rankAdd kf (some pid) l).count none = l.count none := by
  rw [rankAdd]
  induction l with
  | nil => rfl
  | cons a t ih =>
    rw [insertRanked]
    by_cases hle : listLe (kf (some pid)) (kf a) = true
    · rw [if_pos hle]
      simp [List.count_cons]
    · rw [if_neg hle]
      simp [List.count_cons, ih]

theorem rankRemove_count_none (pid : Nat) (l : List (Option Nat)) :
    (rankRemove (some pid) l).count none = l.count none := by
  rw [rankRemove]
  exact List.count_erase_of_ne (by simp) l

theorem count_some_le_one {rn : List (Option Nat)} {K : List Nat}
    (hperm : (rn.filterMap id).Perm K) (hnd : K.Nodup)
    (pid : Nat) : rn.count (some pid) ≤ 1 := by
  rw [← count_some_filterMap]
  rw [hperm.count_eq pid]
  exact List.nodup_iff_count_le_one.mp hnd pid

theorem not_mem_erase_of_count_le_one {rn : List (Option Nat)} {x : Option Nat}
    (h : rn.count x ≤ 1) : x ∉ rn.erase x := by
  intro hmem
  have hpos : 0 < (rn.erase x).count x := List.count_pos_iff.mpr hmem
  rw [List.count_erase_self] at hpos
  omega

theorem not_mem_of_perm_keys {rn : List (Option Nat)} {K : List Nat}
    (hperm : (rn.filterMap id).Perm K) {pid : Nat}
    (h : pid ∉ K) : some pid ∉ rn := by
  intro hmem
  exact h (hperm.mem_iff.mp (mem_filterMap_id.mpr hmem))

/-- Re-keying one pool id in a sorted ranking (`SortedList.remove` then
`SortedList.add` under a key that changed at that id only) keeps it sorted. -/
theorem rankOK_reinsert {kf kf' : Option Nat → List ℚ} {l : List (Option Nat)}
    (pid : Nat) (hsort : RankOK kf l) (hcount : l.count (some pid) ≤ 1)
    (hcong : ∀ x ∈ l, x ≠ some pid → kf' x = kf x) :
    RankOK kf' (rankAdd kf' (some pid) (rankRemove (some pid) l)) := by
  apply rankOK_rankAdd
  refine rankOK_retarget ?_ (rankOK_rankRemove hsort (some pid))
  intro x hx
  refine hcong x (List.mem_of_mem_erase hx) ?_
  intro hxe
  subst hxe
  exact not_mem_erase_of_count_le_one hcount hx

theorem reinsert_perm_mem {kf' : Option Nat → List ℚ} {l : List (Option Nat)}
    {K : List Nat} (pid : Nat)
    (hperm : (l.filterMap id).Perm K) (hmem : pid ∈ K) :
    ((rankAdd kf' (some pid) (rankRemove (some pid) l)).filterMap id).Perm K := by
  have h1 := rankAdd_filterMap_perm kf' (some pid) (rankRemove (some pid) l)
  rw [show (some pid :: rankRemove (some pid) l).filterMap id
      = pid :: (l.erase (some pid)).filterMap id from rfl] at h1
  rw [filterMap_id_erase_some] at h1
  refine h1.trans ?_
  refine ((hperm.erase pid).cons pid).trans ?_
  exact (List.perm_cons_erase hmem).symm

theorem add_perm_fresh {kf' : Option Nat → List ℚ} {l : List (Option Nat)}
    {K : List Nat} (pid : Nat)
    (hperm : (l.filterMap id).Perm K) :
    ((rankAdd kf' (some pid) l).filterMap id).Perm (K ++ [pid]) := by
  have h1 := rankAdd_filterMap_perm kf' (some pid) l
  rw [show (some pid :: l).filterMap id = pid :: l.filterMap id from rfl] at h1
  refine h1.trans ?_
  refine (hperm.cons pid).trans ?_
  have h0 : (pid :: K).Perm ([pid] ++ K) := List.Perm.refl _
  exact h0.trans List.perm_append_comm

theorem reinsert_perm_not_mem {kf' : Option Nat → List ℚ} {l : List (Option Nat)}
    {K : List Nat} (pid : Nat)
    (hperm : (l.filterMap id).Perm K) (hmem : pid ∉ K) :
    ((rankAdd kf' (some pid) (rankRemove (some pid) l)).filterMap id).Perm
      (K ++ [pid]) := by
  have hnm : some pid ∉ l := not_mem_of_perm_keys hperm hmem
  rw [show rankRemove (some pid) l = l.erase (some pid) from rfl,
    List.erase_of_not_mem hnm]
  exact add_perm_fresh pid hperm

theorem foldl_erase_filterMap (ks : List Nat) :
    ∀ l : List (Option Nat),
    (ks.foldl (fun l pid => rankRemove (some pid) l) l).filterMap id
      = ks.foldl (fun L q => L.erase q) (l.filterMap id) := by
  induction ks with
  | nil => intro l; rfl
  | cons a t ih =>
    intro l
    rw [List.foldl_cons, List.foldl_cons, ih]
    rw [show rankRemove (some a) l = l.erase (some a) from rfl]
    rw [filterMap_id_erase_some]

theorem foldl_erase_perm_nil :
    ∀ (K : List Nat) {L : List Nat}, L.Perm K →
    K.foldl (fun L q => L.erase q) L = [] := by
  intro K
  induction K with
  | nil =>
    intro L h
    exact h.eq_nil
  | cons a t ih =>
    intro L h
    rw [List.foldl_cons]
    apply ih
    have ha : a ∈ L := h.symm.subset (List.mem_cons_self a t)
    have h1 : (a :: L.erase a).Perm (a :: t) := (List.perm_cons_erase ha).symm.trans h
    exact h1.cons_inv

theorem rankOK_of_all_none {kf : Option Nat → List ℚ} :
    ∀ {l : List (Option Nat)}, (∀ x ∈ l, x = none) → RankOK kf l := by
  intro l
  induction l with
  | nil => intro _; exact List.Pairwise.nil
  | cons a t ih =>
    intro h
    refine List.Pairwise.cons ?_ (ih fun x hx => h x (List.mem_cons_of_mem a hx))
    intro b hb
    rw [h a (List.mem_cons_self a t), h b (List.mem_cons_of_mem a hb)]
    exact listLe_refl _

theorem foldl_rankRemove_count_none (ks : List Nat) :
    ∀ l : List (Option Nat),
    (ks.foldl (fun l pid => rankRemove (some pid) l) l).count none = l.count none := by
  induction ks with
  | nil => intro l; rfl
  | cons a t ih => intro l; rw [List.foldl_cons, ih, rankRemove_count_none]

theorem foldl_rankAdd_count_none (kf : Option Nat → List ℚ) (ks : List Nat) :
    ∀ l : List (Option Nat),
    (ks.foldl (fun l pid => rankAdd kf (some pid) l) l).count none = l.count none := by
  induction ks with
  | nil => intro l; rfl
  | cons a t ih => intro l; rw [List.foldl_cons, ih, rankAdd_count_none]

theorem foldl_rankAdd_perm (kf : Option Nat → List ℚ) (ks : List Nat) :
    ∀ l : List (Option Nat),
    ((ks.foldl (fun l pid => rankAdd kf (some pid) l) l).filterMap id).Perm
      (l.filterMap id ++ ks) := by
  induction ks with
  | nil =>
    intro l
    rw [List.foldl_nil, List.append_nil]
  | cons a t ih =>
    intro l
    rw [List.foldl_cons]
    refine (ih (rankAdd kf (some a) l)).trans ?_
    have h1 := rankAdd_filterMap_perm kf (some a) l
    rw [show (some a :: l).filterMap id = a :: l.filterMap id from rfl] at h1
    refine (h1.append_right t).trans ?_
    exact List.perm_middle.symm

theorem foldl_rankAdd_rankOK (kf : Option Nat → List ℚ) (ks : List Nat) :
    ∀ l : List (Option Nat), RankOK kf l →
    RankOK kf (ks.foldl (fun l pid => rankAdd kf (some pid) l) l) := by
  induction ks with
  | nil => intro l h; exact h
  | cons a t ih => intro l h; exact ih _ (rankOK_rankAdd h (some a))

theorem dkeys_map_snd (f : Nat × Pool → Pool) :
    ∀ d : List (Nat × Pool), dkeys (d.map (fun e => (e.1, f e))) = dkeys d := by
  intro d
  induction d with
  | nil => rfl
  | cons e t ih =>
    show e.1 :: dkeys (t.map (fun e => (e.1, f e))) = e.1 :: dkeys t
    rw [ih]

/-- The full C2 state invariant at ranking capacity `k`: unique table keys,
`k+1` `None` sentinel placeholders in each ranking, and each ranking holding
exactly the table's pool ids in key-sorted order. -/
def C2Inv (P : Params) (k : Nat) (s : SimState) : Prop :=
  (dkeys s.pools).Nodup ∧
  s.rankingN.count none = k + 1 ∧
  s.rankingM.count none = k + 1 ∧
  RankInv P s

theorem c2inv_of_eq {P : Params} {k : Nat} {s s' : SimState}
    (hp : s'.pools = s.pools) (hn : s'.rankingN = s.rankingN)
    (hm : s'.rankingM = s.rankingM) (h : C2Inv P k s) : C2Inv P k s' := by
  unfold C2Inv RankInv at h ⊢
  rw [hp, hn, hm]
  exact h

theorem c2inv_delegateStep (P : Params) (k : Nat) (s : SimState)
    (pid aid : Nat) (amount : ℚ) (h : C2Inv P k s) :
    C2Inv P k (delegateStep P s pid amount aid) ∧
    dkeys (delegateStep P s pid amount aid).pools = dkeys s.pools := by
  obtain ⟨hnd, hcn, hcm, hpn, hpm, hsn, hsm⟩ := h
  unfold delegateStep
  cases hget : dget s.pools pid with
  | none => exact ⟨⟨hnd, hcn, hcm, hpn, hpm, hsn, hsm⟩, rfl⟩
  | some pool =>
    dsimp only
    have hmem : pid ∈ dkeys s.pools := mem_dkeys_of_dget hget
    have hkeys : dkeys (dset s.pools pid (pool.update_delegation amount aid))
        = dkeys s.pools := dkeys_dset_mem _ _ _ hmem
    have hkeyN : ∀ x ∈ s.rankingN,
        poolKeyN (dset s.pools pid (pool.update_delegation amount aid)) x
          = poolKeyN s.pools x := by
      intro x _
      cases x with
      | none => rfl
      | some q =>
        by_cases hq : q = pid
        · subst hq
          simp only [poolKeyN, dget_dset_self, hget, update_delegation_id,
            update_delegation_desirability, update_delegation_potential_profit]
        · exact poolKeyN_congr_set s.pools pid _ (some q) (by simp [hq])
    refine ⟨⟨?_, hcn, ?_, ?_, ?_, ?_, ?_⟩, hkeys⟩
    · rw [hkeys]; exact hnd
    · rw [rankAdd_count_none, rankRemove_count_none]; exact hcm
    · rw [hkeys]; exact hpn
    · rw [hkeys]; exact reinsert_perm_mem pid hpm hmem
    · exact rankOK_retarget hkeyN hsn
    · refine rankOK_reinsert pid hsm (count_some_le_one hpm hnd pid) ?_
      intro x _ hx
      exact poolKeyM_congr_set P s.pools pid _ x hx

theorem c2inv_openPool (P : Params) (k : Nat) (s : SimState) (aid pid : Nat)
    (hfresh : pid ∉ dkeys s.pools) (h : C2Inv P k s) :
    C2Inv P k (openPool P s aid pid) ∧
    (∀ q ∈ dkeys (openPool P s aid pid).pools, q ∈ dkeys s.pools ++ [pid]) := by
  obtain ⟨hnd, hcn, hcm, hpn, hpm, hsn, hsm⟩ := h
  unfold openPool
  cases hag : dget s.agents aid with
  | none =>
    refine ⟨⟨hnd, hcn, hcm, hpn, hpm, hsn, hsm⟩, ?_⟩
    intro q hq
    exact List.mem_append_left _ hq
  | some ag =>
    dsimp only
    cases hop : dget ag.strategy.owned_pools pid with
    | none =>
      dsimp only
      refine ⟨⟨hnd, hcn, hcm, hpn, hpm, hsn, hsm⟩, ?_⟩
      intro q hq
      exact List.mem_append_left _ hq
    | some pool =>
      dsimp only
      have hkeys : dkeys (dset s.pools pid pool) = dkeys s.pools ++ [pid] :=
        dkeys_dset_not_mem _ _ _ hfresh
      have hnN : some pid ∉ s.rankingN := not_mem_of_perm_keys hpn hfresh
      have hnM : some pid ∉ s.rankingM := not_mem_of_perm_keys hpm hfresh
      refine ⟨⟨?_, ?_, ?_, ?_, ?_, ?_, ?_⟩, ?_⟩
      · exact nodup_dkeys_dset s.pools pid pool hnd
      · rw [rankAdd_count_none]; exact hcn
      · rw [rankAdd_count_none]; exact hcm
      · rw [hkeys]; exact add_perm_fresh pid hpn
      · rw [hkeys]; exact add_perm_fresh pid hpm
      · refine rankOK_rankAdd (rankOK_retarget ?_ hsn) (some pid)
        intro x hx
        refine poolKeyN_congr_set s.pools pid pool x ?_
        intro hxe
        exact hnN (hxe ▸ hx)
      · refine rankOK_rankAdd (rankOK_retarget ?_ hsm) (some pid)
        intro x hx
        refine poolKeyM_congr_set P s.pools pid pool x ?_
        intro hxe
        exact hnM (hxe ▸ hx)
      · intro q hq
        rw [hkeys] at hq
        exact hq

/-- The `update_pool` tail: write the pool value at `pid` and re-key that id
in both rankings. -/
def rekeyState (P : Params) (s : SimState) (pid : Nat) (v : Pool) : SimState :=
  { s with pools := dset s.pools pid v,
           rankingN := rankAdd (poolKeyN (dset s.pools pid v)) (some pid)
             (rankRemove (some pid) s.rankingN),
           rankingM := rankAdd (poolKeyM P (dset s.pools pid v)) (some pid)
             (rankRemove (some pid) s.rankingM) }

/-- Writing a pool value at `pid` and re-keying that id in both rankings
(the common tail of `update_pool`) preserves the C2 invariant. -/
theorem c2inv_rekey (P : Params) (k : Nat) (s : SimState) (pid : Nat) (v : Pool)
    (h : C2Inv P k s) :
    C2Inv P k (rekeyState P s pid v) ∧
    (∀ q ∈ dkeys (dset s.pools pid v), q ∈ dkeys s.pools ++ [pid]) := by
  obtain ⟨hnd, hcn, hcm, hpn, hpm, hsn, hsm⟩ := h
  unfold rekeyState
  refine ⟨⟨?_, ?_, ?_, ?_, ?_, ?_, ?_⟩, ?_⟩
  · exact nodup_dkeys_dset _ _ _ hnd
  · show (rankAdd _ (some pid) (rankRemove (some pid) s.rankingN)).count none = k + 1
    rw [rankAdd_count_none, rankRemove_count_none]
    exact hcn
  · show (rankAdd _ (some pid) (rankRemove (some pid) s.rankingM)).count none = k + 1
    rw [rankAdd_count_none, rankRemove_count_none]
    exact hcm
  · show ((rankAdd _ (some pid) (rankRemove (some pid) s.rankingN)).filterMap id).Perm
      (dkeys (dset s.pools pid v))
    by_cases hmem : pid ∈ dkeys s.pools
    · rw [dkeys_dset_mem _ _ _ hmem]
      exact reinsert_perm_mem pid hpn hmem
    · rw [dkeys_dset_not_mem _ _ _ hmem]
      exact reinsert_perm_not_mem pid hpn hmem
  · show ((rankAdd _ (some pid) (rankRemove (some pid) s.rankingM)).filterMap id).Perm
      (dkeys (dset s.pools pid v))
    by_cases hmem : pid ∈ dkeys s.pools
    · rw [dkeys_dset_mem _ _ _ hmem]
      exact reinsert_perm_mem pid hpm hmem
    · rw [dkeys_dset_not_mem _ _ _ hmem]
      exact reinsert_perm_not_mem pid hpm hmem
  · exact rankOK_reinsert pid hsn (count_some_le_one hpn hnd pid)
      (fun x _ hx => poolKeyN_congr_set s.pools pid v x hx)
  · exact rankOK_reinsert pid hsm (count_some_le_one hpm hnd pid)
      (fun x _ hx => poolKeyM_congr_set P s.pools pid v x hx)
  · intro q hq
    by_cases hmem : pid ∈ dkeys s.pools
    · rw [dkeys_dset_mem _ _ _ hmem] at hq
      exact List.mem_append_left _ hq
    · rw [dkeys_dset_not_mem _ _ _ hmem] at hq
      exact hq

theorem c2inv_closePool (P : Params) (k : Nat) (s : SimState) (pid : Nat)
    (h : C2Inv P k s) :
    C2Inv P k (closePool s pid) ∧
    (∀ q ∈ dkeys (closePool s pid).pools, q ∈ dkeys s.pools) := by
  obtain ⟨hnd, hcn, hcm, hpn, hpm, hsn, hsm⟩ := h
  unfold closePool
  cases hget : dget s.pools pid with
  | none => exact ⟨⟨hnd, hcn, hcm, hpn, hpm, hsn, hsm⟩, fun q hq => hq⟩
  | some pool =>
    dsimp only
    have hst := removeDelegationsP_state
      { s with rankingN := rankRemove (some pid) s.rankingN,
               rankingM := rankRemove (some pid) s.rankingM } pool
    rw [hst.1, hst.2.1, hst.2.2.1]
    dsimp only
    have hx : ∀ x ∈ s.rankingN.erase (some pid), x ≠ some pid := by
      intro x hxm hxe
      exact not_mem_erase_of_count_le_one (count_some_le_one hpn hnd pid) (hxe ▸ hxm)
    have hxM : ∀ x ∈ s.rankingM.erase (some pid), x ≠ some pid := by
      intro x hxm hxe
      exact not_mem_erase_of_count_le_one (count_some_le_one hpm hnd pid) (hxe ▸ hxm)
    refine ⟨⟨?_, ?_, ?_, ?_, ?_, ?_, ?_⟩, ?_⟩
    · exact nodup_dkeys_derase _ _ hnd
    · rw [rankRemove_count_none]; exact hcn
    · rw [rankRemove_count_none]; exact hcm
    · show ((s.rankingN.erase (some pid)).filterMap id).Perm (dkeys (derase s.pools pid))
      rw [filterMap_id_erase_some, dkeys_derase]
      exact hpn.erase pid
    · show ((s.rankingM.erase (some pid)).filterMap id).Perm (dkeys (derase s.pools pid))
      rw [filterMap_id_erase_some, dkeys_derase]
      exact hpm.erase pid
    · refine rankOK_retarget ?_ (rankOK_rankRemove hsn (some pid))
      intro x hxm
      exact poolKeyN_congr_erase s.pools pid x (hx x hxm)
    · refine rankOK_retarget ?_ (rankOK_rankRemove hsm (some pid))
      intro x hxm
      exact poolKeyM_congr_erase P s.pools pid x (hxM x hxm)
    · intro q hq
      rw [dkeys_derase] at hq
      exact List.mem_of_mem_erase hq

theorem c2inv_updatePool (P : Params) (k : Nat) (s : SimState) (aid pid : Nat)
    (h : C2Inv P k s) :
    C2Inv P k (updatePool P s aid pid) ∧
    (∀ q ∈ dkeys (updatePool P s aid pid).pools, q ∈ dkeys s.pools ++ [pid]) := by
  unfold updatePool
  cases hag : dget s.agents aid with
  | none =>
    exact ⟨h, fun q hq => List.mem_append_left _ hq⟩
  | some ag =>
    dsimp only
    cases hns : ag.new_strategy with
    | none => exact ⟨h, fun q hq => List.mem_append_left _ hq⟩
    | some ns =>
      dsimp only
      cases hup : dget ns.owned_pools pid with
      | none => exact ⟨h, fun q hq => List.mem_append_left _ hq⟩
      | some updated_pool =>
        dsimp only
        by_cases hc : (updated_pool.is_private
            && decide (updated_pool.pledge < updated_pool.stake)) = true
        · rw [if_pos hc]
          have hst := removeDelegationsP_state s updated_pool
          rw [hst.1, hst.2.1, hst.2.2.1]
          have hre := c2inv_rekey P k s pid
            (removeDelegationsP s updated_pool).2 h
          refine ⟨c2inv_of_eq rfl rfl rfl hre.1, hre.2⟩
        · rw [if_neg hc]
          dsimp only
          have hre := c2inv_rekey P k s pid updated_pool h
          refine ⟨c2inv_of_eq rfl rfl rfl hre.1, hre.2⟩

/-- `change_phase` preserves the C2 invariant, under the new parameters. -/
theorem c2inv_changePhase (P P' : Params) (k : Nat) (s : SimState)
    (h : C2Inv P k s) : C2Inv P' k (changePhase P' s) := by
  obtain ⟨hnd, hcn, hcm, hpn, hpm, hsn, hsm⟩ := h
  unfold changePhase
  dsimp only
  have hermN : ((dkeys s.pools).foldl (fun l pid => rankRemove (some pid) l)
      s.rankingN).filterMap id = [] := by
    rw [foldl_erase_filterMap]
    exact foldl_erase_perm_nil (dkeys s.pools) hpn
  have hermM : ((dkeys s.pools).foldl (fun l pid => rankRemove (some pid) l)
      s.rankingM).filterMap id = [] := by
    rw [foldl_erase_filterMap]
    exact foldl_erase_perm_nil (dkeys s.pools) hpm
  have hallN : ∀ x ∈ (dkeys s.pools).foldl (fun l pid => rankRemove (some pid) l)
      s.rankingN, x = none := by
    intro x hx
    exact List.filterMap_eq_nil_iff.mp hermN x hx
  have hallM : ∀ x ∈ (dkeys s.pools).foldl (fun l pid => rankRemove (some pid) l)
      s.rankingM, x = none := by
    intro x hx
    exact List.filterMap_eq_nil_iff.mp hermM x hx
  have hkeys : dkeys (s.pools.map (fun e =>
      (e.1, Pool.set_desirability (Pool.set_profit P' e.2)))) = dkeys s.pools :=
    dkeys_map_snd _ s.pools
  refine ⟨?_, ?_, ?_, ?_, ?_, ?_, ?_⟩
  · show (dkeys (s.pools.map (fun e =>
      (e.1, Pool.set_desirability (Pool.set_profit P' e.2))))).Nodup
    rw [hkeys]
    exact hnd
  · rw [foldl_rankAdd_count_none, foldl_rankRemove_count_none]
    exact hcn
  · rw [foldl_rankAdd_count_none, foldl_rankRemove_count_none]
    exact hcm
  · rw [hkeys]
    refine (foldl_rankAdd_perm _ _ _).trans ?_
    rw [hermN, List.nil_append]
  · rw [hkeys]
    refine (foldl_rankAdd_perm _ _ _).trans ?_
    rw [hermM, List.nil_append]
  · exact foldl_rankAdd_rankOK _ _ _ (rankOK_of_all_none hallN)
  · exact foldl_rankAdd_rankOK _ _ _ (rankOK_of_all_none hallM)

theorem c2inv_execSwap (P : Params) (k : Nat) (s : SimState) (aid : Nat)
    (h : C2Inv P k s) :
    C2Inv P k (execSwap s aid) ∧ dkeys (execSwap s aid).pools = dkeys s.pools := by
  unfold execSwap
  cases dget s.agents aid with
  | none => exact ⟨h, rfl⟩
  | some ag4 =>
    dsimp only
    cases ag4.new_strategy with
    | none => exact ⟨h, rfl⟩
    | some ns4 =>
      dsimp only
      exact ⟨c2inv_of_eq rfl rfl rfl h, rfl⟩

theorem c2inv_removed_fold (P : Params) (k : Nat) (aid : Nat) :
    ∀ (pids : List Nat) (s : SimState), C2Inv P k s →
    C2Inv P k (pids.foldl (fun st pid => delegateStep P st pid 0 aid) s) ∧
    dkeys (pids.foldl (fun st pid => delegateStep P st pid 0 aid) s).pools
      = dkeys s.pools := by
  intro pids
  induction pids with
  | nil => intro s h; exact ⟨h, rfl⟩
  | cons a t ih =>
    intro s h
    rw [List.foldl_cons]
    have h1 := c2inv_delegateStep P k s a aid 0 h
    have h2 := ih _ h1.1
    exact ⟨h2.1, h2.2.trans h1.2⟩

theorem c2inv_alloc_fold (P : Params) (k : Nat) (aid : Nat) :
    ∀ (es : List (Nat × ℚ)) (s : SimState), C2Inv P k s →
    C2Inv P k (es.foldl (fun st e => delegateStep P st e.1 e.2 aid) s) ∧
    dkeys (es.foldl (fun st e => delegateStep P st e.1 e.2 aid) s).pools
      = dkeys s.pools := by
  intro es
  induction es with
  | nil => intro s h; exact ⟨h, rfl⟩
  | cons a t ih =>
    intro s h
    rw [List.foldl_cons]
    have h1 := c2inv_delegateStep P k s a.1 aid a.2 h
    have h2 := ih _ h1.1
    exact ⟨h2.1, h2.2.trans h1.2⟩

theorem c2inv_close_fold (P : Params) (k : Nat) :
    ∀ (pids : List Nat) (s : SimState), C2Inv P k s →
    C2Inv P k (pids.foldl (fun st pid => closePool st pid) s) ∧
    (∀ q ∈ dkeys (pids.foldl (fun st pid => closePool st pid) s).pools,
      q ∈ dkeys s.pools) := by
  intro pids
  induction pids with
  | nil => intro s h; exact ⟨h, fun _ hq => hq⟩
  | cons a t ih =>
    intro s h
    rw [List.foldl_cons]
    have h1 := c2inv_closePool P k s a h
    have h2 := ih _ h1.1
    exact ⟨h2.1, fun q hq => h1.2 q (h2.2 q hq)⟩

theorem c2inv_update_fold (P : Params) (k : Nat) (aid : Nat) :
    ∀ (pids : List Nat) (s : SimState), C2Inv P k s →
    C2Inv P k (pids.foldl (fun st pid => updatePool P st aid pid) s) ∧
    (∀ q ∈ dkeys (pids.foldl (fun st pid => updatePool P st aid pid) s).pools,
      q ∈ dkeys s.pools ++ pids) := by
  intro pids
  induction pids with
  | nil =>
    intro s h
    refine ⟨h, ?_⟩
    intro q hq
    rw [List.append_nil]
    exact hq
  | cons a t ih =>
    intro s h
    rw [List.foldl_cons]
    have h1 := c2inv_updatePool P k s aid a h
    have h2 := ih _ h1.1
    refine ⟨h2.1, ?_⟩
    intro q hq
    rcases List.mem_append.mp (h2.2 q hq) with hL | hR
    · rcases List.mem_append.mp (h1.2 q hL) with hL2 | hR2
      · exact List.mem_append_left _ hL2
      · have hqa : q = a := by simpa using hR2
        exact List.mem_append_right _ (hqa ▸ List.mem_cons_self a t)
    · exact List.mem_append_right _ (List.mem_cons_of_mem a hR)

theorem c2inv_open_fold (P : Params) (k : Nat) (aid : Nat) :
    ∀ (pids : List Nat) (s : SimState), C2Inv P k s → pids.Nodup →
    (∀ p ∈ pids, p ∉ dkeys s.pools) →
    C2Inv P k (pids.foldl (fun st pid => openPool P st aid pid) s) := by
  intro pids
  induction pids with
  | nil => intro s h _ _; exact h
  | cons a t ih =>
    intro s h hnd hfr
    rw [List.foldl_cons]
    have h1 := c2inv_openPool P k s aid a (hfr a (List.mem_cons_self a t)) h
    refine ih _ h1.1 hnd.of_cons ?_
    intro p hp hmem
    rcases List.mem_append.mp (h1.2 p hmem) with hL | hR
    · exact hfr p (List.mem_cons_of_mem a hp) hL
    · have hpa : p = a := by simpa using hR
      exact (List.nodup_cons.mp hnd).1 (hpa ▸ hp)

theorem c2inv_exec_aux (P : Params) (k : Nat) (aid : Nat)
    (removed : List Nat) (allocs : List (Nat × ℚ)) (closed upd opened : List Nat)
    (s : SimState) (h : C2Inv P k s) (hnd : opened.Nodup)
    (hdisj : ∀ p ∈ opened, p ∉ upd) (hfr : ∀ p ∈ opened, p ∉ dkeys s.pools) :
    C2Inv P k
      (opened.foldl (fun st pid => openPool P st aid pid)
        (execSwap
          (upd.foldl (fun st pid => updatePool P st aid pid)
            (closed.foldl (fun st pid => closePool st pid)
              (allocs.foldl (fun st e => delegateStep P st e.1 e.2 aid)
                (removed.foldl (fun st pid => delegateStep P st pid 0 aid) s))))
          aid)) := by
  have h1 := c2inv_removed_fold P k aid removed s h
  have h2 := c2inv_alloc_fold P k aid allocs _ h1.1
  have h3 := c2inv_close_fold P k closed _ h2.1
  have h4 := c2inv_update_fold P k aid upd _ h3.1
  have h5 := c2inv_execSwap P k _ aid h4.1
  refine c2inv_open_fold P k aid opened _ h5.1 hnd ?_
  intro p hp hmem
  rw [h5.2] at hmem
  rcases List.mem_append.mp (h4.2 p hmem) with hL | hR
  · have hL2 := h3.2 p hL
    rw [h2.2, h1.2] at hL2
    exact hfr p hp hL2
  · exact hdisj p hp hR

/-- `execute_strategy` preserves the C2 invariant, provided the pending
strategy's owned-pool ids are duplicate-free and the ones not already owned
(the pools about to be opened) are fresh for the global table — which the
`get_next_pool_id` draft discipline guarantees. -/
theorem c2inv_executeStrategy (P : Params) (k : Nat) (s : SimState) (aid : Nat)
    (h : C2Inv P k s)
    (hwf : ∀ ag, dget s.agents aid = some ag → ∀ ns, ag.new_strategy = some ns →
      (dkeys ns.owned_pools).Nodup ∧
      ∀ p ∈ dkeys ns.owned_pools, p ∉ dkeys ag.strategy.owned_pools →
        p ∉ dkeys s.pools) :
    C2Inv P k (executeStrategy P s aid) := by
  unfold executeStrategy
  cases hag : dget s.agents aid with
  | none => exact h
  | some ag =>
    dsimp only
    cases hns : ag.new_strategy with
    | none => exact h
    | some ns =>
      dsimp only
      obtain ⟨hndnew, hfr⟩ := hwf ag hag ns hns
      refine c2inv_exec_aux P k aid _ _ _ _ _ s h ?_ ?_ ?_
      · exact hndnew.filter _
      · intro p hp hpu
        have hp' := List.mem_filter.mp hp
        have hpu' := List.mem_filter.mp hpu
        have hnotold : p ∉ dkeys ag.strategy.owned_pools := by simpa using hp'.2
        exact hnotold (by simpa using hpu'.2)
      · intro p hp
        have hp' := List.mem_filter.mp hp
        exact hfr p hp'.1 (by simpa using hp'.2)

/-- **C2.** After every completed mutating operation on the shared state —
`open_pool` (with an id fresh for the table, as produced by
`get_next_pool_id`), `close_pool`, `update_pool`, the per-delegation
remove/mutate/reinsert step, `execute_strategy` (its opened ids fresh and
duplicate-free), and `change_phase` — each ranking structure contains
exactly the pool ids of the global pool table besides its `k+1` `None`
sentinel placeholders, in sorted order under its comparison key
(descending desirability-based key, ascending id on ties); moreover the
phase transition's removal pass leaves both rankings holding no pool at all
before the parameters change, and the reinsertion pass restores the
invariant under the new parameters. -/
theorem C2_ranking_invariant (P P' : Params) (k : Nat) (s : SimState)
    (h : C2Inv P k s) :
    (∀ aid pid, pid ∉ dkeys s.pools → C2Inv P k (openPool P s aid pid)) ∧
    (∀ pid, C2Inv P k (closePool s pid)) ∧
    (∀ aid pid, C2Inv P k (updatePool P s aid pid)) ∧
    (∀ pid amount aid, C2Inv P k (delegateStep P s pid amount aid)) ∧
    (∀ aid, (∀ ag, dget s.agents aid = some ag → ∀ ns, ag.new_strategy = some ns →
        (dkeys ns.owned_pools).Nodup ∧
        ∀ p ∈ dkeys ns.owned_pools, p ∉ dkeys ag.strategy.owned_pools →
          p ∉ dkeys s.pools) →
      C2Inv P k (executeStrategy P s aid)) ∧
    (∀ x ∈ (dkeys s.pools).foldl (fun l pid => rankRemove (some pid) l) s.rankingN,
      x = none) ∧
    (∀ x ∈ (dkeys s.pools).foldl (fun l pid => rankRemove (some pid) l) s.rankingM,
      x = none) ∧
    C2Inv P' k (changePhase P' s) := by
  have h' := h
  obtain ⟨hnd, hcn, hcm, hpn, hpm, hsn, hsm⟩ := h'
  refine ⟨?_, ?_, ?_, ?_, ?_, ?_, ?_, ?_⟩
  · intro aid pid hfresh
    exact (c2inv_openPool P k s aid pid hfresh h).1
  · intro pid
    exact (c2inv_closePool P k s pid h).1
  · intro aid pid
    exact (c2inv_updatePool P k s aid pid h).1
  · intro pid amount aid
    exact (c2inv_delegateStep P k s pid aid amount h).1
  · intro aid hwf
    exact c2inv_executeStrategy P k s aid h hwf
  · intro x hx
    have he : ((dkeys s.pools).foldl (fun l pid => rankRemove (some pid) l)
        s.rankingN).filterMap id = [] := by
      rw [foldl_erase_filterMap]
      exact foldl_erase_perm_nil (dkeys s.pools) hpn
    exact List.filterMap_eq_nil_iff.mp he x hx
  · intro x hx
    have he : ((dkeys s.pools).foldl (fun l pid => rankRemove (some pid) l)
        s.rankingM).filterMap id = [] := by
      rw [foldl_erase_filterMap]
      exact foldl_erase_perm_nil (dkeys s.pools) hpm
    exact List.filterMap_eq_nil_iff.mp he x hx
  · exact c2inv_changePhase P P' k s h

/-- A concrete well-formed state for the C2 witness: empty pool table,
one sentinel per ranking (`k = 0`). -/
def simC2 : SimState :=
  { pools := [], rankingN := [none], rankingM := [none], id_seq := 0,
    agents := [], simultaneous := true }

/-- Witness for C2 at concrete inputs. -/
theorem C2_ranking_invariant_witness :
    C2Inv P0 0 simC2 ∧ C2Inv P0 0 (closePool simC2 5) ∧
    C2Inv P0 0 (changePhase P0 simC2) := by
  have h : C2Inv P0 0 simC2 :=
    ⟨by decide, by decide, by decide, by decide, by decide,
     List.Pairwise.cons (fun b hb => absurd hb (List.not_mem_nil b))
       List.Pairwise.nil,
     List.Pairwise.cons (fun b hb => absurd hb (List.not_mem_nil b))
       List.Pairwise.nil⟩
  have hc := C2_ranking_invariant P0 P0 0 simC2 h
  exact ⟨h, hc.2.1 5, hc.2.2.2.2.2.2.2⟩

/-! ## Purity analysis of `update_strategy` (claim C3) -/

theorem dset_eq_self_of_dget {d : List (Nat × β)} {k : Nat} :
    ∀ {v : β}, dget d k = some v → dset d k v = d := by
  induction d with
  | nil => intro v h; simp [dget] at h
  | cons e t ih =>
    intro v h
    obtain ⟨k', v'⟩ := e
    by_cases hk : k' = k
    · subst hk
      rw [dget, if_pos rfl] at h
      injection h with h2
      rw [dset, if_pos rfl, h2]
    · rw [dget, if_neg hk] at h
      rw [dset, if_neg hk, ih h]

/-- Retracting a delegation (`update_delegation(0)`) and re-adding the same
amount restores the pool exactly, provided the recorded delegation matches
and is at least the minimum stake unit. -/
theorem update_delegation_roundtrip (p : Pool) (aid : Nat) (a : ℚ)
    (hd : DSorted p.delegators) (hget : dget p.delegators aid = some a)
    (ha : MIN_STAKE_UNIT ≤ a) :
    (p.update_delegation 0 aid).update_delegation a aid = p := by
  obtain ⟨pid, pcost, ppledge, pstake, powner, ppriv, pdel, pmargin, ppp, pdes⟩ := p
  unfold Pool.update_delegation
  rw [hget]
  dsimp only
  rw [if_pos MIN_STAKE_UNIT_pos, derase_dsetS _ _ _ hd]
  dsimp only
  rw [dget_derase_self _ hd aid]
  dsimp only
  rw [if_neg (not_lt.mpr ha), dsetS_derase_roundtrip _ aid a hd hget]
  dsimp only
  rw [show pstake - a + 0 + a = pstake from by ring]

/-- The pool-table action of one delegation update. -/
def dsPool (tbl : List (Nat × Pool)) (pid : Nat) (amount : ℚ) (aid : Nat) :
    List (Nat × Pool) :=
  match dget tbl pid with
  | none => tbl
  | some pool => dset tbl pid (pool.update_delegation amount aid)

theorem delegateStep_frame (P : Params) (s : SimState) (pid : Nat)
    (amount : ℚ) (aid : Nat) :
    (delegateStep P s pid amount aid).pools = dsPool s.pools pid amount aid ∧
    (delegateStep P s pid amount aid).rankingN = s.rankingN ∧
    (delegateStep P s pid amount aid).id_seq = s.id_seq ∧
    (delegateStep P s pid amount aid).agents = s.agents ∧
    (delegateStep P s pid amount aid).simultaneous = s.simultaneous := by
  unfold delegateStep dsPool
  cases dget s.pools pid with
  | none => exact ⟨rfl, rfl, rfl, rfl, rfl⟩
  | some pool => exact ⟨rfl, rfl, rfl, rfl, rfl⟩

theorem dset_cons_self {k : Nat} {v' v : β} {t : List (Nat × β)} :
    dset ((k, v') :: t) k v = (k, v) :: t := by
  rw [dset, if_pos rfl]

theorem dset_cons_other {k' k : Nat} (h : ¬ k' = k) {v' v : β}
    {t : List (Nat × β)} :
    dset ((k', v') :: t) k v = (k', v') :: dset t k v := by
  rw [dset, if_neg h]

theorem dset_dset_comm {k1 k2 : Nat} (hne : k1 ≠ k2) {v1 v2 : β} :
    ∀ {d : List (Nat × β)}, k1 ∈ dkeys d → k2 ∈ dkeys d →
    dset (dset d k1 v1) k2 v2 = dset (dset d k2 v2) k1 v1 := by
  intro d
  induction d with
  | nil => intro h1 _; simp [dkeys] at h1
  | cons e t ih =>
    intro h1 h2
    obtain ⟨k', v'⟩ := e
    by_cases ha : k' = k1
    · subst ha
      have hne' : ¬ k' = k2 := hne
      rw [dset_cons_self, dset_cons_other hne', dset_cons_other hne',
        dset_cons_self]
    · by_cases hb : k' = k2
      · subst hb
        rw [dset_cons_other ha, dset_cons_self, dset_cons_self,
          dset_cons_other ha]
      · have h1' : k1 ∈ dkeys t := by
          rcases List.mem_cons.mp h1 with hc | hc
          · exact absurd hc.symm ha
          · exact hc
        have h2' : k2 ∈ dkeys t := by
          rcases List.mem_cons.mp h2 with hc | hc
          · exact absurd hc.symm hb
          · exact hc
        rw [dset_cons_other ha, dset_cons_other hb, dset_cons_other hb,
          dset_cons_other ha, ih h1' h2']

theorem dsPool_none {tbl : List (Nat × Pool)} {k : Nat} {a : ℚ} {aid : Nat}
    (h : dget tbl k = none) : dsPool tbl k a aid = tbl := by
  unfold dsPool
  rw [h]

theorem dsPool_some {tbl : List (Nat × Pool)} {k : Nat} {a : ℚ} {aid : Nat}
    {pool : Pool} (h : dget tbl k = some pool) :
    dsPool tbl k a aid = dset tbl k (pool.update_delegation a aid) := by
  unfold dsPool
  rw [h]

theorem dsPool_comm {tbl : List (Nat × Pool)} {k1 k2 : Nat} {a1 a2 : ℚ}
    {aid : Nat} (hne : k1 ≠ k2) :
    dsPool (dsPool tbl k1 a1 aid) k2 a2 aid
      = dsPool (dsPool tbl k2 a2 aid) k1 a1 aid := by
  have hne' : k2 ≠ k1 := fun hc => hne hc.symm
  cases hg1 : dget tbl k1 with
  | none =>
    cases hg2 : dget tbl k2 with
    | none =>
      rw [dsPool_none hg1, dsPool_none hg2, dsPool_none hg1]
    | some p2 =>
      rw [dsPool_none hg1, dsPool_some hg2,
        dsPool_none ((dget_dset_other tbl k2 k1 _ hne).trans hg1)]
  | some p1 =>
    cases hg2 : dget tbl k2 with
    | none =>
      rw [dsPool_some hg1, dsPool_none hg2, dsPool_none ((dget_dset_other
        tbl k1 k2 _ hne').trans hg2), dsPool_some hg1]
    | some p2 =>
      rw [dsPool_some hg1,
        dsPool_some ((dget_dset_other tbl k1 k2 _ hne').trans hg2),
        dsPool_some hg2,
        dsPool_some ((dget_dset_other tbl k2 k1 _ hne).trans hg1)]
      exact dset_dset_comm hne (mem_dkeys_of_dget hg1) (mem_dkeys_of_dget hg2)

theorem dsPool_fold_comm {aid : Nat} :
    ∀ (es : List (Nat × ℚ)) (tbl : List (Nat × Pool)) (k : Nat) (a : ℚ),
    k ∉ dkeys es →
    es.foldl (fun dd e => dsPool dd e.1 e.2 aid) (dsPool tbl k a aid)
      = dsPool (es.foldl (fun dd e => dsPool dd e.1 e.2 aid) tbl) k a aid := by
  intro es
  induction es with
  | nil => intro tbl k a _; rfl
  | cons e t ih =>
    intro tbl k a hk
    have hne : e.1 ≠ k := by
      intro hc
      exact hk (hc ▸ List.mem_cons_self e.1 (dkeys t))
    rw [List.foldl_cons, List.foldl_cons]
    rw [show dsPool (dsPool tbl k a aid) e.1 e.2 aid
        = dsPool (dsPool tbl e.1 e.2 aid) k a aid from
      dsPool_comm (fun hc => hne hc.symm)]
    exact ih _ k a (fun hc => hk (List.mem_cons_of_mem _ hc))

theorem dset_dset_self {d : List (Nat × β)} {k : Nat} {v1 v2 : β} :
    dset (dset d k v1) k v2 = dset d k v2 := by
  induction d with
  | nil =>
    show dset [(k, v1)] k v2 = [(k, v2)]
    rw [dset_cons_self]
  | cons e t ih =>
    obtain ⟨k', v'⟩ := e
    by_cases hk : k' = k
    · subst hk
      rw [dset_cons_self, dset_cons_self, dset_cons_self]
    · rw [dset_cons_other hk, dset_cons_other hk, dset_cons_other hk, ih]

theorem dsPool_roundtrip {tbl : List (Nat × Pool)} {k aid : Nat} {a : ℚ}
    (hwf : ∃ pool, dget tbl k = some pool ∧ dget pool.delegators aid = some a ∧
      DSorted pool.delegators ∧ MIN_STAKE_UNIT ≤ a) :
    dsPool (dsPool tbl k 0 aid) k a aid = tbl := by
  obtain ⟨pool, hget, hdel, hds, ha⟩ := hwf
  unfold dsPool
  rw [hget]
  dsimp only
  rw [dget_dset_self]
  dsimp only
  rw [dset_dset_self, update_delegation_roundtrip pool aid a hds hdel ha]
  exact dset_eq_self_of_dget hget

theorem dsPool_dget_other {tbl : List (Nat × Pool)} {k j : Nat} {a : ℚ}
    {aid : Nat} (hne : j ≠ k) : dget (dsPool tbl k a aid) j = dget tbl j := by
  cases hg : dget tbl k with
  | none => rw [dsPool_none hg]
  | some pool => rw [dsPool_some hg, dget_dset_other tbl k j _ hne]

theorem dsPool_fold_dget_other {aid j : Nat} :
    ∀ (es : List (Nat × ℚ)) (tbl : List (Nat × Pool)), j ∉ dkeys es →
    dget (es.foldl (fun dd e => dsPool dd e.1 0 aid) tbl) j = dget tbl j := by
  intro es
  induction es with
  | nil => intro tbl _; rfl
  | cons e t ih =>
    intro tbl hj
    rw [List.foldl_cons]
    rw [ih _ (fun hc => hj (List.mem_cons_of_mem _ hc))]
    exact dsPool_dget_other
      (fun hc => hj (hc ▸ List.mem_cons_self e.1 (dkeys t)))

theorem dsPool_fold_comm0 {aid : Nat} :
    ∀ (es : List (Nat × ℚ)) (tbl : List (Nat × Pool)) (k : Nat) (a : ℚ),
    k ∉ dkeys es →
    es.foldl (fun dd e => dsPool dd e.1 0 aid) (dsPool tbl k a aid)
      = dsPool (es.foldl (fun dd e => dsPool dd e.1 0 aid) tbl) k a aid := by
  intro es
  induction es with
  | nil => intro tbl k a _; rfl
  | cons e t ih =>
    intro tbl k a hk
    have hne : e.1 ≠ k := by
      intro hc
      exact hk (hc ▸ List.mem_cons_self e.1 (dkeys t))
    rw [List.foldl_cons, List.foldl_cons]
    rw [show dsPool (dsPool tbl k a aid) e.1 0 aid
        = dsPool (dsPool tbl e.1 0 aid) k a aid from
      dsPool_comm (fun hc => hne hc.symm)]
    exact ih _ k a (fun hc => hk (List.mem_cons_of_mem _ hc))

/-- One retract/restore cycle over a duplicate-free allocation list whose
entries match the pools' recorded delegations returns the pool table to
exactly its original value. -/
theorem retract_restore_exact {aid : Nat} :
    ∀ (allocs : List (Nat × ℚ)) (tbl : List (Nat × Pool)),
    (dkeys allocs).Nodup →
    (∀ e ∈ allocs, ∃ pool, dget tbl e.1 = some pool ∧
      dget pool.delegators aid = some e.2 ∧ DSorted pool.delegators ∧
      MIN_STAKE_UNIT ≤ e.2) →
    allocs.foldl (fun dd e => dsPool dd e.1 e.2 aid)
      (allocs.foldl (fun dd e => dsPool dd e.1 0 aid) tbl) = tbl := by
  intro allocs
  induction allocs with
  | nil => intro tbl _ _; rfl
  | cons e rest ih =>
    intro tbl hnd hwf
    have hknotin : e.1 ∉ dkeys rest := (List.nodup_cons.mp hnd).1
    have hndrest : (dkeys rest).Nodup := (List.nodup_cons.mp hnd).2
    obtain ⟨pool, hget, hdel, hds, ha⟩ := hwf e (List.mem_cons_self e rest)
    rw [List.foldl_cons, List.foldl_cons]
    rw [dsPool_fold_comm0 rest tbl e.1 0 hknotin]
    have hgfold : dget (rest.foldl (fun dd e => dsPool dd e.1 0 aid) tbl) e.1
        = some pool := by
      rw [dsPool_fold_dget_other rest tbl hknotin]
      exact hget
    rw [dsPool_roundtrip ⟨pool, hgfold, hdel, hds, ha⟩]
    refine ih tbl hndrest ?_
    intro e2 he2
    exact hwf e2 (List.mem_cons_of_mem e he2)

theorem delegfold0_frame (P : Params) (aid : Nat) :
    ∀ (es : List (Nat × ℚ)) (s : SimState),
    (es.foldl (fun st e => delegateStep P st e.1 0 aid) s).pools
      = es.foldl (fun dd e => dsPool dd e.1 0 aid) s.pools ∧
    (es.foldl (fun st e => delegateStep P st e.1 0 aid) s).rankingN = s.rankingN ∧
    (es.foldl (fun st e => delegateStep P st e.1 0 aid) s).id_seq = s.id_seq ∧
    (es.foldl (fun st e => delegateStep P st e.1 0 aid) s).agents = s.agents ∧
    (es.foldl (fun st e => delegateStep P st e.1 0 aid) s).simultaneous
      = s.simultaneous := by
  intro es
  induction es with
  | nil => intro s; exact ⟨rfl, rfl, rfl, rfl, rfl⟩
  | cons e t ih =>
    intro s
    rw [List.foldl_cons, List.foldl_cons]
    have h1 := delegateStep_frame P s e.1 0 aid
    have h2 := ih (delegateStep P s e.1 0 aid)
    exact ⟨h2.1.trans (by rw [h1.1]), h2.2.1.trans h1.2.1,
      h2.2.2.1.trans h1.2.2.1, h2.2.2.2.1.trans h1.2.2.2.1,
      h2.2.2.2.2.trans h1.2.2.2.2⟩

theorem delegfold_frame (P : Params) (aid : Nat) :
    ∀ (es : List (Nat × ℚ)) (s : SimState),
    (es.foldl (fun st e => delegateStep P st e.1 e.2 aid) s).pools
      = es.foldl (fun dd e => dsPool dd e.1 e.2 aid) s.pools ∧
    (es.foldl (fun st e => delegateStep P st e.1 e.2 aid) s).rankingN
      = s.rankingN ∧
    (es.foldl (fun st e => delegateStep P st e.1 e.2 aid) s).id_seq = s.id_seq ∧
    (es.foldl (fun st e => delegateStep P st e.1 e.2 aid) s).agents = s.agents ∧
    (es.foldl (fun st e => delegateStep P st e.1 e.2 aid) s).simultaneous
      = s.simultaneous := by
  intro es
  induction es with
  | nil => intro s; exact ⟨rfl, rfl, rfl, rfl, rfl⟩
  | cons e t ih =>
    intro s
    rw [List.foldl_cons, List.foldl_cons]
    have h1 := delegateStep_frame P s e.1 e.2 aid
    have h2 := ih (delegateStep P s e.1 e.2 aid)
    exact ⟨h2.1.trans (by rw [h1.1]), h2.2.1.trans h1.2.1,
      h2.2.2.1.trans h1.2.2.1, h2.2.2.2.1.trans h1.2.2.2.1,
      h2.2.2.2.2.trans h1.2.2.2.2⟩

/-- The delegation well-formedness the retract/restore cycle relies on: the
agent's committed allocations have unique pool ids and each matches the
pool's recorded delegation for this agent (at least a minimum stake unit,
delegators canonically sorted). -/
def AllocWF (tbl : List (Nat × Pool)) (aid : Nat) (ag : AgentSt) : Prop :=
  (dkeys ag.strategy.stake_allocations).Nodup ∧
  ∀ e ∈ ag.strategy.stake_allocations, ∃ pool, dget tbl e.1 = some pool ∧
    dget pool.delegators aid = some e.2 ∧ DSorted pool.delegators ∧
    MIN_STAKE_UNIT ≤ e.2

theorem determineStakeAllocations_frame (P : Params) (s : SimState) (aid : Nat)
    (ag : AgentSt) (x : ℚ) (hwf : AllocWF s.pools aid ag) :
    (determineStakeAllocations P s aid ag x).1.pools = s.pools ∧
    (determineStakeAllocations P s aid ag x).1.rankingN = s.rankingN ∧
    (determineStakeAllocations P s aid ag x).1.id_seq = s.id_seq ∧
    (determineStakeAllocations P s aid ag x).1.agents = s.agents ∧
    (determineStakeAllocations P s aid ag x).1.simultaneous = s.simultaneous := by
  obtain ⟨hnd, hmatch⟩ := hwf
  unfold determineStakeAllocations
  by_cases he : (eligiblePools s aid ag).isEmpty
  · rw [if_pos he]
    exact ⟨rfl, rfl, rfl, rfl, rfl⟩
  · rw [if_neg he]
    dsimp only
    have h1 := delegfold0_frame P aid ag.strategy.stake_allocations s
    have h2 := delegfold_frame P aid ag.strategy.stake_allocations
      (ag.strategy.stake_allocations.foldl
        (fun st e => delegateStep P st e.1 0 aid) s)
    refine ⟨?_, h2.2.1.trans h1.2.1, h2.2.2.1.trans h1.2.2.1,
      h2.2.2.2.1.trans h1.2.2.2.1, h2.2.2.2.2.trans h1.2.2.2.2⟩
    rw [h2.1, h1.1]
    exact retract_restore_exact ag.strategy.stake_allocations s.pools hnd hmatch

theorem findDelegationMove_frame (P : Params) (s : SimState) (aid : Nat)
    (ag : AgentSt) (x : ℚ) (hwf : AllocWF s.pools aid ag) :
    (findDelegationMove P s aid ag x).1.pools = s.pools ∧
    (findDelegationMove P s aid ag x).1.rankingN = s.rankingN ∧
    (findDelegationMove P s aid ag x).1.id_seq = s.id_seq ∧
    (findDelegationMove P s aid ag x).1.agents = s.agents ∧
    (findDelegationMove P s aid ag x).1.simultaneous = s.simultaneous := by
  unfold findDelegationMove
  by_cases hx : x < MIN_STAKE_UNIT
  · rw [if_pos hx]
    exact ⟨rfl, rfl, rfl, rfl, rfl⟩
  · rw [if_neg hx]
    dsimp only
    exact determineStakeAllocations_frame P s aid ag x hwf

theorem findDelegationForOperator_frame (P : Params) (s : SimState) (aid : Nat)
    (ag : AgentSt) (tp : ℚ) (hwf : AllocWF s.pools aid ag) :
    (findDelegationForOperator P s aid ag tp).1.pools = s.pools ∧
    (findDelegationForOperator P s aid ag tp).1.rankingN = s.rankingN ∧
    (findDelegationForOperator P s aid ag tp).1.id_seq = s.id_seq ∧
    (findDelegationForOperator P s aid ag tp).1.agents = s.agents ∧
    (findDelegationForOperator P s aid ag tp).1.simultaneous = s.simultaneous := by
  unfold findDelegationForOperator
  by_cases hr : 0 < ag.stake - tp
  · rw [if_pos hr]
    dsimp only
    exact findDelegationMove_frame P s aid ag _ hwf
  · rw [if_neg hr]
    exact ⟨rfl, rfl, rfl, rfl, rfl⟩

theorem draft_fold_frame (P : Params) (aid existing : Nat) (cost pledge : ℚ)
    (margins : List ℚ) (ag : AgentSt) :
    ∀ (js : List Nat) (acc : SimState × List (Nat × Pool)),
    ((js.foldl (draftStep P aid existing cost pledge margins ag) acc).1).pools
      = acc.1.pools ∧
    ((js.foldl (draftStep P aid existing cost pledge margins ag) acc).1).rankingN
      = acc.1.rankingN ∧
    ((js.foldl (draftStep P aid existing cost pledge margins ag) acc).1).rankingM
      = acc.1.rankingM ∧
    ((js.foldl (draftStep P aid existing cost pledge margins ag) acc).1).agents
      = acc.1.agents ∧
    ((js.foldl (draftStep P aid existing cost pledge margins ag) acc).1).simultaneous
      = acc.1.simultaneous ∧
    ((js.foldl (draftStep P aid existing cost pledge margins ag) acc).1).id_seq
      = acc.1.id_seq + js.length := by
  intro js
  induction js with
  | nil => intro acc; exact ⟨rfl, rfl, rfl, rfl, rfl, rfl⟩
  | cons j t ih =>
    intro acc
    rw [List.foldl_cons]
    have h2 := ih (draftStep P aid existing cost pledge margins ag acc j)
    refine ⟨h2.1.trans rfl, h2.2.1.trans rfl, h2.2.2.1.trans rfl,
      h2.2.2.2.1.trans rfl, h2.2.2.2.2.1.trans rfl, ?_⟩
    rw [h2.2.2.2.2.2]
    have hstep : (draftStep P aid existing cost pledge margins ag acc j).1.id_seq
        = acc.1.id_seq + 1 := rfl
    rw [hstep]
    show acc.1.id_seq + 1 + t.length = acc.1.id_seq + (t.length + 1)
    omega

theorem findOperatorMove_decomp (P : Params) (s : SimState) (aid : Nat)
    (ag : AgentSt) (num_pools : Nat) (owned_pools : List (Nat × Pool))
    (margins : List ℚ) :
    ∃ X : SimState,
      X.pools = s.pools ∧ X.rankingN = s.rankingN ∧ X.rankingM = s.rankingM ∧
      X.agents = s.agents ∧ X.simultaneous = s.simultaneous ∧
      s.id_seq ≤ X.id_seq ∧
      (findOperatorMove P s aid ag num_pools owned_pools margins).1
        = (findDelegationForOperator P X aid ag
            (P.pledge_per_pool ag.stake P.global_saturation_threshold num_pools
              * (num_pools : ℚ))).1 := by
  unfold findOperatorMove
  dsimp only
  refine ⟨_, ?_, ?_, ?_, ?_, ?_, ?_, rfl⟩
  · exact (draft_fold_frame P aid _ _ _ margins ag _ _).1
  · exact (draft_fold_frame P aid _ _ _ margins ag _ _).2.1
  · exact (draft_fold_frame P aid _ _ _ margins ag _ _).2.2.1
  · exact (draft_fold_frame P aid _ _ _ margins ag _ _).2.2.2.1
  · exact (draft_fold_frame P aid _ _ _ margins ag _ _).2.2.2.2.1
  · rw [(draft_fold_frame P aid _ _ _ margins ag _ _).2.2.2.2.2]
    exact Nat.le_add_right _ _

theorem findOperatorMove_frame (P : Params) (s : SimState) (aid : Nat)
    (ag : AgentSt) (num_pools : Nat) (owned_pools : List (Nat × Pool))
    (margins : List ℚ) (hwf : AllocWF s.pools aid ag) :
    (findOperatorMove P s aid ag num_pools owned_pools margins).1.pools
      = s.pools ∧
    (findOperatorMove P s aid ag num_pools owned_pools margins).1.rankingN
      = s.rankingN ∧
    (findOperatorMove P s aid ag num_pools owned_pools margins).1.agents
      = s.agents ∧
    (findOperatorMove P s aid ag num_pools owned_pools margins).1.simultaneous
      = s.simultaneous ∧
    s.id_seq
      ≤ (findOperatorMove P s aid ag num_pools owned_pools margins).1.id_seq := by
  obtain ⟨X, hXp, hXn, hXm, hXa, hXs, hXq, hXeq⟩ :=
    findOperatorMove_decomp P s aid ag num_pools owned_pools margins
  have hwfX : AllocWF X.pools aid ag := by rw [hXp]; exact hwf
  have hf := findDelegationForOperator_frame P X aid ag
    (P.pledge_per_pool ag.stake P.global_saturation_threshold num_pools
      * (num_pools : ℚ)) hwfX
  rw [hXeq]
  exact ⟨hf.1.trans hXp, hf.2.1.trans hXn, hf.2.2.2.1.trans hXa,
    hf.2.2.2.2.trans hXs, hXq.trans (Nat.le_of_eq hf.2.2.1.symm)⟩

theorem choosePoolStrategy_frame (P : Params) (s : SimState) (aid : Nat)
    (ag : AgentSt) (hwf : AllocWF s.pools aid ag) :
    (choosePoolStrategy P s aid ag).1.pools = s.pools ∧
    (choosePoolStrategy P s aid ag).1.rankingN = s.rankingN ∧
    (choosePoolStrategy P s aid ag).1.agents = s.agents ∧
    (choosePoolStrategy P s aid ag).1.simultaneous = s.simultaneous ∧
    s.id_seq ≤ (choosePoolStrategy P s aid ag).1.id_seq := by
  unfold choosePoolStrategy
  dsimp only
  by_cases ht : 0 < chooseT (fun n => (P.margins_and_utility n).2) 1 P.k
  · rw [if_pos ht]
    dsimp only
    exact findOperatorMove_frame P s aid ag _ _ _ hwf
  · rw [if_neg ht]
    exact ⟨rfl, rfl, rfl, rfl, Nat.le_refl _⟩

theorem chooseNS_frame (P : Params) (s : SimState) (aid : Nat) (ag : AgentSt)
    (hwf : AllocWF s.pools aid ag) :
    (chooseNS P s aid ag).1.pools = s.pools ∧
    (chooseNS P s aid ag).1.rankingN = s.rankingN ∧
    (chooseNS P s aid ag).1.agents = s.agents ∧
    (chooseNS P s aid ag).1.simultaneous = s.simultaneous ∧
    s.id_seq ≤ (chooseNS P s aid ag).1.id_seq := by
  unfold chooseNS
  dsimp only
  have h1 := findDelegationMove_frame P s aid ag ag.stake hwf
  have hwf1 : AllocWF (findDelegationMove P s aid ag ag.stake).1.pools aid ag := by
    rw [h1.1]
    exact hwf
  have h2 := choosePoolStrategy_frame P
    (findDelegationMove P s aid ag ag.stake).1 aid ag hwf1
  exact ⟨h2.1.trans h1.1, h2.2.1.trans h1.2.1, h2.2.2.1.trans h1.2.2.2.1,
    h2.2.2.2.1.trans h1.2.2.2.2,
    (Nat.le_of_eq h1.2.2.1.symm).trans h2.2.2.2.2⟩

theorem updateStrategy_frame (P : Params) (s : SimState) (aid : Nat)
    (hwf : ∀ ag, dget s.agents aid = some ag → AllocWF s.pools aid ag) :
    (updateStrategy P s aid).pools = s.pools ∧
    (updateStrategy P s aid).rankingN = s.rankingN ∧
    s.id_seq ≤ (updateStrategy P s aid).id_seq ∧
    (∀ q, q ≠ aid → dget (updateStrategy P s aid).agents q = dget s.agents q) ∧
    (updateStrategy P s aid).simultaneous = s.simultaneous := by
  unfold updateStrategy
  cases hag : dget s.agents aid with
  | none => exact ⟨rfl, rfl, Nat.le_refl _, fun _ _ => rfl, rfl⟩
  | some ag =>
    dsimp only
    have h := chooseNS_frame P s aid ag (hwf ag hag)
    refine ⟨h.1, h.2.1, h.2.2.2.2, ?_, h.2.2.2.1⟩
    intro q hq
    refine (dget_dset_other _ aid q _ hq).trans ?_
    rw [h.2.2.1]

theorem c2inv_alloc0_fold (P : Params) (k : Nat) (aid : Nat) :
    ∀ (es : List (Nat × ℚ)) (s : SimState), C2Inv P k s →
    C2Inv P k (es.foldl (fun st e => delegateStep P st e.1 0 aid) s) := by
  intro es
  induction es with
  | nil => intro s h; exact h
  | cons e t ih =>
    intro s h
    rw [List.foldl_cons]
    exact ih _ (c2inv_delegateStep P k s e.1 aid 0 h).1

theorem c2inv_dsa (P : Params) (k : Nat) (s : SimState) (aid : Nat)
    (ag : AgentSt) (x : ℚ) (h : C2Inv P k s) :
    C2Inv P k (determineStakeAllocations P s aid ag x).1 := by
  unfold determineStakeAllocations
  by_cases he : (eligiblePools s aid ag).isEmpty
  · rw [if_pos he]; exact h
  · rw [if_neg he]
    dsimp only
    exact (c2inv_alloc_fold P k aid _ _ (c2inv_alloc0_fold P k aid _ s h)).1

theorem c2inv_fdm (P : Params) (k : Nat) (s : SimState) (aid : Nat)
    (ag : AgentSt) (x : ℚ) (h : C2Inv P k s) :
    C2Inv P k (findDelegationMove P s aid ag x).1 := by
  unfold findDelegationMove
  by_cases hx : x < MIN_STAKE_UNIT
  · rw [if_pos hx]; exact h
  · rw [if_neg hx]
    dsimp only
    exact c2inv_dsa P k s aid ag x h

theorem c2inv_fdfo (P : Params) (k : Nat) (s : SimState) (aid : Nat)
    (ag : AgentSt) (tp : ℚ) (h : C2Inv P k s) :
    C2Inv P k (findDelegationForOperator P s aid ag tp).1 := by
  unfold findDelegationForOperator
  by_cases hr : 0 < ag.stake - tp
  · rw [if_pos hr]
    dsimp only
    exact c2inv_fdm P k s aid ag _ h
  · rw [if_neg hr]
    exact h

theorem c2inv_fom (P : Params) (k : Nat) (s : SimState) (aid : Nat)
    (ag : AgentSt) (num_pools : Nat) (owned_pools : List (Nat × Pool))
    (margins : List ℚ) (h : C2Inv P k s) :
    C2Inv P k (findOperatorMove P s aid ag num_pools owned_pools margins).1 := by
  obtain ⟨X, hXp, hXn, hXm, _, _, _, hXeq⟩ :=
    findOperatorMove_decomp P s aid ag num_pools owned_pools margins
  rw [hXeq]
  exact c2inv_fdfo P k X aid ag _ (c2inv_of_eq hXp hXn hXm h)

theorem c2inv_cps (P : Params) (k : Nat) (s : SimState) (aid : Nat)
    (ag : AgentSt) (h : C2Inv P k s) :
    C2Inv P k (choosePoolStrategy P s aid ag).1 := by
  unfold choosePoolStrategy
  dsimp only
  by_cases ht : 0 < chooseT (fun n => (P.margins_and_utility n).2) 1 P.k
  · rw [if_pos ht]
    dsimp only
    exact c2inv_fom P k s aid ag _ _ _ h
  · rw [if_neg ht]
    exact h

theorem c2inv_chooseNS (P : Params) (k : Nat) (s : SimState) (aid : Nat)
    (ag : AgentSt) (h : C2Inv P k s) :
    C2Inv P k (chooseNS P s aid ag).1 := by
  unfold chooseNS
  dsimp only
  exact c2inv_cps P k _ aid ag (c2inv_fdm P k s aid ag ag.stake h)

theorem c2inv_updateStrategy (P : Params) (k : Nat) (s : SimState) (aid : Nat)
    (h : C2Inv P k s) : C2Inv P k (updateStrategy P s aid) := by
  unfold updateStrategy
  cases hag : dget s.agents aid with
  | none => exact h
  | some ag =>
    dsimp only
    exact c2inv_of_eq rfl rfl rfl (c2inv_chooseNS P k s aid ag h)

/-- Every list of optional ids is a permutation of its ids (tagged `some`)
followed by its `none` sentinels. -/
theorem perm_some_none_decomp :
    ∀ l : List (Option Nat),
    l.Perm ((l.filterMap id).map some ++ List.replicate (l.count none) none) := by
  intro l
  induction l with
  | nil => exact List.Perm.refl _
  | cons x t ih =>
    cases x with
    | none =>
      have hc : ((none : Option Nat) :: t).count none = t.count none + 1 := by
        simp [List.count_cons]
      rw [hc]
      rw [show ((none :: t : List (Option Nat)).filterMap id) = t.filterMap id
        from rfl]
      rw [List.replicate_succ]
      refine (ih.cons none).trans ?_
      exact List.perm_middle.symm
    | some v =>
      have hc : ((some v : Option Nat) :: t).count none = t.count none := by
        simp [List.count_cons]
      rw [hc]
      rw [show ((some v :: t : List (Option Nat)).filterMap id)
        = v :: t.filterMap id from rfl]
      rw [List.map_cons]
      exact ih.cons (some v)

theorem perm_of_filterMap_count {l₁ l₂ : List (Option Nat)}
    (hf : (l₁.filterMap id).Perm (l₂.filterMap id))
    (hc : l₁.count none = l₂.count none) : l₁.Perm l₂ := by
  refine (perm_some_none_decomp l₁).trans
    (List.Perm.trans ?_ (perm_some_none_decomp l₂).symm)
  rw [hc]
  exact (hf.map some).append_right _

/-- Two states carrying the C2 invariant over the same pool table and the
same sentinel capacity have equal myopic rankings, provided the ranking keys
are antisymmetric on the ranking's members. -/
theorem ranking_eq_of_c2inv {P : Params} {k : Nat} {s t : SimState}
    (hs : C2Inv P k s) (ht : C2Inv P k t) (hpools : t.pools = s.pools)
    (hanti : ∀ x ∈ s.rankingM, ∀ y ∈ s.rankingM,
      listLe (poolKeyM P s.pools x) (poolKeyM P s.pools y) = true →
      listLe (poolKeyM P s.pools y) (poolKeyM P s.pools x) = true → x = y) :
    t.rankingM = s.rankingM := by
  obtain ⟨hndS, hcnS, hcmS, hpnS, hpmS, hsnS, hsmS⟩ := hs
  obtain ⟨hndT, hcnT, hcmT, hpnT, hpmT, hsnT, hsmT⟩ := ht
  rw [hpools] at hpmT hsmT
  have hperm : t.rankingM.Perm s.rankingM :=
    perm_of_filterMap_count (hpmT.trans hpmS.symm) (by rw [hcmT, hcmS])
  refine eq_of_perm_of_pairwise hperm ?_ hsmT hsmS
  intro x hx y hy hxy hyx
  exact hanti x (hperm.mem_iff.mp hx) y (hperm.mem_iff.mp hy) hxy hyx

/-- Equality of the model components the decision engine reads: pool table,
both rankings, pool-id sequence. -/
def CoreEq (s t : SimState) : Prop :=
  s.pools = t.pools ∧ s.rankingN = t.rankingN ∧ s.rankingM = t.rankingM ∧
  s.id_seq = t.id_seq

theorem delegateStep_congr (P : Params) (aid pid : Nat) (a : ℚ) {s t : SimState}
    (hce : CoreEq s t) :
    CoreEq (delegateStep P s pid a aid) (delegateStep P t pid a aid) := by
  obtain ⟨hp, hn, hm, hq⟩ := hce
  unfold delegateStep
  rw [hp, hm]
  cases hget : dget t.pools pid with
  | none => exact ⟨hp, hn, hm, hq⟩
  | some pool =>
    dsimp only
    exact ⟨rfl, hn, rfl, hq⟩

theorem delegfold0_congr (P : Params) (aid : Nat) :
    ∀ (es : List (Nat × ℚ)) {s t : SimState}, CoreEq s t →
    CoreEq (es.foldl (fun st e => delegateStep P st e.1 0 aid) s)
      (es.foldl (fun st e => delegateStep P st e.1 0 aid) t) := by
  intro es
  induction es with
  | nil => intro s t h; exact h
  | cons e r ih =>
    intro s t h
    rw [List.foldl_cons, List.foldl_cons]
    exact ih (delegateStep_congr P aid e.1 0 h)

theorem delegfold_congr (P : Params) (aid : Nat) :
    ∀ (es : List (Nat × ℚ)) {s t : SimState}, CoreEq s t →
    CoreEq (es.foldl (fun st e => delegateStep P st e.1 e.2 aid) s)
      (es.foldl (fun st e => delegateStep P st e.1 e.2 aid) t) := by
  intro es
  induction es with
  | nil => intro s t h; exact h
  | cons e r ih =>
    intro s t h
    rw [List.foldl_cons, List.foldl_cons]
    exact ih (delegateStep_congr P aid e.1 e.2 h)

theorem eligiblePools_congr (aid : Nat) (ag : AgentSt) {s t : SimState}
    (hce : CoreEq s t) : eligiblePools s aid ag = eligiblePools t aid ag := by
  obtain ⟨hp, hn, hm, _⟩ := hce
  unfold eligiblePools agentRankings
  rw [hp, hn, hm]

theorem dsa_congr (P : Params) (aid : Nat) (ag : AgentSt) (x : ℚ)
    {s t : SimState} (hce : CoreEq s t) :
    CoreEq (determineStakeAllocations P s aid ag x).1
      (determineStakeAllocations P t aid ag x).1 ∧
    (determineStakeAllocations P s aid ag x).2
      = (determineStakeAllocations P t aid ag x).2 := by
  have hel := eligiblePools_congr aid ag hce
  unfold determineStakeAllocations
  rw [hel]
  by_cases he : (eligiblePools t aid ag).isEmpty
  · rw [if_pos he, if_pos he]
    exact ⟨hce, rfl⟩
  · rw [if_neg he, if_neg he]
    dsimp only
    have h1 := delegfold0_congr P aid ag.strategy.stake_allocations hce
    refine ⟨delegfold_congr P aid ag.strategy.stake_allocations h1, ?_⟩
    rw [h1.1]

theorem fdm_congr (P : Params) (aid : Nat) (ag : AgentSt) (x : ℚ)
    {s t : SimState} (hce : CoreEq s t) :
    CoreEq (findDelegationMove P s aid ag x).1
      (findDelegationMove P t aid ag x).1 ∧
    (findDelegationMove P s aid ag x).2 = (findDelegationMove P t aid ag x).2 := by
  unfold findDelegationMove
  by_cases hx : x < MIN_STAKE_UNIT
  · rw [if_pos hx, if_pos hx]
    exact ⟨hce, rfl⟩
  · rw [if_neg hx, if_neg hx]
    dsimp only
    have h := dsa_congr P aid ag x hce
    refine ⟨h.1, ?_⟩
    rw [h.2]

theorem fdfo_congr (P : Params) (aid : Nat) (ag : AgentSt) (tp : ℚ)
    {s t : SimState} (hce : CoreEq s t) :
    CoreEq (findDelegationForOperator P s aid ag tp).1
      (findDelegationForOperator P t aid ag tp).1 ∧
    (findDelegationForOperator P s aid ag tp).2
      = (findDelegationForOperator P t aid ag tp).2 := by
  unfold findDelegationForOperator
  by_cases hr : 0 < ag.stake - tp
  · rw [if_pos hr, if_pos hr]
    dsimp only
    have h := fdm_congr P aid ag (ag.stake - tp) hce
    refine ⟨h.1, ?_⟩
    rw [h.2]
  · rw [if_neg hr, if_neg hr]
    exact ⟨hce, rfl⟩

theorem calculateMargin_congr (P : Params) (ag : AgentSt) (pool : Pool)
    {s t : SimState} (hce : CoreEq s t) :
    calculateMargin P s ag pool = calculateMargin P t ag pool := by
  obtain ⟨hp, hn, hm, _⟩ := hce
  unfold calculateMargin referencePotentialProfit agentRankings
  rw [hp, hn, hm]

theorem calculateCurrentUtility_congr (P : Params) (ag : AgentSt)
    {s t : SimState} (hce : CoreEq s t) :
    calculateCurrentUtility P s ag = calculateCurrentUtility P t ag := by
  obtain ⟨hp, _, _, _⟩ := hce
  unfold calculateCurrentUtility
  rw [hp]

theorem calculateExpectedUtility_congr (P : Params) (strat : Strategy)
    {s t : SimState} (hce : CoreEq s t) :
    calculateExpectedUtility P s strat = calculateExpectedUtility P t strat := by
  obtain ⟨hp, _, _, _⟩ := hce
  unfold calculateExpectedUtility
  rw [hp]

theorem draft_fold_congr (P : Params) (aid existing : Nat) (cost pledge : ℚ)
    (margins : List ℚ) (ag : AgentSt) :
    ∀ (js : List Nat) (acc acc' : SimState × List (Nat × Pool)),
    CoreEq acc.1 acc'.1 → acc.2 = acc'.2 →
    CoreEq ((js.foldl (draftStep P aid existing cost pledge margins ag) acc).1)
      ((js.foldl (draftStep P aid existing cost pledge margins ag) acc').1) ∧
    (js.foldl (draftStep P aid existing cost pledge margins ag) acc).2
      = (js.foldl (draftStep P aid existing cost pledge margins ag) acc').2 := by
  intro js
  induction js with
  | nil => intro acc acc' h1 h2; exact ⟨h1, h2⟩
  | cons j r ih =>
    intro acc acc' h1 h2
    obtain ⟨hp, hn, hm, hq⟩ := h1
    rw [List.foldl_cons, List.foldl_cons]
    refine ih _ _ ⟨hp, hn, hm, ?_⟩ ?_
    · show acc.1.id_seq + 1 = acc'.1.id_seq + 1
      rw [hq]
    · unfold draftStep getNextPoolId
      dsimp only
      rw [h2, hq]
      have hcg : CoreEq { acc.1 with id_seq := acc'.1.id_seq + 1 }
          { acc'.1 with id_seq := acc'.1.id_seq + 1 } := ⟨hp, hn, hm, rfl⟩
      rw [calculateMargin_congr P ag _ hcg]

theorem refreshPool_congr (P : Params) (ag : AgentSt) (pledge cost : ℚ)
    (margins : List ℚ) {s t : SimState} (hce : CoreEq s t) :
    refreshPool P s ag pledge cost margins
      = refreshPool P t ag pledge cost margins := by
  funext ie
  unfold refreshPool
  dsimp only
  rw [calculateMargin_congr P ag _ hce]

theorem fom_congr (P : Params) (aid : Nat) (ag : AgentSt) (num_pools : Nat)
    (owned_pools : List (Nat × Pool)) (margins : List ℚ) {s t : SimState}
    (hce : CoreEq s t) :
    CoreEq (findOperatorMove P s aid ag num_pools owned_pools margins).1
      (findOperatorMove P t aid ag num_pools owned_pools margins).1 ∧
    (findOperatorMove P s aid ag num_pools owned_pools margins).2
      = (findOperatorMove P t aid ag num_pools owned_pools margins).2 := by
  unfold findOperatorMove
  dsimp only
  rw [refreshPool_congr P ag _ _ margins hce]
  refine ⟨?_, ?_⟩
  · refine (fdfo_congr P aid ag _ ?_).1
    refine (draft_fold_congr P aid _ _ _ margins ag _ _ _ ?_ ?_).1
    · exact hce
    · rfl
  · congr 1
    · refine (fdfo_congr P aid ag _ ?_).2
      refine (draft_fold_congr P aid _ _ _ margins ag _ _ _ ?_ ?_).1
      · exact hce
      · rfl
    · refine (draft_fold_congr P aid _ _ _ margins ag _ _ _ ?_ ?_).2
      · exact hce
      · rfl

theorem cps_congr (P : Params) (aid : Nat) (ag : AgentSt) {s t : SimState}
    (hce : CoreEq s t) :
    CoreEq (choosePoolStrategy P s aid ag).1 (choosePoolStrategy P t aid ag).1 ∧
    (choosePoolStrategy P s aid ag).2 = (choosePoolStrategy P t aid ag).2 := by
  unfold choosePoolStrategy
  dsimp only
  by_cases ht : 0 < chooseT (fun n => (P.margins_and_utility n).2) 1 P.k
  · rw [if_pos ht, if_pos ht]
    dsimp only
    refine ⟨(fom_congr P aid ag _ _ _ hce).1, ?_⟩
    rw [(fom_congr P aid ag _ _ _ hce).2]
    rw [calculateExpectedUtility_congr P _ (fom_congr P aid ag _ _ _ hce).1]
  · rw [if_neg ht, if_neg ht]
    exact ⟨hce, rfl⟩

theorem chooseNS_congr (P : Params) (aid : Nat) (ag : AgentSt) {s t : SimState}
    (hce : CoreEq s t) :
    CoreEq (chooseNS P s aid ag).1 (chooseNS P t aid ag).1 ∧
    (chooseNS P s aid ag).2 = (chooseNS P t aid ag).2 := by
  unfold chooseNS
  dsimp only
  refine ⟨(cps_congr P aid ag (fdm_congr P aid ag ag.stake hce).1).1, ?_⟩
  rw [calculateCurrentUtility_congr P ag hce,
    calculateExpectedUtility_congr P ag.strategy hce,
    (fdm_congr P aid ag ag.stake hce).2,
    calculateExpectedUtility_congr P _ (fdm_congr P aid ag ag.stake hce).1,
    (cps_congr P aid ag (fdm_congr P aid ag ag.stake hce).1).2]

/-- The evaluation pipeline never reads the agent's pending strategy: its
result is unchanged when only `new_strategy` differs. -/
theorem chooseNS_pending_insensitive (P : Params) (s : SimState) (aid : Nat)
    (ag : AgentSt) (x : Option Strategy) :
    chooseNS P s aid { ag with new_strategy := x } = chooseNS P s aid ag := rfl

theorem updateStrategy_agent (P : Params) (s : SimState) (aid : Nat)
    (ag : AgentSt) (hag : dget s.agents aid = some ag) :
    dget (updateStrategy P s aid).agents aid
      = some { ag with new_strategy := (chooseNS P s aid ag).2 } := by
  unfold updateStrategy
  rw [hag]
  dsimp only
  exact dget_dset_self _ _ _

/-- **C3 (amended).** The evaluation performed by `update_strategy` leaves
the global pool table, both ranking structures, every pool's stake and
delegators (parts of the unchanged table), and every other agent's entry
unchanged, but it is *not* pure: the pool-id sequence can only grow, and it
does grow whenever `find_operator_move` drafts a pool through
`get_next_pool_id`.  Consequently two successive calls agree on the pending
strategy exactly in the no-draft case: whenever the first call left the
pool-id sequence unchanged, the second call stores the same `new_strategy`.
Hypotheses: the C2 ranking invariant, the delegation well-formedness of the
agent's committed allocations, and antisymmetry of the myopic ranking key on
the ranking's members. -/
theorem C3_update_strategy (P : Params) (k : Nat) (s : SimState) (aid : Nat)
    (hinv : C2Inv P k s)
    (hwf : ∀ ag, dget s.agents aid = some ag → AllocWF s.pools aid ag)
    (hanti : ∀ x ∈ s.rankingM, ∀ y ∈ s.rankingM,
      listLe (poolKeyM P s.pools x) (poolKeyM P s.pools y) = true →
      listLe (poolKeyM P s.pools y) (poolKeyM P s.pools x) = true → x = y) :
    (updateStrategy P s aid).pools = s.pools ∧
    (updateStrategy P s aid).rankingN = s.rankingN ∧
    (updateStrategy P s aid).rankingM = s.rankingM ∧
    s.id_seq ≤ (updateStrategy P s aid).id_seq ∧
    (∀ q, q ≠ aid → dget (updateStrategy P s aid).agents q = dget s.agents q) ∧
    ((updateStrategy P s aid).id_seq = s.id_seq →
      (dget (updateStrategy P (updateStrategy P s aid) aid).agents aid).map
          (fun a => a.new_strategy)
        = (dget (updateStrategy P s aid).agents aid).map
          (fun a => a.new_strategy)) := by
  have hfr := updateStrategy_frame P s aid hwf
  have hM : (updateStrategy P s aid).rankingM = s.rankingM :=
    ranking_eq_of_c2inv hinv (c2inv_updateStrategy P k s aid hinv) hfr.1 hanti
  refine ⟨hfr.1, hfr.2.1, hM, hfr.2.2.1, hfr.2.2.2.1, ?_⟩
  intro hid
  cases hag : dget s.agents aid with
  | none =>
    have hus : updateStrategy P s aid = s := by
      unfold updateStrategy
      rw [hag]
    rw [hus, hus]
  | some ag =>
    have hce : CoreEq (updateStrategy P s aid) s := ⟨hfr.1, hfr.2.1, hM, hid⟩
    have h1 := updateStrategy_agent P s aid ag hag
    have h2 := updateStrategy_agent P (updateStrategy P s aid) aid
      { ag with new_strategy := (chooseNS P s aid ag).2 } h1
    have hns2 : (chooseNS P (updateStrategy P s aid) aid
        { ag with new_strategy := (chooseNS P s aid ag).2 }).2
        = (chooseNS P s aid ag).2 := by
      rw [chooseNS_pending_insensitive]
      exact (chooseNS_congr P aid ag hce).2
    rw [h2, h1]
    show some (chooseNS P (updateStrategy P s aid) aid
        { ag with new_strategy := (chooseNS P s aid ag).2 }).2
      = some (chooseNS P s aid ag).2
    exact congrArg some hns2

/-- Witness for the amended C3 at concrete inputs. -/
theorem C3_update_strategy_witness :
    C2Inv P0 0 simC2 ∧
    (updateStrategy P0 simC2 1).pools = simC2.pools ∧
    (updateStrategy P0 simC2 1).rankingM = simC2.rankingM := by
  have h : C2Inv P0 0 simC2 :=
    ⟨by decide, by decide, by decide, by decide, by decide,
     List.Pairwise.cons (fun b hb => absurd hb (List.not_mem_nil b))
       List.Pairwise.nil,
     List.Pairwise.cons (fun b hb => absurd hb (List.not_mem_nil b))
       List.Pairwise.nil⟩
  have hwf : ∀ ag, dget simC2.agents 1 = some ag → AllocWF simC2.pools 1 ag := by
    intro ag hag
    simp [simC2, dget] at hag
  have hanti : ∀ x ∈ simC2.rankingM, ∀ y ∈ simC2.rankingM,
      listLe (poolKeyM P0 simC2.pools x) (poolKeyM P0 simC2.pools y) = true →
      listLe (poolKeyM P0 simC2.pools y) (poolKeyM P0 simC2.pools x) = true →
      x = y := by
    intro x hx y hy _ _
    have hx' : x = none := by simpa [simC2] using hx
    have hy' : y = none := by simpa [simC2] using hy
    rw [hx', hy']
  have hc := C3_update_strategy P0 0 simC2 1 h hwf hanti
  exact ⟨h, hc.1, hc.2.2.1⟩

/-- Parameters with a single-pool operator regime (`k = 1`), to keep the
pool-count search at its base case. -/
def P1 : Params := { P0 with k := 1 }

/-- A single agent with stake but no pools and no delegations. -/
def agC3 : AgentSt :=
  { stake := 100, cost := 1, strategy := {}, new_strategy := none,
    rankings_myopic := false }

/-- The counterexample state for C3: empty pool table, fresh pool-id
sequence, one agent. -/
def simC3 : SimState :=
  { pools := [], rankingN := [none, none], rankingM := [none, none],
    id_seq := 0, agents := [(1, agC3)], simultaneous := false }

/-- Counterexample to the literal C3: `update_strategy` advances the model's
pool-id sequence (the drafted pool draws a fresh id), and two successive
calls store different pending strategies (the drafted pool ids differ). -/
theorem C3_update_strategy_counterexample :
    (updateStrategy P1 simC3 1).id_seq ≠ simC3.id_seq ∧
    (dget (updateStrategy P1 (updateStrategy P1 simC3 1) 1).agents 1).map
        (fun a => a.new_strategy)
      ≠ (dget (updateStrategy P1 simC3 1).agents 1).map
        (fun a => a.new_strategy) := by
  have hT : chooseT (fun n => (P1.margins_and_utility n).2) 1 P1.k = 1 := by
    unfold chooseT
    norm_num [P1, P0]
  unfold updateStrategy chooseNS choosePoolStrategy
  dsimp only
  rw [hT]
  norm_num [findOperatorMove, draftStep, refreshPool, findDelegationForOperator,
    findDelegationMove, determineStakeAllocations, eligiblePools, agentRankings,
    scanAllocations, allocScan, delegateStep, determinePoolsToKeep, topPoolIds,
    calculateCurrentUtility, calculateExpectedUtility, augmentedUtility,
    selectNewStrategy, calculateMargin, referencePotentialProfit, getNextPoolId,
    mkPool, Pool.set_profit, Pool.set_desirability, Pool.set_margin,
    Pool.adjust_pledge, Pool.update_delegation, calculate_current_profit,
    calculate_potential_profit, calculate_pool_desirability,
    calculate_myopic_pool_desirability, calculate_suitable_margin,
    dget, dset, dsetS, derase, dkeys, dsum, simC3, agC3, P1, P0,
    MIN_STAKE_UNIT, max_def, List.range_succ, List.range_zero, List.foldl_cons,
    List.foldl_nil, List.enum_nil]

/-- Witness for the amended C1 at concrete inputs. -/
theorem C1_pool_invariant_witness :
    PoolInv (mkPool P0 1 (1/100) (1/2) 0 (2/10) false) ∧
    PoolInv (c1Pool.adjust_pledge (1/3)) ∧
    PoolInv (c1Pool.update_delegation MIN_STAKE_UNIT 7) ∧
    PoolInv (([5].foldl removeDelegStep (S7, c1Pool)).2) ∧
    (dget (c1Pool.update_delegation (MIN_STAKE_UNIT / 2) 7).delegators 7 = none ∧
      (c1Pool.update_delegation (MIN_STAKE_UNIT / 2) 7).stake =
        c1Pool.pledge + dsum (c1Pool.update_delegation (MIN_STAKE_UNIT / 2) 7).delegators +
          MIN_STAKE_UNIT / 2) := by
  have hinv : PoolInv c1Pool :=
    ⟨by norm_num [c1Pool, dsum], by intro e he; simp [c1Pool] at he⟩
  have hds : DSorted c1Pool.delegators := by
    show (List.map Prod.fst c1Pool.delegators).Pairwise (· < ·)
    simp [c1Pool]
  exact ⟨C1_pool_invariant.1 P0 1 (1/100) (1/2) 0 (2/10) false,
    C1_pool_invariant.2.1 c1Pool (1/3) hinv,
    C1_pool_invariant.2.2.1 c1Pool MIN_STAKE_UNIT 7 hds hinv (Or.inr (le_refl _)),
    C1_pool_invariant.2.2.2.1 [5] (S7, c1Pool) hds hinv,
    C1_pool_invariant.2.2.2.2 c1Pool (MIN_STAKE_UNIT / 2) 7 hds hinv
      (by norm_num [MIN_STAKE_UNIT]) (by norm_num [MIN_STAKE_UNIT])⟩

end RSS
